import Mathlib

/-!
Verification development for the spacetime-crawler repository.

The repository's Python sources are shallowly embedded as executable Lean
definitions:

* `src/utils/__init__.py` — URL canonicalization (`normalize`, `get_urlhash`)
  built on a model of the CPython `urllib.parse` routines it calls
  (`urldefrag`, `urlparse`, `urlunparse`, the `hostname`/`port`/`username`/
  `password` accessors).  The `urllib` model follows current CPython
  (3.11+/3.12) semantics: removal of tab/CR/LF bytes, stripping of leading
  C0-control-or-space characters, the mismatched-bracket check, and the
  bracketed-host validation against IPv6 / IPvFuture syntax.  Python strings
  are modelled as `List Char`; `str.lower` is modelled on ASCII letters.
* `src/utils/analytics.py` — the `Analytics` state and its operations.
* `src/crawler/frontier.py` — the frontier state and a step relation.
* `src/scraper.py` — `is_valid` and `extract_next_links`.
* `src/cbor.py` — the CBOR subset encoder/decoder and the binary16 decoder.

SHA-256 digests are modelled by an injective stand-in (the digested string
itself): the repository only ever compares digests for equality, so the
embedding assumes collision-freedom of SHA-256 on the crawl's inputs.
-/

namespace Crawler

/-- Python strings are modelled as lists of characters. -/
abbrev Str := List Char

/-- Coerce a Lean string literal into the model's string type. -/
def lit (s : String) : Str := s.data

/-- Split a string at the first occurrence of `d`; the delimiter is dropped.
Models `str.partition` / `str.split(d, 1)` when the delimiter occurs. -/
def splitOnFirst (d : Char) : Str → Option (Str × Str)
  | [] => none
  | c :: rest =>
    if c = d then some ([], rest)
    else
      match splitOnFirst d rest with
      | none => none
      | some (a, b) => some (c :: a, b)

/-- Split a string at the last occurrence of `d`; the delimiter is dropped.
Models `str.rpartition` when the delimiter occurs. -/
def splitOnLast (d : Char) (s : Str) : Option (Str × Str) :=
  match splitOnFirst d s.reverse with
  | none => none
  | some (a, b) => some (b.reverse, a.reverse)

/-- Split on every occurrence of the delimiter, modelling `str.split(d)`. -/
def splitAll (d : Char) : Str → List Str
  | [] => [[]]
  | c :: rest =>
    let r := splitAll d rest
    if c = d then [] :: r
    else
      match r with
      | [] => [[c]]
      | h :: t => (c :: h) :: t

/-- Membership of a character in a string. -/
def hasChar (d : Char) (s : Str) : Bool := s.any (fun c => c = d)

/-- ASCII uppercase letter test. -/
def isUpperC (c : Char) : Bool := 'A' ≤ c && c ≤ 'Z'

/-- ASCII letter test, modelling the `isascii() and isalpha()` guard CPython
applies to the first character of a candidate scheme. -/
def isAsciiAlpha (c : Char) : Bool := ('A' ≤ c && c ≤ 'Z') || ('a' ≤ c && c ≤ 'z')

/-- ASCII digit test. -/
def isDigitC (c : Char) : Bool := '0' ≤ c && c ≤ '9'

/-- ASCII hexadecimal digit test. -/
def isHexC (c : Char) : Bool :=
  isDigitC c || ('a' ≤ c && c ≤ 'f') || ('A' ≤ c && c ≤ 'F')

/-- Model of `str.lower` for one character, on the ASCII range. -/
def lowerChar (c : Char) : Char :=
  if isUpperC c then Char.ofNat (c.toNat + 32) else c

/-- Model of `str.lower`. -/
def lowerStr (s : Str) : Str := s.map lowerChar

/-- Numeric value of a decimal digit string, modelling `int(s, 10)` on an
all-digit string. -/
def digitsVal (s : Str) : Nat := s.foldl (fun a c => a * 10 + (c.toNat - 48)) 0

/-- Decimal digits of a natural number, accumulator form. -/
def natDigitsGo : Nat → Nat → Str → Str
  | 0, _, acc => acc
  | fuel + 1, n, acc =>
    if n = 0 then acc
    else natDigitsGo fuel (n / 10) (Char.ofNat (48 + n % 10) :: acc)

/-- Decimal representation of a natural number, modelling `str(n)` /
f-string interpolation of an `int`. -/
def natDigits (n : Nat) : Str :=
  if n = 0 then ['0'] else natDigitsGo n n []

/-! ## Model of `urllib.parse` (CPython 3.11+/3.12)

The repository's URL handling delegates to the CPython standard library;
these definitions model the exact routines it calls. -/

/-- Errors raised by the modelled `urllib.parse` routines (`ValueError`s in
CPython). -/
inductive UrlErr where
  /-- "Invalid IPv6 URL": one bracket present in the authority without the
  other. -/
  | invalidIPv6
  /-- `_check_bracketed_host` rejected the text between the first `[` and the
  following `]` of the authority. -/
  | badBracketHost
  /-- The port string is not all decimal digits. -/
  | portNotDigits
  /-- The port value exceeds 65535. -/
  | portOutOfRange
  /-- `_checknetloc` rejected a non-ASCII authority whose NFKC normalization
  introduces one of `/?#@:`. -/
  | netlocNFKC
  deriving DecidableEq, Repr

/-- Characters CPython strips from the front of a URL
(`_WHATWG_C0_CONTROL_OR_SPACE`). -/
def c0OrSpace (c : Char) : Bool := c.toNat ≤ 32

/-- Characters CPython removes everywhere in a URL
(`_UNSAFE_URL_BYTES_TO_REMOVE` = tab, CR, LF). -/
def unsafeByte (c : Char) : Bool := c = '\t' || c = '\r' || c = '\n'

/-- The sanitisation `urlsplit` applies before parsing: strip leading
C0-control-or-space characters, then remove every tab/CR/LF. -/
def cleanUrl (s : Str) : Str :=
  (s.dropWhile c0OrSpace).filter (fun c => !unsafeByte c)

/-- Characters permitted after the first character of a scheme
(`scheme_chars`). -/
def schemeChar (c : Char) : Bool :=
  isAsciiAlpha c || isDigitC c || c = '+' || c = '-' || c = '.'

/-- Scheme extraction step of `urlsplit`: if the text up to the first colon is
a well-formed scheme, return it lowercased together with the remainder;
otherwise return an empty scheme and the input unchanged. -/
def extractScheme (u : Str) : Str × Str :=
  match splitOnFirst ':' u with
  | none => ([], u)
  | some (pre, post) =>
    match pre with
    | [] => ([], u)
    | c :: cs =>
      if isAsciiAlpha c && cs.all schemeChar then (lowerStr (c :: cs), post)
      else ([], u)

/-- Delimiters that terminate the authority component (`_splitnetloc`). -/
def netlocDelim (c : Char) : Bool := c = '/' || c = '?' || c = '#'

/-- Does the string start with two slashes? -/
def startsSlashSlash : Str → Bool
  | '/' :: '/' :: _ => true
  | _ => false

/-- Hextet of an IPv6 address: one to four hexadecimal digits. -/
def isHextet (s : Str) : Bool :=
  decide (s ≠ []) && decide (s.length ≤ 4) && s.all isHexC

/-- Octet of a dotted-quad IPv4 address, with CPython's rejection of leading
zeros. -/
def isIPv4Octet (s : Str) : Bool :=
  decide (s ≠ []) && decide (s.length ≤ 3) && s.all isDigitC &&
    (decide (s.length = 1) || decide (s.head? ≠ some '0')) &&
    decide (digitsVal s ≤ 255)

/-- Dotted-quad IPv4 address test (`ipaddress.IPv4Address`). -/
def isIPv4 (s : Str) : Bool :=
  let parts := splitAll '.' s
  decide (parts.length = 4) && parts.all isIPv4Octet

/-- Interior empty parts of a colon-split address: candidate positions of the
`::` gap (positions `1 .. len-2` in CPython's scan). -/
def ipv6SkipIndices (parts : List Str) : List Nat :=
  (List.range parts.length).filter (fun i =>
    decide (1 ≤ i) && decide (i + 1 < parts.length) &&
      decide (parts.getD i [' '] = []))

/-- Core of `ipaddress.IPv6Address._ip_int_from_string` as a validity test,
after scope-id removal. -/
def isIPv6Core (addr : Str) : Bool :=
  let parts0 := splitAll ':' addr
  if parts0.length < 3 then false
  else
    let lastPart := parts0.getLastD []
    let embedded := hasChar '.' lastPart
    if embedded && !isIPv4 lastPart then false
    else
      let parts := if embedded then parts0.dropLast ++ [['0'], ['0']] else parts0
      if parts.length > 9 then false
      else
        match ipv6SkipIndices parts with
        | [] =>
          decide (parts.length = 8) && decide (parts.getD 0 [] ≠ []) &&
            decide (parts.getLastD [] ≠ []) && parts.all isHextet
        | [k] =>
          let hi0 := k
          let lo0 := parts.length - k - 1
          let headEmpty := decide (parts.getD 0 [' '] = [])
          let lastEmpty := decide (parts.getLastD [' '] = [])
          let hi := if headEmpty then hi0 - 1 else hi0
          let lo := if lastEmpty then lo0 - 1 else lo0
          (!headEmpty || decide (hi0 - 1 = 0)) &&
            (!lastEmpty || decide (lo0 - 1 = 0)) &&
            decide (hi + lo + 1 ≤ 8) &&
            ((parts.take hi).all isHextet) &&
            ((parts.drop (parts.length - lo)).all isHextet)
        | _ => false

/-- Full `ipaddress.IPv6Address` textual validity: an optional non-empty
`%scope` (itself free of `%`), and no `/`. -/
def isIPv6 (h : Str) : Bool :=
  if hasChar '/' h then false
  else
    match splitOnFirst '%' h with
    | none => isIPv6Core h
    | some (addr, scope) =>
      decide (scope ≠ []) && !hasChar '%' scope && isIPv6Core addr

/-- Model of `urllib.parse._check_bracketed_host`: an IPvFuture literal
(`v` + hex digits + `.` + non-empty tail) or a valid IPv6 address.  CPython
distinguishes several `ValueError` messages (IPv4 in brackets, malformed
IPvFuture, invalid IPv6); the model collapses them into one error kind. -/
def checkBracketedHost (h : Str) : Except UrlErr Unit :=
  match h with
  | 'v' :: rest =>
    match splitOnFirst '.' rest with
    | none => .error .badBracketHost
    | some (hexs, tail) =>
      if decide (hexs ≠ []) && hexs.all isHexC && decide (tail ≠ []) &&
          !hasChar '\n' tail then
        .ok ()
      else .error .badBracketHost
  | _ => if isIPv6 h then .ok () else .error .badBracketHost

/-- The text between the first `[` of the authority and the `]` that follows
it: `netloc.partition('[')[2].partition(']')[0]`. -/
def bracketedHostOf (netloc : Str) : Str :=
  match splitOnFirst '[' netloc with
  | none => []
  | some (_, after) =>
    match splitOnFirst ']' after with
    | none => after
    | some (pre, _) => pre

/-- Result of `urlsplit`. -/
structure SplitResult where
  scheme : Str
  netloc : Str
  path : Str
  query : Str
  fragment : Str
  deriving DecidableEq, Repr

/-- Model of `urllib.parse.urlsplit` with `allow_fragments=True`.  This is the part of
CPython's `urlsplit` before its final `_checknetloc` call; `urlsplitFull`
below adds that NFKC authority check, and the two agree on every empty or
all-ASCII authority. -/
def urlsplit (url0 : Str) : Except UrlErr SplitResult := do
  let u := cleanUrl url0
  let (scheme, rest0) := extractScheme u
  let (netloc, rest1) :=
    match rest0 with
    | '/' :: '/' :: r2 =>
      (r2.takeWhile (fun c => !netlocDelim c), r2.dropWhile (fun c => !netlocDelim c))
    | _ => ([], rest0)
  if (hasChar '[' netloc && !hasChar ']' netloc) ||
      (hasChar ']' netloc && !hasChar '[' netloc) then
    throw .invalidIPv6
  if hasChar '[' netloc && hasChar ']' netloc then
    checkBracketedHost (bracketedHostOf netloc)
  let (rest2, fragment) :=
    match splitOnFirst '#' rest1 with
    | none => (rest1, [])
    | some (a, b) => (a, b)
  let (path, query) :=
    match splitOnFirst '?' rest2 with
    | none => (rest2, [])
    | some (a, b) => (a, b)
  pure ⟨scheme, netloc, path, query, fragment⟩

/-- Schemes whose URLs may carry `;parameters` on the last path segment
(`urllib.parse.uses_params`, with the empty scheme included). -/
def usesParams (s : Str) : Bool :=
  [lit "", lit "ftp", lit "hdl", lit "prospero", lit "http", lit "imap",
    lit "https", lit "shttp", lit "rtsp", lit "rtsps", lit "rtspu", lit "sip",
    lit "sips", lit "mms", lit "sftp", lit "tel"].any (fun x => x = s)

/-- Schemes that use a network location (`urllib.parse.uses_netloc`; the
empty scheme is a member of the Python list but `urlunsplit` additionally
requires a truthy scheme). -/
def usesNetloc (s : Str) : Bool :=
  [lit "", lit "ftp", lit "http", lit "gopher", lit "nntp", lit "telnet",
    lit "imap", lit "wais", lit "file", lit "mms", lit "https", lit "shttp",
    lit "snews", lit "prospero", lit "rtsp", lit "rtsps", lit "rtspu",
    lit "rsync", lit "svn", lit "svn+ssh", lit "sftp", lit "nfs", lit "git",
    lit "git+ssh", lit "ws", lit "wss"].any (fun x => x = s)

/-- Model of `urllib.parse._splitparams`. -/
def splitParams (u : Str) : Str × Str :=
  match splitOnLast '/' u with
  | some (pre, post) =>
    match splitOnFirst ';' post with
    | none => (u, [])
    | some (a, b) => (pre ++ '/' :: a, b)
  | none =>
    match splitOnFirst ';' u with
    | none => (u, [])
    | some (a, b) => (a, b)

/-- Result of `urlparse`. -/
structure ParseResult where
  scheme : Str
  netloc : Str
  path : Str
  params : Str
  query : Str
  fragment : Str
  deriving DecidableEq, Repr

/-- Model of `urllib.parse.urlparse`. -/
def urlparse (u : Str) : Except UrlErr ParseResult := do
  let s ← urlsplit u
  if usesParams s.scheme && hasChar ';' s.path then
    let (p, pr) := splitParams s.path
    pure ⟨s.scheme, s.netloc, p, pr, s.query, s.fragment⟩
  else
    pure ⟨s.scheme, s.netloc, s.path, [], s.query, s.fragment⟩

/-- The authority with any `userinfo@` removed: `netloc.rpartition('@')[2]`. -/
def afterLastAt (netloc : Str) : Str :=
  match splitOnLast '@' netloc with
  | none => netloc
  | some (_, host) => host

/-- Model of `SplitResult._hostinfo`: the raw (uncased) host and the port
string (`none` when absent or empty). -/
def hostinfo (netloc : Str) : Str × Option Str :=
  let hi := afterLastAt netloc
  match splitOnFirst '[' hi with
  | some (_, bracketed) =>
    match splitOnFirst ']' bracketed with
    | none => (bracketed, none)
    | some (h, after) =>
      match splitOnFirst ':' after with
      | none => (h, none)
      | some (_, p) => (h, if p = [] then none else some p)
  | none =>
    match splitOnFirst ':' hi with
    | none => (hi, none)
    | some (h, p) => (h, if p = [] then none else some p)

/-- Model of the `hostname` property composed with the `or ""` the repository
applies: the host with its address part lowercased (a `%zone` suffix keeps its
case), empty when absent. -/
def hostnameOf (netloc : Str) : Str :=
  let h := (hostinfo netloc).1
  match splitOnFirst '%' h with
  | none => lowerStr h
  | some (addr, zone) => lowerStr addr ++ '%' :: zone

/-- Model of the `port` property: `None`, a value in `0..65535`, or a
`ValueError`. -/
def portOf (netloc : Str) : Except UrlErr (Option Nat) :=
  match (hostinfo netloc).2 with
  | none => pure none
  | some p =>
    if p.all isDigitC then
      let v := digitsVal p
      if v ≤ 65535 then pure (some v) else throw .portOutOfRange
    else throw .portNotDigits

/-- Model of `SplitResult._userinfo`: the `username` and `password`
properties. -/
def userinfoOf (netloc : Str) : Option Str × Option Str :=
  match splitOnLast '@' netloc with
  | none => (none, none)
  | some (ui, _) =>
    match splitOnFirst ':' ui with
    | none => (some ui, none)
    | some (u, p) => (some u, some p)

/-- Model of `urllib.parse.urlunsplit`. -/
def urlunsplit (scheme netloc path query fragment : Str) : Str :=
  let url :=
    if netloc ≠ [] ||
        (scheme ≠ [] && usesNetloc scheme && !startsSlashSlash path) then
      let p := if path ≠ [] && decide (path.head? ≠ some '/') then '/' :: path else path
      '/' :: '/' :: (netloc ++ p)
    else path
  let url := if scheme ≠ [] then scheme ++ ':' :: url else url
  let url := if query ≠ [] then url ++ '?' :: query else url
  if fragment ≠ [] then url ++ '#' :: fragment else url

/-- Model of `urllib.parse.urlunparse`. -/
def urlunparse (scheme netloc path params query fragment : Str) : Str :=
  urlunsplit scheme netloc (if params ≠ [] then path ++ ';' :: params else path)
    query fragment

/-- Model of `urllib.parse.urldefrag` (the defragmented URL; the fragment
itself is unused by the repository). -/
def urldefrag (u : Str) : Except UrlErr Str :=
  if hasChar '#' u then do
    let p ← urlparse u
    pure (urlunparse p.scheme p.netloc p.path p.params p.query [])
  else pure u

/-- `str.isascii()` on a character. -/
def isAsciiChar (c : Char) : Bool := c.toNat < 128

/-- Model of `urllib.parse._checknetloc` (CPython 3.11): an empty or
all-ASCII authority passes; otherwise the authority with `@:#?` removed is
NFKC-normalized and the check fails when normalization changes it and the
normal form contains one of `/?#@:`.  The NFKC normalization table is
environment data, so the normalizer is a parameter of the model, exactly as
the percent-decoder of `parse_qsl` is. -/
def checkNetloc (nfkc : Str → Str) (netloc : Str) : Except UrlErr Unit :=
  if netloc = [] || netloc.all isAsciiChar then pure ()
  else
    let n := netloc.filter (fun c => !(c = '@'))
    let n := n.filter (fun c => !(c = ':'))
    let n := n.filter (fun c => !(c = '#'))
    let n := n.filter (fun c => !(c = '?'))
    let netloc2 := nfkc n
    if n = netloc2 then pure ()
    else if ['/', '?', '#', '@', ':'].any (fun c => hasChar c netloc2) then
      throw .netlocNFKC
    else pure ()

/-- Model of `urllib.parse.urlsplit` including its final `_checknetloc`
call.  In CPython the check runs after the fragment and query splits, which
never raise, so appending the check to the pre-check result preserves both
the error order and the returned value. -/
def urlsplitFull (nfkc : Str → Str) (u : Str) : Except UrlErr SplitResult := do
  let s ← urlsplit u
  checkNetloc nfkc s.netloc
  pure s

/-- Model of `urllib.parse.urlparse` including `_checknetloc`: the params
split after `urlsplit` is pure, and the authority it passes through is the
one `_checknetloc` saw. -/
def urlparseFull (nfkc : Str → Str) (u : Str) : Except UrlErr ParseResult := do
  let p ← urlparse u
  checkNetloc nfkc p.netloc
  pure p

/-- Model of `urllib.parse.urldefrag` including `_checknetloc` (the parse it
performs when a fragment marker is present runs the check). -/
def urldefragFull (nfkc : Str → Str) (u : Str) : Except UrlErr Str :=
  if hasChar '#' u then do
    let p ← urlparseFull nfkc u
    pure (urlunparse p.scheme p.netloc p.path p.params p.query [])
  else pure u

/-- The `userinfo` prefix `normalize` rebuilds from the `username` and
`password` properties (`src/utils/__init__.py`). -/
def buildUserinfo (n : Str) : Str :=
  match userinfoOf n with
  | (some u1, pw) =>
    if u1 ≠ [] then
      match pw with
      | some pw1 =>
        if pw1 ≠ [] then u1 ++ ':' :: pw1 ++ ['@'] else u1 ++ ['@']
      | none => u1 ++ ['@']
    else []
  | (none, _) => []

/-- The port `normalize` keeps: dropped when falsy (absent or 0) or when it is
the scheme's default port. -/
def portKeep (scheme : Str) (port : Option Nat) : Option Nat :=
  let isDefaultPort :=
    (scheme = lit "http" && port = some 80) ||
      (scheme = lit "https" && port = some 443)
  match port with
  | some pt => if pt ≠ 0 && !isDefaultPort then some pt else none
  | none => none

/-- The authority `normalize` rebuilds: userinfo, lowercased (re-bracketed if
needed) host, and the kept port. -/
def buildNetloc (scheme n : Str) (port : Option Nat) : Str :=
  let host0 := lowerStr (hostnameOf n)
  let host :=
    if host0 ≠ [] && hasChar ':' host0 && decide (host0.head? ≠ some '[') then
      '[' :: host0 ++ [']']
    else host0
  match portKeep scheme port with
  | some pt => buildUserinfo n ++ host ++ ':' :: natDigits pt
  | none => buildUserinfo n ++ host

/-- Model of `utils.normalize` (`src/utils/__init__.py`): the repository's URL
canonicalizer. -/
def normalize (u : Str) : Except UrlErr Str :=
  if u = [] then pure u
  else do
    let d ← urldefrag u
    let p ← urlparse d
    let scheme := lowerStr p.scheme
    let port ← portOf p.netloc
    pure (urlunparse scheme (buildNetloc scheme p.netloc port) p.path p.params
      p.query [])

/-- Model of SHA-256 digesting (`hashlib.sha256(...).digest()` /
`.hexdigest()`).  The repository only compares digests for equality, so the
digest of a string is modelled by the string itself — an injective stand-in
that assumes collision-freedom on the crawl's inputs. -/
def sha256digest (s : Str) : Str := s

/-- Model of `utils.get_urlhash`: the digest of the normalized URL.  Fails
exactly when `normalize` raises. -/
def get_urlhash (u : Str) : Except UrlErr Str := do
  let n ← normalize u
  pure (sha256digest n)

/-! ## Model of `src/utils/analytics.py` -/

/-- Model of the `LongestPage` dataclass. -/
structure LongestPage where
  url : Str
  words : Nat
  deriving DecidableEq, Repr

/-- Model of the mutable state of the `Analytics` class.  Python sets are
modelled as duplicate-free lists, `Counter`/`dict` objects as association
lists in insertion order.  The stopword set is a state component (the default
built-in set possibly augmented from a `stopwords.txt`); the file-system side
of loading, checkpointing and `summary.json` emission is I/O and is not
modelled, but the dirty-page counter driving the page-count checkpoint
condition is.  The wall-clock checkpoint condition (`save_every_seconds`) is
real time and is outside the model. -/
structure AState where
  uniqueUrlHashes : List Str
  subdomainCounts : List (Str × Nat)
  wordFrequencies : List (Str × Nat)
  longestPage : LongestPage
  exactDigests : List Str
  simhashBuckets : List (Nat × List Nat)
  duplicateExact : Nat
  duplicateNear : Nat
  skippedLowinfo : Nat
  dirtyPages : Nat
  stopwords : List Str
  saveEveryPages : Nat
  deriving DecidableEq, Repr

/-- A fresh analytics state (the constructor's counters, with a given
stopword set and checkpoint page threshold). -/
def freshAnalytics (stopwords : List Str) (saveEveryPages : Nat) : AState :=
  ⟨[], [], [], ⟨[], 0⟩, [], [], 0, 0, 0, 0, stopwords, saveEveryPages⟩

/-- Model of `set.add` on a set of strings. -/
def setAdd (x : Str) (s : List Str) : List Str := if x ∈ s then s else x :: s

/-- Model of `Counter[k] += 1` (a missing key starts at zero; a new key is
appended in insertion order). -/
def counterBump (k : Str) : List (Str × Nat) → List (Str × Nat)
  | [] => [(k, 1)]
  | (k', n) :: rest =>
    if k' = k then (k', n + 1) :: rest else (k', n) :: counterBump k rest

/-- Model of `Counter.update(words)`. -/
def counterBumpMany (ws : List Str) (c : List (Str × Nat)) : List (Str × Nat) :=
  ws.foldl (fun acc w => counterBump w acc) c

/-- Model of `Analytics._maybe_save_locked` restricted to its state effect:
when the dirty-page counter reaches `save_every_pages` the state is
checkpointed and the counter resets.  The elapsed-wall-clock trigger is not
modelled. -/
def maybeSave (st : AState) : AState :=
  if st.saveEveryPages ≤ st.dirtyPages then { st with dirtyPages := 0 } else st

/-- Model of `Analytics.record_url`.  The Python method adds the hash to the
set before parsing the URL for the subdomain count; the model parses first,
which is observable only in the (unclaimed) case where `urlparse` raises
after the hash was recorded. -/
def recordUrl (st : AState) (url : Str) : Except UrlErr (Bool × AState) :=
  if url = [] then .ok (false, st)
  else do
    let urlKey ← urldefrag url
    let keyAgain ← urldefrag urlKey
    let urlHash := sha256digest keyAgain
    if urlHash ∈ st.uniqueUrlHashes then
      pure (false, st)
    else do
      let parsed ← urlparse urlKey
      let host := lowerStr (hostnameOf parsed.netloc)
      let st := { st with uniqueUrlHashes := setAdd urlHash st.uniqueUrlHashes }
      let st :=
        if (lit ".uci.edu").isSuffixOf host then
          { st with subdomainCounts := counterBump host st.subdomainCounts }
        else st
      pure (true, maybeSave { st with dirtyPages := st.dirtyPages + 1 })

/-- Model of `Analytics.record_words`. -/
def recordWords (st : AState) (url : Str) (words : List Str) :
    Except UrlErr AState :=
  if url = [] || words = [] then .ok st
  else do
    let urlKey ← urldefrag url
    let wc := words.length
    let st :=
      if st.longestPage.words < wc then { st with longestPage := ⟨urlKey, wc⟩ }
      else st
    pure (maybeSave { st with
      wordFrequencies := counterBumpMany words st.wordFrequencies,
      dirtyPages := st.dirtyPages + 1 })

/-- Model of `Analytics.mark_lowinfo_skipped`. -/
def markLowinfoSkipped (st : AState) : AState :=
  maybeSave { st with
    skippedLowinfo := st.skippedLowinfo + 1,
    dirtyPages := st.dirtyPages + 1 }

/-- Are both characters of an apostrophe pair: the ASCII quote or the curly
quote used by the tokenizer regex. -/
def isApos (c : Char) : Bool := c = '\'' || c = '’'

/-- Greedy `(?:[’'][a-zA-Z]+)*` continuation of a token. -/
def tokApos : Nat → Str → Str × Str
  | 0, s => ([], s)
  | f + 1, s =>
    match s with
    | [] => ([], [])
    | a :: rest =>
      if isApos a then
        let run := rest.takeWhile isAsciiAlpha
        let rest2 := rest.dropWhile isAsciiAlpha
        if run = [] then ([], s)
        else
          let (more, rest3) := tokApos f rest2
          (a :: (run ++ more), rest3)
      else ([], s)

/-- Model of `re.findall` for the tokenizer pattern
`[a-zA-Z]{2,}(?:[’'][a-zA-Z]+)*`: scan left to right, take maximal matches,
continue after each match. -/
def findTokens : Nat → Str → List Str
  | 0, _ => []
  | f + 1, s =>
    match s with
    | [] => []
    | c :: rest =>
      if isAsciiAlpha c then
        let run := c :: rest.takeWhile isAsciiAlpha
        let rest2 := rest.dropWhile isAsciiAlpha
        if 2 ≤ run.length then
          let (ext, rest3) := tokApos rest2.length rest2
          (run ++ ext) :: findTokens f rest3
        else findTokens f rest2
      else findTokens f rest

/-- Fold the curly apostrophe to the ASCII one (`w.replace("’", "'")`). -/
def foldApos (s : Str) : Str := s.map (fun c => if c = '’' then '\'' else c)

/-- Model of `Analytics.tokenize`: regex matches, lowercased, curly
apostrophes folded, stopwords removed. -/
def tokenize (st : AState) (text : Str) : List Str :=
  ((findTokens text.length text).map (fun w => foldApos (lowerStr w))).filter
    (fun w => !decide (w ∈ st.stopwords))

/-- Model of `" ".join(words)`. -/
def joinSpace : List Str → Str
  | [] => []
  | [w] => w
  | w :: rest => w ++ ' ' :: joinSpace rest

/-- Model of `Analytics._shingles`. -/
def shingles (words : List Str) (k : Nat) : List Str :=
  if k ≤ 1 || words.length < k then words
  else (List.range (words.length - k + 1)).map
    (fun i => joinSpace ((words.drop i).take k))

/-- Bit-position accumulator of the SimHash: `+1` per set bit, `-1` per clear
bit, over all features.  The 64-bit feature hash (top 8 bytes of SHA-256 in
Python) is a parameter `h64` of the model. -/
def simhashAcc (h64 : Str → Nat) (features : List Str) (i : Nat) : Int :=
  features.foldl
    (fun acc f => acc + (if (h64 f % 2 ^ 64) >>> i % 2 = 1 then 1 else -1)) 0

/-- Model of `Analytics._simhash`. -/
def simhash (h64 : Str → Nat) (features : List Str) : Nat :=
  if features = [] then 0
  else
    (List.range 64).foldl
      (fun out i => if 0 ≤ simhashAcc h64 features i then out ||| (1 <<< i) else out)
      0

/-- The four 16-bit band keys of a fingerprint
(`(i << 16) | ((sim >> (i*16)) & 0xFFFF)`). -/
def bucketKeys (sim : Nat) : List Nat :=
  (List.range 4).map (fun i => (i <<< 16) ||| ((sim >>> (i * 16)) % 65536))

/-- Model of `dict.get` on the simhash buckets (`[]` for a missing key, like
the falsy `None`). -/
def bucketsGet (k : Nat) (b : List (Nat × List Nat)) : List Nat :=
  match b.find? (fun p => p.1 = k) with
  | some p => p.2
  | none => []

/-- Model of `set.add` on a set of fingerprints. -/
def natSetAdd (x : Nat) (s : List Nat) : List Nat := if x ∈ s then s else x :: s

/-- Model of `buckets.setdefault(k, set()).add(sim)`. -/
def bucketsAdd (k : Nat) (sim : Nat) : List (Nat × List Nat) → List (Nat × List Nat)
  | [] => [(k, [sim])]
  | (k', s) :: rest =>
    if k' = k then (k', natSetAdd sim s) :: rest
    else (k', s) :: bucketsAdd k sim rest

/-- Population count, modelling `int.bit_count()`. -/
def popCnt (n : Nat) : Nat := (Nat.bits n).count true

/-- Model of `Analytics.is_duplicate_text`.  The candidate set gathered from
the four bands is modelled as a concatenation (its set-dedup in Python only
removes repeats, which cannot change the existential Hamming test or the
single counter increment). -/
def isDuplicateText (h64 : Str → Nat) (st : AState) (words : List Str)
    (nearThresholdBits : Nat) : Bool × AState :=
  if words = [] then (false, st)
  else
    let digest := sha256digest (joinSpace words)
    let sh := shingles words 3
    let sim := simhash h64 sh
    if digest ∈ st.exactDigests then
      (true, { st with duplicateExact := st.duplicateExact + 1 })
    else
      let keys := bucketKeys sim
      let candidates := keys.foldl (fun acc k => acc ++ bucketsGet k st.simhashBuckets) []
      if candidates.any (fun cand => popCnt (Nat.xor sim cand) ≤ nearThresholdBits) then
        (true, { st with duplicateNear := st.duplicateNear + 1 })
      else
        let st := { st with
          exactDigests := setAdd digest st.exactDigests,
          simhashBuckets := keys.foldl (fun b k => bucketsAdd k sim b) st.simhashBuckets,
          dirtyPages := st.dirtyPages + 1 }
        (false, maybeSave st)

/-! ## Model of `src/crawler/frontier.py`

The sqlite table mirrors `seen`/`completed` durably; its rows are not part of
the in-memory invariant claimed, so the model keeps the in-memory state:
`to_be_downloaded` (a deque, appended on the right and popped from the
right), the seen-hash set, the in-progress counter and the closed flag.  The
constructor's seeding calls `add_url`, so every constructed state is
reachable from `initialFrontier` by `add` steps. -/

structure FState where
  pending : List Str
  seenHashes : List Str
  inProgress : Nat
  closed : Bool
  deriving DecidableEq, Repr

/-- The in-memory frontier state at the top of `Frontier.__init__`. -/
def initialFrontier : FState := ⟨[], [], 0, false⟩

/-- Model of `Frontier.add_url`: defragment, normalize, hash; no-op when
closed or already seen, else record the hash and append to the queue. -/
def addUrlF (st : FState) (u : Str) : Except UrlErr FState := do
  let d ← urldefrag u
  let v ← normalize d
  let h ← get_urlhash v
  pure
    (if st.closed then st
     else if h ∈ st.seenHashes then st
     else { st with seenHashes := h :: st.seenHashes, pending := st.pending ++ [v] })

/-- Model of `Frontier.mark_url_complete`: decrement `in_progress` (clamped
at zero), and latch `closed` when no work remains. -/
def markCompleteF (st : FState) (u : Str) : Except UrlErr FState := do
  let d ← urldefrag u
  let _ ← get_urlhash d
  let ip := st.inProgress - 1
  pure
    (if ip = 0 ∧ st.pending = [] then
      { st with inProgress := ip, closed := true }
     else { st with inProgress := ip })

/-- One atomic transition of the frontier under its monitor lock: an
`add_url` call, or one of the outcomes of `get_tbd_url` (latch `closed` and
return `None` when nothing is pending or in progress; pop the right end of
the queue and increment `in_progress`), or a `mark_url_complete` call.  A
`get_tbd_url` blocked on the condition variable does not change the state. -/
inductive FStep : FState → FState → Prop where
  | add (u : Str) (st st' : FState) (h : addUrlF st u = .ok st') : FStep st st'
  | getClose (st : FState) (h1 : st.closed = false) (h2 : st.pending = [])
      (h3 : st.inProgress = 0) : FStep st { st with closed := true }
  | getPop (st : FState) (us : List Str) (u : Str) (h1 : st.closed = false)
      (h2 : st.pending = us ++ [u]) :
      FStep st { st with pending := us, inProgress := st.inProgress + 1 }
  | mark (u : Str) (st st' : FState) (h : markCompleteF st u = .ok st') : FStep st st'

/-- States reachable from the initial frontier state. -/
inductive FReach : FState → Prop where
  | init : FReach initialFrontier
  | step (s s' : FState) (hs : FReach s) (hstep : FStep s s') : FReach s'

/-! ## Model of `src/scraper.py` -/

/-- Python string whitespace, for `str.strip()`. -/
def isPyWs (c : Char) : Bool :=
  c = ' ' || c = '\t' || c = '\n' || c = '\r' || c = '\x0b' || c = '\x0c'

/-- Model of `str.strip()`. -/
def stripWs (s : Str) : Str :=
  ((s.dropWhile isPyWs).reverse.dropWhile isPyWs).reverse

/-- Model of `str.replace('+', ' ')` in `parse_qsl`. -/
def plusToSpace (s : Str) : Str := s.map (fun c => if c = '+' then ' ' else c)

/-- Model of `urllib.parse.parse_qsl(qs, keep_blank_values=True)` with the
percent-decoder `unquote` (a stdlib routine) taken as a parameter. -/
def parseQsl (unquote : Str → Str) (qs : Str) : List (Str × Str) :=
  if qs = [] then []
  else
    (splitAll '&' qs).filterMap (fun nv =>
      if nv = [] then none
      else
        match splitOnFirst '=' nv with
        | none => some (unquote (plusToSpace nv), unquote (plusToSpace []))
        | some (n, v) => some (unquote (plusToSpace n), unquote (plusToSpace v)))

/-- The allowed host suffixes of the admission filter. -/
def allowedDomains : List Str :=
  [lit "ics.uci.edu", lit "cs.uci.edu", lit "informatics.uci.edu",
    lit "stat.uci.edu"]

/-- The trap-query substrings rejected by the admission filter. -/
def trapQuerySubstrings : List Str :=
  [lit "replytocom=", lit "session=", lit "sid=", lit "phpsessid=",
    lit "jsessionid=", lit "utm_"]

/-- The blacklisted path extensions, with the regex alternations `jpe?g` and
`tiff?` expanded. -/
def extBlacklist : List Str :=
  [lit "css", lit "js", lit "bmp", lit "gif", lit "jpg", lit "jpeg",
    lit "ico", lit "png", lit "tif", lit "tiff", lit "mid", lit "mp2",
    lit "mp3", lit "mp4", lit "wav", lit "avi", lit "mov", lit "mpeg",
    lit "ram", lit "m4v", lit "mkv", lit "ogg", lit "ogv", lit "pdf",
    lit "ps", lit "eps", lit "tex", lit "ppt", lit "pptx", lit "doc",
    lit "docx", lit "xls", lit "xlsx", lit "names", lit "data", lit "dat",
    lit "exe", lit "bz2", lit "tar", lit "msi", lit "bin", lit "7z",
    lit "psd", lit "dmg", lit "iso", lit "epub", lit "dll", lit "cnf",
    lit "tgz", lit "sha1", lit "thmx", lit "mso", lit "arff", lit "rtf",
    lit "jar", lit "csv", lit "rm", lit "smil", lit "wmv", lit "swf",
    lit "wma", lit "zip", lit "rar", lit "gz"]

/-- Model of `re.match(r".*\.(…)$", pl)` as a truth value: `.` does not cross
a newline and `$` also matches just before one trailing newline, so the
match succeeds exactly when, after dropping one trailing newline, the text is
newline-free and ends in a dot followed by a blacklisted extension. -/
def extMatch (pl : Str) : Bool :=
  let pl' := if pl.getLast? = some '\n' then pl.dropLast else pl
  !hasChar '\n' pl' && extBlacklist.any (fun e => ('.' :: e).isSuffixOf pl')

/-- Model of the Python substring test `needle in hay`. -/
def strInfix (needle : Str) : Str → Bool
  | [] => decide (needle = [])
  | c :: rest => needle.isPrefixOf (c :: rest) || strInfix needle rest

/-- Occurrences of `x` in `xs`. -/
def countIn (x : Str) (xs : List Str) : Nat := (xs.filter (fun y => y = x)).length

/-- The exception-free part of `scraper.is_valid` after the two parses: all
admission checks on the defragmented URL and its parse.  Every branch
returns a plain boolean; the port property (whose `ValueError`s would
escape) is never read.  The percent-decoder used by `parse_qsl` is a
parameter. -/
def isValidChecks (unquote : Str → Str) (url : Str) (parsed : ParseResult) :
    Bool :=
  if !(parsed.scheme = lit "http" || parsed.scheme = lit "https") then
    false
  else
    let host := lowerStr (hostnameOf parsed.netloc)
    if host = [] then false
    else if !allowedDomains.any
        (fun d => host = d || ('.' :: d).isSuffixOf host) then
      false
    else if 300 < url.length then false
    else if 200 < parsed.path.length then false
    else
      let pathSegs := (splitAll '/' parsed.path).filter (fun s => s ≠ [])
      if 25 < pathSegs.length then false
      else if pathSegs.any
          (fun seg => 5 < countIn (lowerStr seg) (pathSegs.map lowerStr)) then
        false
      else if parsed.query ≠ [] && 200 < parsed.query.length then false
      else if parsed.query ≠ [] then
        let q := lowerStr parsed.query
        if trapQuerySubstrings.any (fun t => strInfix t q) then false
        else
          let params := parseQsl unquote parsed.query
          if 8 < params.length then false
          else if params.any (fun kv =>
              2 < countIn (lowerStr kv.1) (params.map (fun p => lowerStr p.1))) then
            false
          else if params.any (fun kv => 100 < kv.2.length) then false
          else if (strInfix (lit "calendar") (lowerStr parsed.path) ||
              strInfix (lit "event") (lowerStr parsed.path)) &&
              4 ≤ params.length then
            false
          else !extMatch (lowerStr parsed.path)
      else !extMatch (lowerStr parsed.path)

/-- Model of `scraper.is_valid`.  The Python function wraps its body in
`try: … except TypeError: return False`; a `str` argument can only raise
`ValueError` (from URL parsing, including the NFKC authority check), which
escapes the handler, so the model returns the parse error itself in that
case.  The NFKC normalizer and the percent-decoder are parameters. -/
def isValid (nfkc unquote : Str → Str) (url0 : Str) : Except UrlErr Bool := do
  let url ← urldefragFull nfkc url0
  let parsed ← urlparseFull nfkc url
  pure (isValidChecks unquote url parsed)

/-- The part of a fetched response that `extract_next_links` reads from
`resp.raw_response` (a pickled `requests.Response`): its URL, body and
headers.  Bytes bodies are modelled as strings of their characters. -/
structure RawResponse where
  url : Option Str
  content : Option Str
  headers : Option (List (Str × Str))
  deriving Repr

/-- The cache-client `Response` as read by `extract_next_links`. -/
structure Response where
  url : Str
  status : Int
  rawResponse : Option RawResponse
  deriving Repr

/-- Case-insensitive header lookup (`requests` headers are a
case-insensitive mapping). -/
def headersGet (hs : List (Str × Str)) (k : Str) : Option Str :=
  (hs.find? (fun p => lowerStr p.1 = lowerStr k)).map (fun p => p.2)

/-- What the dependency-free fallback HTML parser produces: collected
`<a href>` values and the whitespace-joined visible text.  The parser itself
(`html.parser` / BeautifulSoup) is an external library; `extract_next_links`
takes it as a function that may fail. -/
structure ParsedDoc where
  links : List Str
  text : Str
  deriving Repr

/-- The lowercased `Content-Type` header of a raw response (`""` when the
response has no headers or no such header). -/
def contentTypeOf (raw : RawResponse) : Str :=
  match raw.headers with
  | some hs =>
    match headersGet hs (lit "Content-Type") with
    | some ct => lowerStr ct
    | none => []
  | none => []

/-- Python falsy-`or` chain over strings. -/
def firstNonEmpty (xs : List Str) : Str :=
  match xs.find? (fun s => s ≠ []) with
  | some s => s
  | none => []

/-- Model of `set.add` with insertion-order listing (`list(out)` in Python
enumerates a hash set; no claim depends on the order). -/
def setAddEnd (x : Str) (s : List Str) : List Str := if x ∈ s then s else s ++ [x]

/-- One `<a href>` of the fallback path of `extract_next_links`: strip, drop
empty and `mailto:`/`javascript:`/`tel:` links, join against the page URL,
defragment, and add to the output set. -/
def processHref (urljoin : Str → Str → Str) (pageUrl : Str) (acc : List Str)
    (href0 : Str) : Except UrlErr (List Str) :=
  let href := stripWs href0
  if href = [] then pure acc
  else
    let lw := lowerStr href
    if (lit "mailto:").isPrefixOf lw || (lit "javascript:").isPrefixOf lw ||
        (lit "tel:").isPrefixOf lw then
      pure acc
    else do
      let nextUrl ← urldefrag (urljoin pageUrl href)
      pure (if nextUrl ≠ [] then setAddEnd nextUrl acc else acc)

/-- Tail of `extract_next_links` after link collection and `record_url`: the
low-information heuristics and the duplicate check guarding `record_words`.
The float comparison `word_count / (outlink_count + 1) < 0.05` is modelled
as `word_count * 20 < outlink_count + 1`; with `200 < outlink_count ≤ 1000`
the quotient's denominator is at most 1001, so no value is close enough to
`1/20` for binary64 rounding to distinguish the two tests. -/
def scrapePage (h64 : Str → Nat) (st1 : AState) (isNew : Bool) (pageUrl : Str)
    (words : List Str) (out : List Str) : Except UrlErr (List Str × AState) :=
  let wordCount := words.length
  let outlinkCount := out.length
  if 1000 < outlinkCount then pure ([], markLowinfoSkipped st1)
  else if wordCount < 10 then pure ([], markLowinfoSkipped st1)
  else if 200 < outlinkCount && wordCount * 20 < outlinkCount + 1 then
    pure ([], markLowinfoSkipped st1)
  else if isNew && 50 ≤ wordCount then
    match isDuplicateText h64 st1 words 3 with
    | (true, st2) => pure ([], st2)
    | (false, st2) => do
      let st3 ← recordWords st2 pageUrl words
      pure (out, st3)
  else pure (out, st1)

/-- Model of `scraper.extract_next_links` on the dependency-free fallback
path (no BeautifulSoup, hence no `<base>` resolution), with the HTML parser
`parse` (failure = the parser raised), the stdlib `urljoin` and the SimHash
feature hash as parameters.  Returns the extracted links and the updated
analytics state. -/
def extract_next_links (parse : Str → Option ParsedDoc)
    (urljoin : Str → Str → Str) (h64 : Str → Nat) (url : Str) (resp : Response)
    (st : AState) : Except UrlErr (List Str × AState) :=
  if resp.status ≠ 200 then .ok ([], st)
  else
    match resp.rawResponse with
    | none => .ok ([], st)
    | some raw =>
      match raw.content with
      | none => .ok ([], st)
      | some content =>
        if content = [] then .ok ([], st)
        else do
          let pageUrl ← urldefrag (firstNonEmpty [raw.url.getD [], resp.url, url])
          let contentType := contentTypeOf raw
          if contentType ≠ [] && !strInfix (lit "text/html") contentType then
            pure ([], st)
          else if 5000000 < content.length then pure ([], st)
          else
            match parse content with
            | none => pure ([], st)
            | some doc => do
              let out ← doc.links.foldlM (processHref urljoin pageUrl) []
              let (isNew, st1) ← recordUrl st pageUrl
              let words := if doc.text ≠ [] then tokenize st1 doc.text else []
              scrapePage h64 st1 isNew pageUrl words out

/-! ## Model of `src/cbor.py`

Python values of the supported types are the inductive `PyVal`.  Python
`float` objects are modelled by their IEEE 754 binary64 bit pattern (the
encoder writes exactly those bits via `struct.pack("!d", …)` and the decoder
reads them back, so the wire format is bit-exact).  `bytes` are lists of
byte values; `str` content is a `List Char` and is encoded to UTF-8.
Python sets iterate in an unspecified order; a modelled `set`/`frozenset`
carries its elements in the order `list(obj)` would produce. -/

inductive PyVal where
  | pynone
  | pybool (b : Bool)
  | pyint (n : Int)
  | pyfloat (bits : Nat)
  | pybytes (bs : List Nat)
  | pybytearray (bs : List Nat)
  | pystr (s : Str)
  | pylist (xs : List PyVal)
  | pytuple (xs : List PyVal)
  | pyset (xs : List PyVal)
  | pyfrozenset (xs : List PyVal)
  | pydict (kvs : List (PyVal × PyVal))

mutual

/-- Structural equality of modelled Python values.  (Python `==` additionally
identifies numerically equal values of different types, e.g. `1 == 1.0`, and
fails on NaN; the claims below only need structural equality.) -/
def pyBeq : PyVal → PyVal → Bool
  | .pynone, .pynone => true
  | .pybool a, .pybool b => a == b
  | .pyint a, .pyint b => a == b
  | .pyfloat a, .pyfloat b => a == b
  | .pybytes a, .pybytes b => a == b
  | .pybytearray a, .pybytearray b => a == b
  | .pystr a, .pystr b => a == b
  | .pylist a, .pylist b => pyBeqList a b
  | .pytuple a, .pytuple b => pyBeqList a b
  | .pyset a, .pyset b => pyBeqList a b
  | .pyfrozenset a, .pyfrozenset b => pyBeqList a b
  | .pydict a, .pydict b => pyBeqKVs a b
  | _, _ => false

def pyBeqList : List PyVal → List PyVal → Bool
  | [], [] => true
  | x :: xs, y :: ys => pyBeq x y && pyBeqList xs ys
  | _, _ => false

def pyBeqKVs : List (PyVal × PyVal) → List (PyVal × PyVal) → Bool
  | [], [] => true
  | (k, v) :: xs, (k', v') :: ys => pyBeq k k' && pyBeq v v' && pyBeqKVs xs ys
  | _, _ => false

end

mutual

/-- The collapsing the spec states for the round trip: tuples, sets and
frozensets decode as lists, bytearrays as bytes. -/
def collapse : PyVal → PyVal
  | .pynone => .pynone
  | .pybool b => .pybool b
  | .pyint n => .pyint n
  | .pyfloat b => .pyfloat b
  | .pybytes bs => .pybytes bs
  | .pybytearray bs => .pybytes bs
  | .pystr s => .pystr s
  | .pylist xs => .pylist (collapseList xs)
  | .pytuple xs => .pylist (collapseList xs)
  | .pyset xs => .pylist (collapseList xs)
  | .pyfrozenset xs => .pylist (collapseList xs)
  | .pydict kvs => .pydict (collapseKVs kvs)

def collapseList : List PyVal → List PyVal
  | [] => []
  | v :: rest => collapse v :: collapseList rest

def collapseKVs : List (PyVal × PyVal) → List (PyVal × PyVal)
  | [] => []
  | (k, v) :: rest => (collapse k, collapse v) :: collapseKVs rest

end

/-- Keys a real Python dict can hold whose collapse stays hashable: the
non-aggregate supported types. -/
def primKey : PyVal → Bool
  | .pynone => true
  | .pybool _ => true
  | .pyint _ => true
  | .pyfloat _ => true
  | .pybytes _ => true
  | .pystr _ => true
  | _ => false

/-- Pairwise distinctness of dict keys. -/
def kvsKeysDistinct : List (PyVal × PyVal) → Bool
  | [] => true
  | (k, _) :: rest => rest.all (fun p => !pyBeq p.1 k) && kvsKeysDistinct rest

mutual

/-- Well-formedness of a modelled Python value: byte values fit in a byte,
float patterns fit in 64 bits (true of every real Python value), and dict
keys are distinct non-aggregate values (real dict keys are hashable and
distinct; `primKey` additionally excludes tuples and frozensets, whose
decoded form is unhashable — see the `C6` analysis). -/
def wf : PyVal → Bool
  | .pynone => true
  | .pybool _ => true
  | .pyint _ => true
  | .pyfloat b => decide (b < 2 ^ 64)
  | .pybytes bs => bs.all (fun b => decide (b < 256))
  | .pybytearray bs => bs.all (fun b => decide (b < 256))
  | .pystr _ => true
  | .pylist xs => wfList xs
  | .pytuple xs => wfList xs
  | .pyset xs => wfList xs
  | .pyfrozenset xs => wfList xs
  | .pydict kvs => kvsKeysDistinct kvs && kvs.all (fun p => primKey p.1) && wfKVs kvs

def wfList : List PyVal → Bool
  | [] => true
  | v :: rest => wf v && wfList rest

def wfKVs : List (PyVal × PyVal) → Bool
  | [] => true
  | (k, v) :: rest => wf k && wf v && wfKVs rest

end

/-- UTF-8 encoding of one character. -/
def utf8EncodeChar (c : Char) : List Nat :=
  let n := c.toNat
  if n < 128 then [n]
  else if n < 2048 then [192 + n / 64, 128 + n % 64]
  else if n < 65536 then [224 + n / 4096, 128 + n / 64 % 64, 128 + n % 64]
  else [240 + n / 262144, 128 + n / 4096 % 64, 128 + n / 64 % 64, 128 + n % 64]

/-- UTF-8 encoding of a string (`str.encode("utf-8")`). -/
def utf8Encode (s : Str) : List Nat :=
  s.foldr (fun c acc => utf8EncodeChar c ++ acc) []

/-- UTF-8 continuation byte test. -/
def isCont (b : Nat) : Bool := 128 ≤ b && b < 192

/-- UTF-8 decoding (`bytes.decode("utf-8")`), with failure on malformed
sequence structure.  The model does not reject overlong forms or surrogate
code points — a permissiveness that is observable only on byte strings no
Python `str` encodes to. -/
def utf8DecodeGo : Nat → List Nat → Option Str
  | 0, [] => some []
  | 0, _ :: _ => none
  | _ + 1, [] => some []
  | f + 1, b :: rest =>
    if b < 128 then (utf8DecodeGo f rest).map (fun s => Char.ofNat b :: s)
    else if b < 192 then none
    else if b < 224 then
      match rest with
      | b1 :: rest1 =>
        if isCont b1 then
          (utf8DecodeGo f rest1).map
            (fun s => Char.ofNat ((b - 192) * 64 + (b1 - 128)) :: s)
        else none
      | [] => none
    else if b < 240 then
      match rest with
      | b1 :: b2 :: rest2 =>
        if isCont b1 && isCont b2 then
          (utf8DecodeGo f rest2).map
            (fun s => Char.ofNat ((b - 224) * 4096 + (b1 - 128) * 64 + (b2 - 128)) :: s)
        else none
      | _ => none
    else if b < 248 then
      match rest with
      | b1 :: b2 :: b3 :: rest3 =>
        if isCont b1 && isCont b2 && isCont b3 then
          (utf8DecodeGo f rest3).map
            (fun s =>
              Char.ofNat ((b - 240) * 262144 + (b1 - 128) * 4096 +
                (b2 - 128) * 64 + (b3 - 128)) :: s)
        else none
      | _ => none
    else none

/-- UTF-8 decoding driver. -/
def utf8DecodeFull (bs : List Nat) : Option Str := utf8DecodeGo bs.length bs

/-- Errors of the modelled CBOR codec: `CBOREncodeError`, the
`CBORDecodeError` variants, the `AssertionError` of an indefinite-length
marker where a definite integer is required, and the `TypeError` Python
raises when a decoded map key is unhashable. -/
inductive CborErr where
  | lengthTooLarge
  | unexpectedEnd
  | invalidAddl
  | badUtf8
  | badChunk
  | unexpectedBreak
  | trailingBytes
  | typeError
  | assertionFailed
  deriving DecidableEq, Repr

/-- Big-endian bytes of a natural number in a fixed width, modelling
`struct.pack` with `!H`/`!I`/`!Q`/`!d` payloads. -/
def beBytes : Nat → Nat → List Nat
  | 0, _ => []
  | k + 1, n => beBytes k (n / 256) ++ [n % 256]

/-- Value of big-endian bytes, modelling `struct.unpack` /
`int.from_bytes(…, "big")`. -/
def beVal (bs : List Nat) : Nat := bs.foldl (fun a b => a * 256 + b) 0

/-- Model of `cbor._encode_type_and_len`. -/
def encodeTypeAndLen (major : Nat) (len : Nat) : Except CborErr (List Nat) :=
  if len < 24 then .ok [major * 32 + len]
  else if len < 256 then .ok [major * 32 + 24, len]
  else if len < 65536 then .ok ((major * 32 + 25) :: beBytes 2 len)
  else if len < 2 ^ 32 then .ok ((major * 32 + 26) :: beBytes 4 len)
  else if len < 2 ^ 64 then .ok ((major * 32 + 27) :: beBytes 8 len)
  else .error .lengthTooLarge

mutual

/-- Model of `cbor._encode` (the byte output is returned rather than
appended to a buffer). -/
def encodePyVal : PyVal → Except CborErr (List Nat)
  | .pynone => .ok [246]
  | .pybool false => .ok [244]
  | .pybool true => .ok [245]
  | .pyint n =>
    if 0 ≤ n then encodeTypeAndLen 0 n.toNat
    else encodeTypeAndLen 1 (-1 - n).toNat
  | .pyfloat bits => .ok (251 :: beBytes 8 bits)
  | .pybytes bs => do
    let h ← encodeTypeAndLen 2 bs.length
    pure (h ++ bs)
  | .pybytearray bs => do
    let h ← encodeTypeAndLen 2 bs.length
    pure (h ++ bs)
  | .pystr s => do
    let b := utf8Encode s
    let h ← encodeTypeAndLen 3 b.length
    pure (h ++ b)
  | .pylist xs => do
    let h ← encodeTypeAndLen 4 xs.length
    let body ← encodeItems xs
    pure (h ++ body)
  | .pytuple xs => do
    let h ← encodeTypeAndLen 4 xs.length
    let body ← encodeItems xs
    pure (h ++ body)
  | .pyset xs => do
    let h ← encodeTypeAndLen 4 xs.length
    let body ← encodeItems xs
    pure (h ++ body)
  | .pyfrozenset xs => do
    let h ← encodeTypeAndLen 4 xs.length
    let body ← encodeItems xs
    pure (h ++ body)
  | .pydict kvs => do
    let h ← encodeTypeAndLen 5 kvs.length
    let body ← encodeKVs kvs
    pure (h ++ body)

def encodeItems : List PyVal → Except CborErr (List Nat)
  | [] => .ok []
  | v :: rest => do
    let b ← encodePyVal v
    let r ← encodeItems rest
    pure (b ++ r)

def encodeKVs : List (PyVal × PyVal) → Except CborErr (List Nat)
  | [] => .ok []
  | (k, v) :: rest => do
    let bk ← encodePyVal k
    let bv ← encodePyVal v
    let r ← encodeKVs rest
    pure (bk ++ bv ++ r)

end

/-- Model of `cbor.dumps`. -/
def dumps (v : PyVal) : Except CborErr (List Nat) := encodePyVal v

/-- The bit pattern CPython's `float("nan")` carries (positive quiet NaN). -/
def nanBits : Nat := 0x7ff8000000000000

/-- Model of `cbor._half_to_float`, at the bit level: the binary64 pattern of
the Python float the source computes.  Every finite binary16 value is
exactly representable in binary64 and every arithmetic step in the source
(`frac / 2**10`, `* 2**(-14)`, `1.0 + …`, `* 2**(exp-15)`) is exact, so the
returned pattern is the exact conversion; a half NaN becomes `float("nan")`
regardless of its sign and payload, as in the source. -/
def halfToFloatBits (h : Nat) : Nat :=
  let sign := h >>> 15 % 2
  let ex := h >>> 10 % 32
  let frac := h % 1024
  if ex = 0 then
    if frac = 0 then sign <<< 63
    else
      let k := Nat.log2 frac
      sign <<< 63 ||| ((k + 999) <<< 52) ||| ((frac - 2 ^ k) <<< (52 - k))
  else if ex = 31 then
    if frac = 0 then sign <<< 63 ||| (2047 <<< 52)
    else nanBits
  else sign <<< 63 ||| ((ex + 1008) <<< 52) ||| (frac <<< 42)

/-- Exact widening of a binary32 pattern (`struct.unpack("!f", …)`) to the
binary64 pattern of the resulting Python float; a float32 NaN is modelled as
the canonical NaN (payloads of NaNs are not claimed). -/
def f32ToFloatBits (w : Nat) : Nat :=
  let sign := w >>> 31 % 2
  let ex := w >>> 23 % 256
  let frac := w % 2 ^ 23
  if ex = 0 then
    if frac = 0 then sign <<< 63
    else
      let k := Nat.log2 frac
      sign <<< 63 ||| ((k + 874) <<< 52) ||| ((frac - 2 ^ k) <<< (52 - k))
  else if ex = 255 then
    if frac = 0 then sign <<< 63 ||| (2047 <<< 52)
    else nanBits
  else sign <<< 63 ||| ((ex + 896) <<< 52) ||| (frac <<< 29)

/-- Model of `cbor._read_n`. -/
def readN (n : Nat) (bs : List Nat) : Except CborErr (List Nat × List Nat) :=
  if n ≤ bs.length then .ok (bs.take n, bs.drop n) else .error .unexpectedEnd

/-- Model of `cbor._read_uint`: `none` signals indefinite length. -/
def readUint (addl : Nat) (bs : List Nat) :
    Except CborErr (Option Nat × List Nat) :=
  if addl < 24 then .ok (some addl, bs)
  else if addl = 24 then do
    let (b, r) ← readN 1 bs
    pure (some (beVal b), r)
  else if addl = 25 then do
    let (b, r) ← readN 2 bs
    pure (some (beVal b), r)
  else if addl = 26 then do
    let (b, r) ← readN 4 bs
    pure (some (beVal b), r)
  else if addl = 27 then do
    let (b, r) ← readN 8 bs
    pure (some (beVal b), r)
  else if addl = 31 then .ok (none, bs)
  else .error .invalidAddl

/-- A decoded item: a value, or the `_BREAK` sentinel. -/
inductive CItem where
  | val (v : PyVal)
  | brk

/-- Decoded map keys that Python cannot hash (`m[k] = v` raises
`TypeError`): decoded values are never sets or bytearrays, so lists and
dicts are the unhashable cases. -/
def unhashable : PyVal → Bool
  | .pylist _ => true
  | .pydict _ => true
  | _ => false

/-- Model of `m[k] = v` on a dict represented as an insertion-ordered
association list: an existing key keeps its position and takes the new
value. -/
def pyInsert (kvs : List (PyVal × PyVal)) (k v : PyVal) :
    List (PyVal × PyVal) :=
  if kvs.any (fun p => pyBeq p.1 k) then
    kvs.map (fun p => if pyBeq p.1 k then (p.1, v) else p)
  else kvs ++ [(k, v)]

mutual

/-- Model of `cbor._decode` and its indefinite-length loops, on the unread
suffix of the input.  The fuel argument exists only to make the recursion
structural; every recursive call decrements it, and `loads` supplies more
fuel than any input can consume (each decoded item consumes at least one
byte, and at most three calls are chained per consumed byte). -/
def decodeCbor : Nat → List Nat → Except CborErr (CItem × List Nat)
  | 0, _ => .error .unexpectedEnd
  | f + 1, bs =>
    match bs with
    | [] => .error .unexpectedEnd
    | initial :: rest =>
      let major := initial / 32
      let addl := initial % 32
      if major = 7 then
        if addl = 20 then .ok (.val (.pybool false), rest)
        else if addl = 21 then .ok (.val (.pybool true), rest)
        else if addl = 22 then .ok (.val .pynone, rest)
        else if addl = 23 then .ok (.val .pynone, rest)
        else if addl = 24 then do
          let (b, r) ← readN 1 rest
          pure (.val (.pyint (beVal b)), r)
        else if addl = 25 then do
          let (b, r) ← readN 2 rest
          pure (.val (.pyfloat (halfToFloatBits (beVal b))), r)
        else if addl = 26 then do
          let (b, r) ← readN 4 rest
          pure (.val (.pyfloat (f32ToFloatBits (beVal b))), r)
        else if addl = 27 then do
          let (b, r) ← readN 8 rest
          pure (.val (.pyfloat (beVal b)), r)
        else if addl = 31 then .ok (.brk, rest)
        else .ok (.val (.pyint addl), rest)
      else do
        let (lenOpt, r1) ← readUint addl rest
        if major = 0 then
          match lenOpt with
          | some len => pure (.val (.pyint len), r1)
          | none => .error .assertionFailed
        else if major = 1 then
          match lenOpt with
          | some len => pure (.val (.pyint (-1 - (len : Int))), r1)
          | none => .error .assertionFailed
        else if major = 2 then
          match lenOpt with
          | some len => do
            let (b, r2) ← readN len r1
            pure (.val (.pybytes b), r2)
          | none => do
            let (chunks, r2) ← decodeByteChunks f r1
            pure (.val (.pybytes chunks), r2)
        else if major = 3 then
          match lenOpt with
          | some len => do
            let (b, r2) ← readN len r1
            match utf8DecodeFull b with
            | some s => pure (.val (.pystr s), r2)
            | none => .error .badUtf8
          | none => do
            let (parts, r2) ← decodeTextChunks f r1
            pure (.val (.pystr parts), r2)
        else if major = 4 then
          match lenOpt with
          | some len => do
            let (items, r2) ← decodeArray f len r1
            pure (.val (.pylist items), r2)
          | none => do
            let (items, r2) ← decodeArrayIndef f r1
            pure (.val (.pylist items), r2)
        else if major = 5 then
          match lenOpt with
          | some len => do
            let (kvs, r2) ← decodeMap f len [] r1
            pure (.val (.pydict kvs), r2)
          | none => do
            let (kvs, r2) ← decodeMapIndef f [] r1
            pure (.val (.pydict kvs), r2)
        else decodeCbor f r1

def decodeByteChunks : Nat → List Nat → Except CborErr (List Nat × List Nat)
  | 0, _ => .error .unexpectedEnd
  | f + 1, bs => do
    let (item, r) ← decodeCbor f bs
    match item with
    | .brk => pure ([], r)
    | .val (.pybytes b) => do
      let (more, r2) ← decodeByteChunks f r
      pure (b ++ more, r2)
    | .val _ => .error .badChunk

def decodeTextChunks : Nat → List Nat → Except CborErr (Str × List Nat)
  | 0, _ => .error .unexpectedEnd
  | f + 1, bs => do
    let (item, r) ← decodeCbor f bs
    match item with
    | .brk => pure ([], r)
    | .val (.pystr s) => do
      let (more, r2) ← decodeTextChunks f r
      pure (s ++ more, r2)
    | .val _ => .error .badChunk

def decodeArray : Nat → Nat → List Nat → Except CborErr (List PyVal × List Nat)
  | _, 0, bs => .ok ([], bs)
  | 0, _ + 1, _ => .error .unexpectedEnd
  | f + 1, n + 1, bs => do
    let (item, r) ← decodeCbor f bs
    match item with
    | .brk => .error .unexpectedBreak
    | .val v => do
      let (items, r2) ← decodeArray f n r
      pure (v :: items, r2)

def decodeArrayIndef : Nat → List Nat → Except CborErr (List PyVal × List Nat)
  | 0, _ => .error .unexpectedEnd
  | f + 1, bs => do
    let (item, r) ← decodeCbor f bs
    match item with
    | .brk => pure ([], r)
    | .val v => do
      let (items, r2) ← decodeArrayIndef f r
      pure (v :: items, r2)

def decodeMap : Nat → Nat → List (PyVal × PyVal) → List Nat →
    Except CborErr (List (PyVal × PyVal) × List Nat)
  | _, 0, acc, bs => .ok (acc, bs)
  | 0, _ + 1, _, _ => .error .unexpectedEnd
  | f + 1, n + 1, acc, bs => do
    let (ki, r1) ← decodeCbor f bs
    let (vi, r2) ← decodeCbor f r1
    match ki, vi with
    | .brk, _ => .error .unexpectedBreak
    | .val _, .brk => .error .unexpectedBreak
    | .val k, .val v =>
      if unhashable k then .error .typeError
      else decodeMap f n (pyInsert acc k v) r2

def decodeMapIndef : Nat → List (PyVal × PyVal) → List Nat →
    Except CborErr (List (PyVal × PyVal) × List Nat)
  | 0, _, _ => .error .unexpectedEnd
  | f + 1, acc, bs => do
    let (ki, r1) ← decodeCbor f bs
    match ki with
    | .brk => pure (acc, r1)
    | .val k => do
      let (vi, r2) ← decodeCbor f r1
      match vi with
      | .brk => .error .unexpectedBreak
      | .val v =>
        if unhashable k then .error .typeError
        else decodeMapIndef f (pyInsert acc k v) r2

end

/-- Model of `cbor.loads`: decode one top-level item and reject trailing
bytes.  A top-level `_BREAK` is returned as `CItem.brk`, as the Python code
returns the sentinel object itself. -/
def loads (data : List Nat) : Except CborErr CItem := do
  let (item, rest) ← decodeCbor (3 * data.length + 8) data
  if rest = [] then pure item else .error .trailingBytes

/-- SimHash feature hash used by concrete witnesses. -/
def zeroH64 : Str → Nat := fun _ => 0

/-- One hundred copies of the same token: a 100-token text. -/
def c5words : List Str := List.replicate 100 (lit "alpha")

/-- The fresh analytics state used by concrete witnesses. -/
def dupSt0 : AState := freshAnalytics [] 250

/-- The analytics state after registering `c5words` once. -/
def dupSt1 : AState := (isDuplicateText zeroH64 dupSt0 c5words 3).2

/-- A raw URL differing from `http://a.ics.uci.edu/p` only in scheme and
host case. -/
def c1U1 : Str := lit "HTTP://A.ics.uci.edu/p"

/-- The lowercase twin of `c1U1`: same canonical form, different
defragmented form. -/
def c1U2 : Str := lit "http://a.ics.uci.edu/p"

/-- The state component of a `record_url` result (the default is unused on
the concrete success paths below). -/
def recOut (r : Except UrlErr (Bool × AState)) (dflt : AState) : AState :=
  match r with
  | .ok p => p.2
  | .error _ => dflt

/-- Analytics state after recording `c1U1` in a fresh state. -/
def c1St1 : AState := recOut (recordUrl (freshAnalytics [] 250) c1U1) (freshAnalytics [] 250)

/-- Analytics state after additionally recording `c1U2`. -/
def c1St2 : AState := recOut (recordUrl c1St1 c1U2) c1St1

/-- Analytics state after recording a fragment-carrying URL. -/
def c1WSt1 : AState :=
  recOut (recordUrl (freshAnalytics [] 250) (lit "http://a.ics.uci.edu/p#sec"))
    (freshAnalytics [] 250)

/-- A parser that always fails: the model of the `html.parser` feed raising
inside `extract_next_links`. -/
def c4Parse : Str → Option ParsedDoc := fun _ => none

/-- A stand-in `urljoin`; never reached on the parse-failure path. -/
def c4Join : Str → Str → Str := fun _ href => href

/-- A 200 response with a non-empty body and no headers. -/
def c4Raw : RawResponse :=
  { url := none, content := some (lit "<html>x</html>"), headers := none }

/-- The wrapped cache response around `c4Raw`. -/
def c4Resp : Response :=
  { url := lit "http://www.ics.uci.edu/page", status := 200,
    rawResponse := some c4Raw }

/-- The fresh analytics state fed to the C4 runs. -/
def c4St : AState := freshAnalytics [] 250

/-- An identity percent-decoder used for concrete C3 runs. -/
def c3Unquote : Str → Str := fun s => s

/-- An NFKC normalizer for the concrete C3 runs, agreeing with Unicode NFKC
on the characters involved: U+2100 ACCOUNT OF normalizes to `a/c`; the
ASCII characters are left fixed. -/
def c3Nfkc : Str → Str :=
  fun s => s.bind (fun c => if c = '℀' then lit "a/c" else [c])

/-- Reference value (in ℚ) of a finite IEEE 754 binary16 bit pattern, from
the rules the specification states: subnormals are `frac/2^10 * 2^-14`,
normals are `(1 + frac/2^10) * 2^(exp-15)`; written with nonnegative
exponents as `2^exp / 2^15`.  Only meaningful when the exponent field is
not 31. -/
def b16Val (x : Nat) : ℚ :=
  (if x >>> 15 % 2 = 1 then (-1 : ℚ) else 1) *
    (if x >>> 10 % 32 = 0 then ((x % 1024 : ℕ) : ℚ) / 2 ^ 10 * (2 ^ 14)⁻¹
     else (1 + ((x % 1024 : ℕ) : ℚ) / 2 ^ 10) * 2 ^ (x >>> 10 % 32) / 2 ^ 15)

/-- Reference value (in ℚ) of a finite IEEE 754 binary64 bit pattern:
subnormals are `frac/2^52 * 2^-1022`, normals `(1 + frac/2^52) *
2^(exp-1023)`.  Only meaningful when the exponent field is not 2047. -/
def b64Val (w : Nat) : ℚ :=
  (if w >>> 63 % 2 = 1 then (-1 : ℚ) else 1) *
    (if w >>> 52 % 2048 = 0 then ((w % 2 ^ 52 : ℕ) : ℚ) / 2 ^ 52 * (2 ^ 1022)⁻¹
     else (1 + ((w % 2 ^ 52 : ℕ) : ℚ) / 2 ^ 52) * 2 ^ (w >>> 52 % 2048) / 2 ^ 1023)

mutual

/-- Fuel sufficient for `decodeCbor` to decode the encoding of a value. -/
def fuelNeed : PyVal → Nat
  | .pynone => 1
  | .pybool _ => 1
  | .pyint _ => 1
  | .pyfloat _ => 1
  | .pybytes _ => 1
  | .pybytearray _ => 1
  | .pystr _ => 1
  | .pylist xs => 1 + fuelNeedList xs
  | .pytuple xs => 1 + fuelNeedList xs
  | .pyset xs => 1 + fuelNeedList xs
  | .pyfrozenset xs => 1 + fuelNeedList xs
  | .pydict kvs => 1 + fuelNeedKVs kvs

def fuelNeedList : List PyVal → Nat
  | [] => 0
  | v :: rest => 1 + fuelNeed v + fuelNeedList rest

def fuelNeedKVs : List (PyVal × PyVal) → Nat
  | [] => 0
  | (k, v) :: rest => 1 + fuelNeed k + fuelNeed v + fuelNeedKVs rest

end

/-- A concrete well-formed value exercising dict, int, tuple, str, bool,
bytes and bytearray. -/
def c6Val : PyVal :=
  .pydict [(.pyint 1, .pytuple [.pystr (lit "ab"), .pybool true]),
    (.pybytes [7, 255], .pybytearray [0])]

/-- The CBOR encoding of `c6Val`. -/
def c6Bytes : List Nat := [162, 1, 130, 98, 97, 98, 245, 66, 7, 255, 65, 0]

/-- Value accumulated by folding decimal digits onto `A`. -/
def pushNum (A : Nat) : Nat → Nat
  | 0 => A
  | n + 1 =>
    pushNum A ((n + 1) / 10) * 10 + (n + 1) % 10
decreasing_by exact Nat.div_lt_self (Nat.succ_pos n) (by norm_num)

/-! ## Helper lemmas -/

/-- Checkpointing only resets the dirty-page counter. -/
theorem maybeSave_exactDigests (s : AState) :
    (maybeSave s).exactDigests = s.exactDigests := by
  unfold maybeSave; split <;> rfl

/-- Checkpointing only resets the dirty-page counter. -/
theorem maybeSave_wordFrequencies (s : AState) :
    (maybeSave s).wordFrequencies = s.wordFrequencies := by
  unfold maybeSave; split <;> rfl

/-- The element just added to a set is a member. -/
theorem mem_setAdd_self (x : Str) (l : List Str) : x ∈ setAdd x l := by
  unfold setAdd; split
  · assumption
  · exact List.mem_cons_self x l

/-- Behaviour of `add_url` visible to the termination invariant: the closed
flag is never changed, and a closed frontier ignores the call. -/
theorem addUrlF_spec (st st' : FState) (u : Str) (h : addUrlF st u = .ok st') :
    st'.closed = st.closed ∧ (st.closed = true → st' = st) := by
  unfold addUrlF at h
  cases hd : urldefrag u with
  | error e =>
    rw [hd] at h; simp only [bind, Except.bind] at h; exact Except.noConfusion h
  | ok d =>
    rw [hd] at h; simp only [bind, Except.bind] at h
    cases hn : normalize d with
    | error e =>
      rw [hn] at h; simp only [bind, Except.bind] at h; exact Except.noConfusion h
    | ok v =>
      rw [hn] at h; simp only [] at h
      cases hh : get_urlhash v with
      | error e =>
        rw [hh] at h; simp only [bind, Except.bind] at h; exact Except.noConfusion h
      | ok hs =>
        rw [hh] at h; simp only [pure, Except.pure] at h
        injection h with h
        rw [← h]
        by_cases hcl : st.closed = true
        · rw [if_pos hcl]
          exact ⟨rfl, fun _ => rfl⟩
        · rw [if_neg hcl]
          refine ⟨?_, fun hq => absurd hq hcl⟩
          split <;> rfl

/-- The exact state transition of `mark_url_complete` on success. -/
theorem markCompleteF_spec (st st' : FState) (u : Str)
    (h : markCompleteF st u = .ok st') :
    st' = (if st.inProgress - 1 = 0 ∧ st.pending = [] then
             { st with inProgress := st.inProgress - 1, closed := true }
           else { st with inProgress := st.inProgress - 1 }) := by
  unfold markCompleteF at h
  cases hd : urldefrag u with
  | error e =>
    rw [hd] at h; simp only [bind, Except.bind] at h; exact Except.noConfusion h
  | ok d =>
    rw [hd] at h; simp only [bind, Except.bind] at h
    cases hh : get_urlhash d with
    | error e =>
      rw [hh] at h; simp only [bind, Except.bind] at h; exact Except.noConfusion h
    | ok hs =>
      rw [hh] at h; simp only [pure, Except.pure] at h
      injection h with h
      exact h.symm

/-- Once latched, the closed flag survives every step. -/
theorem fstep_closed_mono (s s' : FState) (h : FStep s s') (hc : s.closed = true) :
    s'.closed = true := by
  cases h with
  | add u _ _ hadd => exact (addUrlF_spec s s' u hadd).1.trans hc
  | getClose _ h1 h2 h3 => rfl
  | getPop _ us u h1 h2 => exact absurd hc (by simp [h1])
  | mark u _ _ hm =>
    rw [markCompleteF_spec s s' u hm]
    split
    · rfl
    · exact hc

/-- The reachable-state invariant: a closed frontier has an empty queue and
no URL in progress. -/
theorem freach_inv (s : FState) (h : FReach s) :
    s.closed = true → s.pending = [] ∧ s.inProgress = 0 := by
  induction h with
  | init => intro hc; cases hc
  | step s s' hs hstep ih =>
    intro hc'
    cases hstep with
    | add u _ _ hadd =>
      obtain ⟨hcl, hid⟩ := addUrlF_spec s s' u hadd
      have hstc : s.closed = true := hcl ▸ hc'
      rw [hid hstc]
      exact ih hstc
    | getClose _ h1 h2 h3 => exact ⟨h2, h3⟩
    | getPop _ us u h1 h2 => exact absurd hc' (by simp [h1])
    | mark u _ _ hm =>
      rw [markCompleteF_spec s s' u hm] at hc' ⊢
      by_cases hcond : s.inProgress - 1 = 0 ∧ s.pending = []
      · rw [if_pos hcond]
        exact ⟨hcond.2, hcond.1⟩
      · rw [if_neg hcond] at hc'
        obtain ⟨hp, hi⟩ := ih hc'
        exact absurd ⟨by simp [hi], hp⟩ hcond

/-! ## Claims -/

/-- C2: in every state reachable from the initial frontier state by
`add_url`, `get_tbd_url` and `mark_url_complete` steps, `closed = true`
implies the pending queue is empty and `in_progress = 0`; and once `closed`
is true it never resets along any further step. -/
theorem C2_frontier_termination_invariant (s : FState) (h : FReach s) :
    (s.closed = true → s.pending = [] ∧ s.inProgress = 0) ∧
      (∀ s', FStep s s' → s.closed = true → s'.closed = true) :=
  ⟨freach_inv s h, fun s' hstep hc => fstep_closed_mono s s' hstep hc⟩

/-- Witness for C2: the state reached from the initial frontier by the
`get_tbd_url` step that latches `closed` satisfies the invariant. -/
theorem C2_frontier_termination_invariant_witness :
    ({ pending := [], seenHashes := [], inProgress := 0, closed := true } :
        FState).pending = [] ∧
      ({ pending := [], seenHashes := [], inProgress := 0, closed := true } :
        FState).inProgress = 0 :=
  (C2_frontier_termination_invariant _
    (FReach.step _ _ FReach.init (FStep.getClose initialFrontier rfl rfl rfl))).1 rfl

/-- C5: a non-duplicate text registers its digest, and feeding the same
(non-empty) word list again returns true, increments `duplicate_exact` by
exactly one, and leaves `exact_digests`, the simhash bands, and every other
analytics field unchanged; consequently in the scraper pipeline the second
page takes the duplicate branch of `extract_next_links`, whose result state
is the `is_duplicate_text` result itself — `record_words` is not called and
the word-frequency table is unchanged across both calls. -/
theorem C5_exact_duplicate_detection (h64 : Str → Nat) (st st1 : AState)
    (w : List Str) (pageUrl : Str) (out : List Str)
    (hout : out.length ≤ 200) (hwlen : 50 ≤ w.length)
    (h1 : isDuplicateText h64 st w 3 = (false, st1)) :
    isDuplicateText h64 st1 w 3 =
      (true, { st1 with duplicateExact := st1.duplicateExact + 1 }) ∧
    st1.wordFrequencies = st.wordFrequencies ∧
    scrapePage h64 st1 true pageUrl w out =
      .ok ([], { st1 with duplicateExact := st1.duplicateExact + 1 }) := by
  have hw : w ≠ [] := by
    intro hnil
    rw [hnil] at hwlen
    exact absurd hwlen (by decide)
  have hdig : sha256digest (joinSpace w) ∈ st1.exactDigests ∧
      st1.wordFrequencies = st.wordFrequencies := by
    unfold isDuplicateText at h1
    rw [if_neg hw] at h1
    simp only [] at h1
    split at h1
    · simp at h1
    · split at h1
      · simp at h1
      · rw [Prod.mk.injEq] at h1
        rw [← h1.2, maybeSave_exactDigests, maybeSave_wordFrequencies]
        exact ⟨mem_setAdd_self _ _, rfl⟩
  have hdup : isDuplicateText h64 st1 w 3 =
      (true, { st1 with duplicateExact := st1.duplicateExact + 1 }) := by
    unfold isDuplicateText
    rw [if_neg hw]
    simp only []
    rw [if_pos hdig.1]
  refine ⟨hdup, hdig.2, ?_⟩
  unfold scrapePage
  simp only []
  rw [if_neg (by omega), if_neg (by omega),
    if_neg (by simp only [Bool.and_eq_true, decide_eq_true_eq]; omega),
    if_pos (by simp only [Bool.and_eq_true, decide_eq_true_eq]; exact ⟨trivial, hwlen⟩),
    hdup]
  rfl

/-- Witness for C5 at a concrete 100-token text. -/
theorem C5_exact_duplicate_detection_witness :
    isDuplicateText zeroH64 dupSt1 c5words 3 =
      (true, { dupSt1 with duplicateExact := dupSt1.duplicateExact + 1 }) ∧
    dupSt1.wordFrequencies = dupSt0.wordFrequencies ∧
    scrapePage zeroH64 dupSt1 true (lit "http://x/2") c5words [] =
      .ok ([], { dupSt1 with duplicateExact := dupSt1.duplicateExact + 1 }) :=
  C5_exact_duplicate_detection zeroH64 dupSt0 dupSt1 c5words (lit "http://x/2") []
    (by decide) (by decide) rfl

/-- C10: `is_duplicate_text` on an empty word list returns false and is a
pure no-op on the analytics state — no digest, no fingerprint, no counter or
dirty-page change — so in particular two successive empty-text pages are not
counted as duplicates of each other. -/
theorem C10_empty_words_noop (h64 : Str → Nat) (st : AState)
    (nearThresholdBits : Nat) :
    isDuplicateText h64 st [] nearThresholdBits = (false, st) := rfl

/-- Checkpointing only resets the dirty-page counter. -/
theorem maybeSave_uniqueUrlHashes (s : AState) :
    (maybeSave s).uniqueUrlHashes = s.uniqueUrlHashes := by
  unfold maybeSave; split <;> rfl

/-- C1 counterexample: `c1U1` and `c1U2` have equal canonical forms, and
`record_url(c1U1)` returns true on a fresh state; the claim then requires
`record_url(c1U2)` to return false with the state unchanged, but it returns
true, `unique_hashes` grows to two entries, and `subdomain_counts` counts the
host twice — `record_url` keys on the defragmented URL, not the canonical
form. -/
theorem C1_record_url_canonical_counterexample :
    normalize c1U1 = normalize c1U2 ∧
    recordUrl (freshAnalytics [] 250) c1U1 = .ok (true, c1St1) ∧
    recordUrl c1St1 c1U2 = .ok (true, c1St2) ∧
    c1St2.uniqueUrlHashes.length = 2 ∧
    c1St2.subdomainCounts = [(lit "a.ics.uci.edu", 2)] :=
  ⟨rfl, rfl, rfl, rfl, rfl⟩

/-- C1 (amended): `record_url` deduplicates by the defragmented URL: for raw
URLs `u1`, `u2` whose `urldefrag` results are equal (e.g. differing only in
fragment), after `record_url(u1)` has returned true, `record_url(u2)`
returns false and leaves the full analytics state — `unique_hashes`,
`subdomain_counts` and the unique-page count — unchanged. -/
theorem C1_record_url_defrag_dedup (st st1 : AState) (u1 u2 d : Str)
    (h1 : urldefrag u1 = .ok d) (h2 : urldefrag u2 = .ok d)
    (hr : recordUrl st u1 = .ok (true, st1)) :
    recordUrl st1 u2 = .ok (false, st1) := by
  have hu1 : u1 ≠ [] := by
    intro hnil
    rw [hnil] at hr
    unfold recordUrl at hr
    simp at hr
  unfold recordUrl at hr
  rw [if_neg hu1, h1] at hr
  simp only [bind, Except.bind] at hr
  cases hk : urldefrag d with
  | error e => rw [hk] at hr; exact Except.noConfusion hr
  | ok k =>
    rw [hk] at hr; simp only [] at hr
    by_cases hmem : sha256digest k ∈ st.uniqueUrlHashes
    · rw [if_pos hmem] at hr
      simp [pure, Except.pure] at hr
    · rw [if_neg hmem] at hr
      cases hp : urlparse d with
      | error e => rw [hp] at hr; exact Except.noConfusion hr
      | ok parsed =>
        rw [hp] at hr
        simp only [bind, Except.bind, pure, Except.pure] at hr
        injection hr with hr
        have hst1 : _ = st1 := (Prod.ext_iff.mp hr).2
        have hmem1 : sha256digest k ∈ st1.uniqueUrlHashes := by
          rw [← hst1, maybeSave_uniqueUrlHashes]
          split
          · exact mem_setAdd_self _ _
          · exact mem_setAdd_self _ _
        by_cases hu2 : u2 = []
        · rw [hu2] at h2
          rw [show urldefrag [] = Except.ok ([] : Str) from rfl] at h2
          injection h2 with h2
          rw [hu2]
          unfold recordUrl
          rw [← h2] at hk
          rw [if_pos rfl]
        · unfold recordUrl
          rw [if_neg hu2, h2]
          simp only [bind, Except.bind]
          rw [hk]
          simp only []
          rw [if_pos hmem1]
          rfl

/-- Witness for the amended C1: two URLs differing only in their fragments
dedupe on the second call. -/
theorem C1_record_url_defrag_dedup_witness :
    recordUrl c1WSt1 (lit "http://a.ics.uci.edu/p#other") = .ok (false, c1WSt1) :=
  C1_record_url_defrag_dedup (freshAnalytics [] 250) c1WSt1
    (lit "http://a.ics.uci.edu/p#sec") (lit "http://a.ics.uci.edu/p#other")
    (lit "http://a.ics.uci.edu/p") rfl rfl rfl

/-- C7 counterexample: the claim says any major-type-7 item with additional
info outside {20..27, 31} raises a decode error; but decoding the single
byte `0xE0` (major 7, additional info 0 — an unassigned simple value)
returns the integer 0. -/
theorem C7_unassigned_simple_counterexample :
    loads [224] = .ok (.val (.pyint 0)) := rfl

/-- C4 counterexample: on a 200 response with non-empty content whose parse
fails, the claim requires the page's defragmented URL to be recorded as seen
(`unique_hashes` gains its hash); but `extract_next_links` returns the
analytics state untouched — `unique_hashes` stays empty — because the
parse-failure return precedes the `record_url` call. -/
theorem C4_parse_failure_counterexample :
    extract_next_links c4Parse c4Join zeroH64 (lit "http://www.ics.uci.edu/page")
        c4Resp c4St = .ok ([], c4St) ∧
      c4St.uniqueUrlHashes = [] :=
  ⟨rfl, rfl⟩

/-- C4 (amended): when the HTML parser fails on an accepted 200 response
(non-empty body within the size cap, acceptable content type, defraggable
page URL), `extract_next_links` returns an empty link list and leaves the
analytics state completely untouched — in particular the page's URL is not
recorded as seen and no word statistics are contributed. -/
theorem C4_parse_failure_not_recorded (parse : Str → Option ParsedDoc)
    (urljoin : Str → Str → Str) (h64 : Str → Nat) (url : Str) (resp : Response)
    (st : AState) (raw : RawResponse) (content pd : Str)
    (hst : resp.status = 200) (hraw : resp.rawResponse = some raw)
    (hc : raw.content = some content) (hne : content ≠ [])
    (hsize : content.length ≤ 5000000)
    (hdf : urldefrag (firstNonEmpty [raw.url.getD [], resp.url, url]) = .ok pd)
    (hct : contentTypeOf raw = [] ∨
      strInfix (lit "text/html") (contentTypeOf raw) = true)
    (hp : parse content = none) :
    extract_next_links parse urljoin h64 url resp st = .ok ([], st) := by
  unfold extract_next_links
  rw [hst, if_neg (fun h => h rfl), hraw]
  simp only []
  rw [hc]
  simp only []
  rw [if_neg hne]
  simp only [bind, Except.bind]
  rw [hdf]
  simp only []
  cases hct with
  | inl h0 =>
    rw [h0]
    rw [if_neg (by simp)]
    rw [if_neg (by omega)]
    rw [hp]
    rfl
  | inr h1 =>
    rw [if_neg (by simp [h1])]
    rw [if_neg (by omega)]
    rw [hp]
    rfl

/-- Witness for the amended C4 at the concrete failing parse. -/
theorem C4_parse_failure_not_recorded_witness :
    extract_next_links c4Parse c4Join zeroH64 (lit "http://www.ics.uci.edu/page")
      c4Resp c4St = .ok ([], c4St) :=
  C4_parse_failure_not_recorded c4Parse c4Join zeroH64
    (lit "http://www.ics.uci.edu/page") c4Resp c4St c4Raw
    (lit "<html>x</html>") (lit "http://www.ics.uci.edu/page") rfl rfl rfl
    (by decide) (by decide) rfl (Or.inl rfl) rfl

/-- `_check_bracketed_host` only ever raises the bracket-host error. -/
theorem checkBracketedHost_error_eq (h : Str) (e : UrlErr)
    (he : checkBracketedHost h = .error e) : e = .badBracketHost := by
  unfold checkBracketedHost at he
  split at he
  · split at he
    · injection he with he; exact he.symm
    · split at he
      · exact Except.noConfusion he
      · injection he with he; exact he.symm
  · split at he
    · exact Except.noConfusion he
    · injection he with he; exact he.symm

/-- `urlsplit` only ever raises the mismatched-bracket or bracket-host
errors: the port is never parsed during splitting. -/
theorem urlsplit_error_cases (u : Str) (e : UrlErr)
    (he : urlsplit u = .error e) : e = .invalidIPv6 ∨ e = .badBracketHost := by
  unfold urlsplit at he
  simp only [bind, Except.bind, pure, Except.pure, throw, throwThe,
    MonadExceptOf.throw] at he
  split at he
  · exact Or.inl (by injection he with he; exact he.symm)
  · split at he
    · split at he
      · rename_i e1 heq
        injection he with he
        exact Or.inr (he ▸ checkBracketedHost_error_eq _ _ heq)
      · exact Except.noConfusion he
    · exact Except.noConfusion he

/-- `urlparse` raises exactly what `urlsplit` raises. -/
theorem urlparse_error_cases (u : Str) (e : UrlErr)
    (he : urlparse u = .error e) : e = .invalidIPv6 ∨ e = .badBracketHost := by
  unfold urlparse at he
  simp only [bind, Except.bind] at he
  cases hs : urlsplit u with
  | error e1 =>
    rw [hs] at he
    injection he with he
    exact he ▸ urlsplit_error_cases u e1 hs
  | ok s =>
    rw [hs] at he
    simp only [] at he
    split at he <;> exact Except.noConfusion he

/-- `urldefrag` raises exactly what `urlparse` raises. -/
theorem urldefrag_error_cases (u : Str) (e : UrlErr)
    (he : urldefrag u = .error e) : e = .invalidIPv6 ∨ e = .badBracketHost := by
  unfold urldefrag at he
  split at he
  · simp only [bind, Except.bind] at he
    cases hp : urlparse u with
    | error e1 =>
      rw [hp] at he
      injection he with he
      exact he ▸ urlparse_error_cases u e1 hp
    | ok p =>
      rw [hp] at he
      exact Except.noConfusion he
  · exact Except.noConfusion he

/-- `_checknetloc` raises only its NFKC `ValueError`. -/
theorem checkNetloc_error_eq (nfkc : Str → Str) (netloc : Str) (e : UrlErr)
    (he : checkNetloc nfkc netloc = .error e) : e = .netlocNFKC := by
  unfold checkNetloc at he
  split at he
  · exact Except.noConfusion he
  · simp only [] at he
    split at he
    · exact Except.noConfusion he
    · split at he
      · injection he with he
        exact he.symm
      · exact Except.noConfusion he

/-- `urlparse` with the NFKC check raises only the two bracket errors or the
NFKC error. -/
theorem urlparseFull_error_cases (nfkc : Str → Str) (u : Str) (e : UrlErr)
    (he : urlparseFull nfkc u = .error e) :
    e = .invalidIPv6 ∨ e = .badBracketHost ∨ e = .netlocNFKC := by
  unfold urlparseFull at he
  simp only [bind, Except.bind] at he
  cases hp : urlparse u with
  | error e1 =>
    rw [hp] at he
    injection he with he
    rcases urlparse_error_cases u e1 hp with h | h
    · exact Or.inl (he ▸ h)
    · exact Or.inr (Or.inl (he ▸ h))
  | ok p =>
    rw [hp] at he
    simp only [] at he
    cases hc : checkNetloc nfkc p.netloc with
    | error e2 =>
      rw [hc] at he
      injection he with he
      exact Or.inr (Or.inr (he ▸ checkNetloc_error_eq nfkc p.netloc e2 hc))
    | ok unitv =>
      rw [hc] at he
      exact Except.noConfusion he

/-- `urldefrag` with the NFKC check raises exactly what `urlparseFull`
raises. -/
theorem urldefragFull_error_cases (nfkc : Str → Str) (u : Str) (e : UrlErr)
    (he : urldefragFull nfkc u = .error e) :
    e = .invalidIPv6 ∨ e = .badBracketHost ∨ e = .netlocNFKC := by
  unfold urldefragFull at he
  split at he
  · simp only [bind, Except.bind] at he
    cases hp : urlparseFull nfkc u with
    | error e1 =>
      rw [hp] at he
      injection he with he
      exact he ▸ urlparseFull_error_cases nfkc u e1 hp
    | ok p =>
      rw [hp] at he
      exact Except.noConfusion he
  · exact Except.noConfusion he

/-- C3 counterexample: the claim says `is_valid` never propagates an
exception; but the `except TypeError` handler catches no `ValueError`.  On
`"http://[foo/"` the mismatched bracket makes `urlparse` raise
`ValueError("Invalid IPv6 URL")`, and on `"http://℀/x"` (U+2100 ACCOUNT OF,
whose NFKC normal form `a/c` introduces a slash) `_checknetloc` raises
`ValueError("netloc … contains invalid characters under NFKC
normalization")`; both escape `is_valid`. -/
theorem C3_is_valid_counterexample :
    isValid c3Nfkc c3Unquote (lit "http://[foo/") = .error .invalidIPv6 ∧
    isValid c3Nfkc c3Unquote (lit "http://℀/x") = .error .netlocNFKC :=
  ⟨rfl, rfl⟩

/-- C3 (amended): `is_valid` catches only `TypeError`; a `ValueError` from
URL parsing escapes.  The only exceptions that can escape are the three
parse-time `ValueError`s: the two netloc bracket-validation errors
(mismatched `[`/`]`, invalid bracketed host) and the NFKC-normalization
error for a non-ASCII authority — the admission checks after parsing never
raise, and the port property (whose `ValueError`s would also escape) is
never read.  On every other input `is_valid` returns a boolean. -/
theorem C3_only_parse_errors_escape (nfkc unquote : Str → Str) (U : Str)
    (e : UrlErr) (h : isValid nfkc unquote U = .error e) :
    e = .invalidIPv6 ∨ e = .badBracketHost ∨ e = .netlocNFKC := by
  unfold isValid at h
  simp only [bind, Except.bind] at h
  cases hd : urldefragFull nfkc U with
  | error e1 =>
    rw [hd] at h
    injection h with h
    exact h ▸ urldefragFull_error_cases nfkc U e1 hd
  | ok url =>
    rw [hd] at h
    simp only [] at h
    cases hp : urlparseFull nfkc url with
    | error e1 =>
      rw [hp] at h
      injection h with h
      exact h ▸ urlparseFull_error_cases nfkc url e1 hp
    | ok parsed =>
      rw [hp] at h
      exact Except.noConfusion h

/-- The amended C3 at the concrete NFKC escape. -/
theorem C3_only_parse_errors_escape_witness :
    isValid c3Nfkc c3Unquote (lit "http://℀/x") = .error .netlocNFKC ∧
      (UrlErr.netlocNFKC = .invalidIPv6 ∨ UrlErr.netlocNFKC = .badBracketHost ∨
        UrlErr.netlocNFKC = .netlocNFKC) :=
  ⟨rfl, C3_only_parse_errors_escape c3Nfkc c3Unquote (lit "http://℀/x")
    .netlocNFKC rfl⟩

/-- Packing sign, exponent and fraction fields with `|||` is plain
addition: the fields do not overlap. -/
theorem or_fields_eq_add (s E F : Nat) (hE : E < 2048) (hF : F < 2 ^ 52) :
    s <<< 63 ||| E <<< 52 ||| F = s * 2 ^ 63 + E * 2 ^ 52 + F := by
  rw [Nat.shiftLeft_eq, Nat.shiftLeft_eq, Nat.lor_assoc,
    Nat.mul_comm E, ← Nat.mul_add_lt_is_or hF,
    Nat.mul_comm s, ← Nat.mul_add_lt_is_or (by omega)]
  ring

/-- Reading the sign, exponent and fraction fields back out of a packed
binary64 pattern. -/
theorem combined_fields (s E F : Nat) (hs : s < 2) (hE : E < 2048)
    (hF : F < 2 ^ 52) :
    (s * 2 ^ 63 + E * 2 ^ 52 + F) >>> 63 % 2 = s ∧
    (s * 2 ^ 63 + E * 2 ^ 52 + F) >>> 52 % 2048 = E ∧
    (s * 2 ^ 63 + E * 2 ^ 52 + F) % 2 ^ 52 = F := by
  rw [Nat.shiftRight_eq_div_pow, Nat.shiftRight_eq_div_pow]
  refine ⟨?_, ?_, ?_⟩ <;> omega

/-- C9: the binary16 decoder is value-exact.  For every 16-bit pattern:
an exponent field of 31 yields the signed infinity pattern (zero fraction)
or the canonical NaN; otherwise the returned binary64 pattern is finite,
keeps the sign bit, and denotes exactly the IEEE 754 half-precision value
(signed zeros included, via the sign-bit clause).  Moreover the encoder
never emits a half-float: every float is written with the `0xFB` (binary64)
header. -/
theorem C9_half_float_exact (h : Nat) (_hlt : h < 2 ^ 16) :
    (h >>> 10 % 32 = 31 →
      (h % 1024 = 0 →
        halfToFloatBits h = ((h >>> 15 % 2) <<< 63) ||| (2047 <<< 52)) ∧
      (h % 1024 ≠ 0 → halfToFloatBits h = nanBits)) ∧
    (h >>> 10 % 32 ≠ 31 →
      b64Val (halfToFloatBits h) = b16Val h ∧
      halfToFloatBits h >>> 63 % 2 = h >>> 15 % 2 ∧
      halfToFloatBits h >>> 52 % 2048 < 2047) ∧
    (∀ bits, encodePyVal (.pyfloat bits) = .ok (251 :: beBytes 8 bits)) := by
  have hfr : h % 1024 < 1024 := Nat.mod_lt _ (by norm_num)
  have hsb : h >>> 15 % 2 < 2 := Nat.mod_lt _ (by norm_num)
  have hexb : h >>> 10 % 32 < 32 := Nat.mod_lt _ (by norm_num)
  refine ⟨?_, ?_, fun _ => rfl⟩
  · intro hex
    refine ⟨fun hf => ?_, fun hf => ?_⟩
    · unfold halfToFloatBits
      simp only []
      rw [hex, hf, if_neg (by decide), if_pos rfl, if_pos rfl]
    · unfold halfToFloatBits
      simp only []
      rw [hex, if_neg (by decide), if_pos rfl, if_neg hf]
  · intro hexne
    by_cases hex0 : h >>> 10 % 32 = 0
    · by_cases hf0 : h % 1024 = 0
      · have hw : halfToFloatBits h = (h >>> 15 % 2) <<< 63 := by
          unfold halfToFloatBits
          simp only []
          rw [hex0, hf0, if_pos rfl, if_pos rfl]
        have hor : (h >>> 15 % 2) <<< 63 =
            (h >>> 15 % 2) * 2 ^ 63 + 0 * 2 ^ 52 + 0 := by
          rw [Nat.shiftLeft_eq]; ring
        obtain ⟨hb1, hb2, hb3⟩ :=
          combined_fields (h >>> 15 % 2) 0 0 hsb (by norm_num) (by norm_num)
        rw [hw, hor]
        refine ⟨?_, hb1, ?_⟩
        · simp only [b64Val, b16Val]
          rw [hb1, hb2, hb3]
          rw [if_pos rfl, if_pos hex0, hf0]
          norm_num
        · rw [hb2]; norm_num
      · have hk2 : 2 ^ Nat.log2 (h % 1024) ≤ h % 1024 := Nat.log2_self_le hf0
        have hk2' : h % 1024 < 2 ^ (Nat.log2 (h % 1024) + 1) :=
          Nat.lt_log2_self
        have hkle : Nat.log2 (h % 1024) < 10 :=
          (Nat.log2_lt hf0).mpr (by omega)
        have hfsub : h % 1024 - 2 ^ Nat.log2 (h % 1024) <
            2 ^ Nat.log2 (h % 1024) := by
          rw [pow_succ] at hk2'
          omega
        have hw : halfToFloatBits h =
            (h >>> 15 % 2) <<< 63 ||| (Nat.log2 (h % 1024) + 999) <<< 52 |||
              ((h % 1024 - 2 ^ Nat.log2 (h % 1024)) <<<
                (52 - Nat.log2 (h % 1024))) := by
          unfold halfToFloatBits
          simp only []
          rw [hex0, if_pos rfl, if_neg hf0]
        have hFval : (h % 1024 - 2 ^ Nat.log2 (h % 1024)) <<<
            (52 - Nat.log2 (h % 1024)) =
            (h % 1024 - 2 ^ Nat.log2 (h % 1024)) *
              2 ^ (52 - Nat.log2 (h % 1024)) := Nat.shiftLeft_eq _ _
        have hFb : (h % 1024 - 2 ^ Nat.log2 (h % 1024)) *
            2 ^ (52 - Nat.log2 (h % 1024)) < 2 ^ 52 := by
          calc (h % 1024 - 2 ^ Nat.log2 (h % 1024)) *
              2 ^ (52 - Nat.log2 (h % 1024))
              < 2 ^ Nat.log2 (h % 1024) * 2 ^ (52 - Nat.log2 (h % 1024)) :=
                (Nat.mul_lt_mul_right (Nat.two_pow_pos _)).mpr hfsub
            _ = 2 ^ 52 := by rw [← pow_add]; congr 1; omega
        have hEb : Nat.log2 (h % 1024) + 999 < 2048 := by omega
        obtain ⟨hb1, hb2, hb3⟩ :=
          combined_fields (h >>> 15 % 2) (Nat.log2 (h % 1024) + 999)
            ((h % 1024 - 2 ^ Nat.log2 (h % 1024)) *
              2 ^ (52 - Nat.log2 (h % 1024))) hsb hEb hFb
        rw [hw, hFval, or_fields_eq_add _ _ _ hEb hFb]
        refine ⟨?_, hb1, ?_⟩
        · have hc64 : ¬(Nat.log2 (h % 1024) + 999 = 0) := by omega
          simp only [b64Val, b16Val]
          rw [hb1, hb2, hb3]
          rw [if_neg hc64, if_pos hex0]
          rw [Nat.cast_mul, Nat.cast_sub hk2]
          push_cast
          have e1 : (2 : ℚ) ^ (52 - Nat.log2 (h % 1024)) =
              2 ^ 52 / 2 ^ Nat.log2 (h % 1024) := by
            rw [eq_div_iff (by positivity), ← pow_add]
            congr 1
            omega
          rw [e1, pow_add]
          have hA : (2 : ℚ) ^ Nat.log2 (h % 1024) ≠ 0 := by positivity
          field_simp
          ring
        · rw [hb2]; omega
    · have hw : halfToFloatBits h =
          (h >>> 15 % 2) <<< 63 ||| ((h >>> 10 % 32 + 1008) <<< 52) |||
            ((h % 1024) <<< 42) := by
        unfold halfToFloatBits
        simp only []
        rw [if_neg hex0, if_neg hexne]
      have hFval : (h % 1024) <<< 42 = (h % 1024) * 2 ^ 42 :=
        Nat.shiftLeft_eq _ _
      have hFb : (h % 1024) * 2 ^ 42 < 2 ^ 52 := by omega
      have hEb : h >>> 10 % 32 + 1008 < 2048 := by omega
      obtain ⟨hb1, hb2, hb3⟩ :=
        combined_fields (h >>> 15 % 2) (h >>> 10 % 32 + 1008)
          ((h % 1024) * 2 ^ 42) hsb hEb hFb
      rw [hw, hFval, or_fields_eq_add _ _ _ hEb hFb]
      refine ⟨?_, hb1, ?_⟩
      · have hc64 : ¬(h >>> 10 % 32 + 1008 = 0) := by omega
        simp only [b64Val, b16Val]
        rw [hb1, hb2, hb3]
        rw [if_neg hc64, if_neg hex0]
        push_cast
        rw [pow_add]
        field_simp
        ring
      · rw [hb2]; omega

/-- Witness for C9 at the half pattern of 1.0 (`0x3C00`). -/
theorem C9_half_float_exact_witness :
    (15360 : Nat) < 2 ^ 16 ∧
      (((15360 : Nat) >>> 10 % 32 = 31 →
        ((15360 : Nat) % 1024 = 0 →
          halfToFloatBits 15360 =
            (((15360 : Nat) >>> 15 % 2) <<< 63) ||| (2047 <<< 52)) ∧
        ((15360 : Nat) % 1024 ≠ 0 → halfToFloatBits 15360 = nanBits)) ∧
      ((15360 : Nat) >>> 10 % 32 ≠ 31 →
        b64Val (halfToFloatBits 15360) = b16Val 15360 ∧
        halfToFloatBits 15360 >>> 63 % 2 = (15360 : Nat) >>> 15 % 2 ∧
        halfToFloatBits 15360 >>> 52 % 2048 < 2047) ∧
      (∀ bits, encodePyVal (.pyfloat bits) = .ok (251 :: beBytes 8 bits))) :=
  ⟨by norm_num, C9_half_float_exact 15360 (by norm_num)⟩

/-! ## The CBOR round trip (C6)

Byte-level facts about `beBytes`/`readUint`, the UTF-8 round trip, a fuel
measure bounding the decoder recursion depth by the encoding length, and the
main mutual induction: decoding an encoding yields the collapsed value and
consumes exactly the encoding. -/

theorem exceptBind_ok {α β ε : Type} (x : Except ε α) (g : α → Except ε β)
    (c : β) (h : (x >>= g) = .ok c) : ∃ a, x = .ok a ∧ g a = .ok c := by
  cases x with
  | error e => simp [Bind.bind, Except.bind] at h
  | ok a =>
    refine ⟨a, rfl, ?_⟩
    simpa [Bind.bind, Except.bind] using h

theorem beBytes_length (k n : Nat) : (beBytes k n).length = k := by
  induction k generalizing n with
  | zero => rfl
  | succ k ih => simp [beBytes, ih]

theorem beVal_beBytes (k n : Nat) (h : n < 2 ^ (8 * k)) :
    beVal (beBytes k n) = n := by
  induction k generalizing n with
  | zero =>
    have h0 : n = 0 := by simpa using h
    simp [h0, beBytes, beVal]
  | succ k ih =>
    have h8 : 2 ^ (8 * (k + 1)) = 2 ^ (8 * k) * 256 := by
      rw [show 8 * (k + 1) = 8 * k + 8 from by ring, pow_add]
      norm_num
    have hdiv : n / 256 < 2 ^ (8 * k) := by
      rw [h8] at h
      omega
    show beVal (beBytes k (n / 256) ++ [n % 256]) = n
    unfold beVal
    rw [List.foldl_append]
    have ihv := ih (n / 256) hdiv
    unfold beVal at ihv
    rw [ihv]
    show n / 256 * 256 + n % 256 = n
    omega

theorem readN_exact (n : Nat) (xs rest : List Nat) (h : xs.length = n) :
    readN n (xs ++ rest) = .ok (xs, rest) := by
  unfold readN
  rw [if_pos (by simp [← h])]
  subst h
  simp

theorem encodeTypeAndLen_spec (major len : Nat) (hd : List Nat)
    (henc : encodeTypeAndLen major len = .ok hd) :
    ∃ b0 tl, hd = b0 :: tl ∧ b0 / 32 = major ∧ b0 % 32 < 28 ∧
      ∀ rest, readUint (b0 % 32) (tl ++ rest) = .ok (some len, rest) := by
  unfold encodeTypeAndLen at henc
  split at henc
  · injection henc with henc
    refine ⟨major * 32 + len, [], henc.symm, by omega, by omega, fun rest => ?_⟩
    have hb : (major * 32 + len) % 32 = len := by omega
    rw [hb]
    unfold readUint
    rw [if_pos (by omega)]
    simp
  · split at henc
    · injection henc with henc
      refine ⟨major * 32 + 24, [len], henc.symm, by omega, by omega, fun rest => ?_⟩
      have hb : (major * 32 + 24) % 32 = 24 := by omega
      rw [hb]
      unfold readUint
      rw [if_neg (by omega), if_pos rfl]
      rw [readN_exact 1 [len] rest rfl]
      show Except.ok (some (beVal [len]), rest) = _
      show Except.ok (some (0 * 256 + len), rest) = _
      norm_num
    · split at henc
      · injection henc with henc
        refine ⟨major * 32 + 25, beBytes 2 len, henc.symm, by omega, by omega,
          fun rest => ?_⟩
        have hb : (major * 32 + 25) % 32 = 25 := by omega
        rw [hb]
        unfold readUint
        rw [if_neg (by omega), if_neg (by omega), if_pos rfl]
        rw [readN_exact 2 _ rest (beBytes_length 2 len)]
        show Except.ok (some (beVal (beBytes 2 len)), rest) = _
        rw [beVal_beBytes 2 len (by norm_num; omega)]
      · split at henc
        · injection henc with henc
          refine ⟨major * 32 + 26, beBytes 4 len, henc.symm, by omega, by omega,
            fun rest => ?_⟩
          have hb : (major * 32 + 26) % 32 = 26 := by omega
          rw [hb]
          unfold readUint
          rw [if_neg (by omega), if_neg (by omega), if_neg (by omega),
            if_pos rfl]
          rw [readN_exact 4 _ rest (beBytes_length 4 len)]
          show Except.ok (some (beVal (beBytes 4 len)), rest) = _
          rw [beVal_beBytes 4 len (by norm_num; omega)]
        · split at henc
          · injection henc with henc
            refine ⟨major * 32 + 27, beBytes 8 len, henc.symm, by omega,
              by omega, fun rest => ?_⟩
            have hb : (major * 32 + 27) % 32 = 27 := by omega
            rw [hb]
            unfold readUint
            rw [if_neg (by omega), if_neg (by omega), if_neg (by omega),
              if_neg (by omega), if_pos rfl]
            rw [readN_exact 8 _ rest (beBytes_length 8 len)]
            show Except.ok (some (beVal (beBytes 8 len)), rest) = _
            rw [beVal_beBytes 8 len (by norm_num; omega)]
          · exact Except.noConfusion henc

theorem encodeTypeAndLen_ne_nil (major len : Nat) (hd : List Nat)
    (henc : encodeTypeAndLen major len = .ok hd) : 1 ≤ hd.length := by
  obtain ⟨b0, tl, hhd, -, -, -⟩ := encodeTypeAndLen_spec major len hd henc
  rw [hhd]
  simp

mutual

theorem fuelNeed_le (v : PyVal) (bs : List Nat)
    (henc : encodePyVal v = .ok bs) : fuelNeed v + 2 ≤ 3 * bs.length := by
  cases v with
  | pynone => injection henc with henc; rw [← henc]; rfl
  | pybool b =>
    cases b with
    | false => injection henc with henc; rw [← henc]; rfl
    | true => injection henc with henc; rw [← henc]; rfl
  | pyint n =>
    unfold encodePyVal at henc
    split at henc
    · have := encodeTypeAndLen_ne_nil _ _ _ henc
      show 1 + 2 ≤ 3 * bs.length
      omega
    · have := encodeTypeAndLen_ne_nil _ _ _ henc
      show 1 + 2 ≤ 3 * bs.length
      omega
  | pyfloat b =>
    injection henc with henc
    rw [← henc]
    show 1 + 2 ≤ 3 * (251 :: beBytes 8 b).length
    simp [beBytes_length]
  | pybytes b =>
    obtain ⟨hd, hh, hrest⟩ := exceptBind_ok _ _ _ henc
    have h1 := encodeTypeAndLen_ne_nil _ _ _ hh
    injection hrest with hrest
    rw [← hrest]
    show 1 + 2 ≤ 3 * (hd ++ b).length
    simp only [List.length_append]
    omega
  | pybytearray b =>
    obtain ⟨hd, hh, hrest⟩ := exceptBind_ok _ _ _ henc
    have h1 := encodeTypeAndLen_ne_nil _ _ _ hh
    injection hrest with hrest
    rw [← hrest]
    show 1 + 2 ≤ 3 * (hd ++ b).length
    simp only [List.length_append]
    omega
  | pystr s =>
    obtain ⟨hd, hh, hrest⟩ := exceptBind_ok _ _ _ henc
    have h1 := encodeTypeAndLen_ne_nil _ _ _ hh
    injection hrest with hrest
    rw [← hrest]
    show 1 + 2 ≤ 3 * (hd ++ utf8Encode s).length
    simp only [List.length_append]
    omega
  | pylist xs =>
    obtain ⟨hd, hh, hrest⟩ := exceptBind_ok _ _ _ henc
    obtain ⟨body, hb, hrest2⟩ := exceptBind_ok _ _ _ hrest
    have h1 := encodeTypeAndLen_ne_nil _ _ _ hh
    have h2 := fuelNeedList_le xs body hb
    injection hrest2 with hrest2
    rw [← hrest2]
    show 1 + fuelNeedList xs + 2 ≤ 3 * (hd ++ body).length
    simp only [List.length_append]
    omega
  | pytuple xs =>
    obtain ⟨hd, hh, hrest⟩ := exceptBind_ok _ _ _ henc
    obtain ⟨body, hb, hrest2⟩ := exceptBind_ok _ _ _ hrest
    have h1 := encodeTypeAndLen_ne_nil _ _ _ hh
    have h2 := fuelNeedList_le xs body hb
    injection hrest2 with hrest2
    rw [← hrest2]
    show 1 + fuelNeedList xs + 2 ≤ 3 * (hd ++ body).length
    simp only [List.length_append]
    omega
  | pyset xs =>
    obtain ⟨hd, hh, hrest⟩ := exceptBind_ok _ _ _ henc
    obtain ⟨body, hb, hrest2⟩ := exceptBind_ok _ _ _ hrest
    have h1 := encodeTypeAndLen_ne_nil _ _ _ hh
    have h2 := fuelNeedList_le xs body hb
    injection hrest2 with hrest2
    rw [← hrest2]
    show 1 + fuelNeedList xs + 2 ≤ 3 * (hd ++ body).length
    simp only [List.length_append]
    omega
  | pyfrozenset xs =>
    obtain ⟨hd, hh, hrest⟩ := exceptBind_ok _ _ _ henc
    obtain ⟨body, hb, hrest2⟩ := exceptBind_ok _ _ _ hrest
    have h1 := encodeTypeAndLen_ne_nil _ _ _ hh
    have h2 := fuelNeedList_le xs body hb
    injection hrest2 with hrest2
    rw [← hrest2]
    show 1 + fuelNeedList xs + 2 ≤ 3 * (hd ++ body).length
    simp only [List.length_append]
    omega
  | pydict kvs =>
    obtain ⟨hd, hh, hrest⟩ := exceptBind_ok _ _ _ henc
    obtain ⟨body, hb, hrest2⟩ := exceptBind_ok _ _ _ hrest
    have h1 := encodeTypeAndLen_ne_nil _ _ _ hh
    have h2 := fuelNeedKVs_le kvs body hb
    injection hrest2 with hrest2
    rw [← hrest2]
    show 1 + fuelNeedKVs kvs + 2 ≤ 3 * (hd ++ body).length
    simp only [List.length_append]
    omega

theorem fuelNeedList_le (xs : List PyVal) (bs : List Nat)
    (henc : encodeItems xs = .ok bs) : fuelNeedList xs ≤ 3 * bs.length := by
  cases xs with
  | nil =>
    injection henc with henc
    rw [← henc]
    rfl
  | cons v rest =>
    obtain ⟨bv, hv, h2⟩ := exceptBind_ok _ _ _ henc
    obtain ⟨br, hr, h3⟩ := exceptBind_ok _ _ _ h2
    have hb1 := fuelNeed_le v bv hv
    have hb2 := fuelNeedList_le rest br hr
    injection h3 with h3
    rw [← h3]
    show 1 + fuelNeed v + fuelNeedList rest ≤ 3 * (bv ++ br).length
    simp only [List.length_append]
    omega

theorem fuelNeedKVs_le (kvs : List (PyVal × PyVal)) (bs : List Nat)
    (henc : encodeKVs kvs = .ok bs) : fuelNeedKVs kvs ≤ 3 * bs.length := by
  cases kvs with
  | nil =>
    injection henc with henc
    rw [← henc]
    rfl
  | cons p rest =>
    obtain ⟨k, v⟩ := p
    obtain ⟨bk, hk, h2⟩ := exceptBind_ok _ _ _ henc
    obtain ⟨bv, hv, h3⟩ := exceptBind_ok _ _ _ h2
    obtain ⟨br, hr, h4⟩ := exceptBind_ok _ _ _ h3
    have hb1 := fuelNeed_le k bk hk
    have hb2 := fuelNeed_le v bv hv
    have hb3 := fuelNeedKVs_le rest br hr
    injection h4 with h4
    rw [← h4]
    show 1 + fuelNeed k + fuelNeed v + fuelNeedKVs rest ≤
      3 * (bk ++ bv ++ br).length
    simp only [List.length_append]
    omega

end

theorem collapse_of_primKey (k : PyVal) (h : primKey k = true) :
    collapse k = k := by
  cases k <;> first | rfl | exact absurd h (by simp [primKey])

theorem unhashable_of_primKey (k : PyVal) (h : primKey k = true) :
    unhashable k = false := by
  cases k <;> first | rfl | exact absurd h (by simp [primKey])

theorem pyBeq_iff_of_primKey (a b : PyVal) (h : primKey a = true) :
    (pyBeq a b = true ↔ a = b) := by
  cases a <;> cases b <;>
    simp_all [pyBeq, primKey]

theorem pyInsert_of_not_mem (acc : List (PyVal × PyVal)) (k v : PyVal)
    (h : ∀ p ∈ acc, pyBeq p.1 k = false) :
    pyInsert acc k v = acc ++ [(k, v)] := by
  unfold pyInsert
  rw [if_neg]
  simp only [List.any_eq_true, not_exists]
  intro p hp
  have h2 := hp.2
  rw [h p hp.1] at h2
  exact Bool.false_ne_true h2

theorem char_toNat_lt (c : Char) : c.toNat < 1114112 := by
  rcases c.valid with h | ⟨h1, h2⟩ <;> simp only [Char.toNat] <;> omega

theorem utf8DecodeGo_encode (s : Str) (f : Nat) (hf : s.length ≤ f) :
    utf8DecodeGo f (utf8Encode s) = some s := by
  induction s generalizing f with
  | nil =>
    cases f with
    | zero => rfl
    | succ f => rfl
  | cons c cs ih =>
    cases f with
    | zero => simp at hf
    | succ f =>
      have hcs : utf8DecodeGo f (utf8Encode cs) = some cs :=
        ih f (by simpa using hf)
      have hrt : Char.ofNat c.toNat = c := Char.ofNat_toNat c
      have hcb : c.toNat < 1114112 := char_toNat_lt c
      show utf8DecodeGo (f + 1) (utf8EncodeChar c ++ utf8Encode cs) = some (c :: cs)
      unfold utf8EncodeChar
      simp only []
      by_cases h1 : c.toNat < 128
      · rw [if_pos h1]
        show utf8DecodeGo (f + 1) (c.toNat :: utf8Encode cs) = _
        unfold utf8DecodeGo
        rw [if_pos h1, hcs]
        simp only [Option.map]
        rw [hrt]
      · rw [if_neg h1]
        by_cases h2 : c.toNat < 2048
        · rw [if_pos h2]
          show utf8DecodeGo (f + 1)
            ((192 + c.toNat / 64) :: (128 + c.toNat % 64) :: utf8Encode cs) = _
          unfold utf8DecodeGo
          rw [if_neg (by omega), if_neg (by omega), if_pos (by omega)]
          simp only []
          rw [if_pos (by simp [isCont]; omega)]
          rw [hcs]
          simp only [Option.map]
          have harith : (192 + c.toNat / 64 - 192) * 64 + (128 + c.toNat % 64 - 128) = c.toNat := by
            omega
          rw [harith, hrt]
        · rw [if_neg h2]
          by_cases h3 : c.toNat < 65536
          · rw [if_pos h3]
            show utf8DecodeGo (f + 1)
              ((224 + c.toNat / 4096) :: (128 + c.toNat / 64 % 64) ::
                (128 + c.toNat % 64) :: utf8Encode cs) = _
            unfold utf8DecodeGo
            rw [if_neg (by omega), if_neg (by omega), if_neg (by omega),
              if_pos (by omega)]
            simp only []
            rw [if_pos (by simp [isCont]; omega)]
            rw [hcs]
            simp only [Option.map]
            have harith : (224 + c.toNat / 4096 - 224) * 4096 +
                (128 + c.toNat / 64 % 64 - 128) * 64 + (128 + c.toNat % 64 - 128) =
                c.toNat := by omega
            rw [harith, hrt]
          · rw [if_neg h3]
            show utf8DecodeGo (f + 1)
              ((240 + c.toNat / 262144) :: (128 + c.toNat / 4096 % 64) ::
                (128 + c.toNat / 64 % 64) :: (128 + c.toNat % 64) ::
                utf8Encode cs) = _
            unfold utf8DecodeGo
            rw [if_neg (by omega), if_neg (by omega), if_neg (by omega),
              if_neg (by omega), if_pos (by omega)]
            simp only []
            rw [if_pos (by simp [isCont]; omega)]
            rw [hcs]
            simp only [Option.map]
            have harith : (240 + c.toNat / 262144 - 240) * 262144 +
                (128 + c.toNat / 4096 % 64 - 128) * 4096 +
                (128 + c.toNat / 64 % 64 - 128) * 64 +
                (128 + c.toNat % 64 - 128) = c.toNat := by omega
            rw [harith, hrt]

theorem utf8Encode_length (s : Str) : s.length ≤ (utf8Encode s).length := by
  induction s with
  | nil => simp [utf8Encode]
  | cons c cs ih =>
    show (c :: cs).length ≤ (utf8EncodeChar c ++ utf8Encode cs).length
    rw [List.length_append, List.length_cons]
    have h1 : 1 ≤ (utf8EncodeChar c).length := by
      unfold utf8EncodeChar
      simp only []
      split
      · simp
      · split
        · simp
        · split <;> simp
    omega

theorem utf8_roundtrip (s : Str) : utf8DecodeFull (utf8Encode s) = some s :=
  utf8DecodeGo_encode s _ (utf8Encode_length s)

theorem decodeArray_succ (f n : Nat) (bs : List Nat) :
    decodeArray (f + 1) (n + 1) bs =
      match decodeCbor f bs with
      | .error e => .error e
      | .ok (.brk, _) => .error .unexpectedBreak
      | .ok (.val v, r) =>
        match decodeArray f n r with
        | .error e => .error e
        | .ok (items, r2) => .ok (v :: items, r2) := by
  show Except.bind (decodeCbor f bs) _ = _
  cases decodeCbor f bs with
  | error e => rfl
  | ok p =>
    obtain ⟨item, r⟩ := p
    cases item with
    | brk => rfl
    | val v =>
      show Except.bind (decodeArray f n r) _ =
        match decodeArray f n r with
        | .error e => Except.error e
        | .ok (items, r2) => Except.ok (v :: items, r2)
      cases decodeArray f n r with
      | error e => rfl
      | ok q => rfl

theorem decodeMap_succ (f n : Nat) (acc : List (PyVal × PyVal))
    (bs : List Nat) :
    decodeMap (f + 1) (n + 1) acc bs =
      match decodeCbor f bs with
      | .error e => .error e
      | .ok (ki, r1) =>
        match decodeCbor f r1 with
        | .error e => .error e
        | .ok (vi, r2) =>
          match ki, vi with
          | .brk, _ => .error .unexpectedBreak
          | .val _, .brk => .error .unexpectedBreak
          | .val k, .val v =>
            if unhashable k then .error .typeError
            else decodeMap f n (pyInsert acc k v) r2 := by
  show Except.bind (decodeCbor f bs) _ = _
  cases decodeCbor f bs with
  | error e => rfl
  | ok p =>
    obtain ⟨ki, r1⟩ := p
    show Except.bind (decodeCbor f r1) _ =
      match decodeCbor f r1 with
      | .error e => Except.error e
      | .ok (vi, r2) =>
        match ki, vi with
        | .brk, _ => Except.error CborErr.unexpectedBreak
        | .val _, .brk => Except.error CborErr.unexpectedBreak
        | .val k, .val v =>
          if unhashable k then Except.error CborErr.typeError
          else decodeMap f n (pyInsert acc k v) r2
    cases decodeCbor f r1 with
    | error e => rfl
    | ok q =>
      obtain ⟨vi, r2⟩ := q
      cases ki with
      | brk => rfl
      | val k =>
        cases vi with
        | brk => rfl
        | val v => rfl

mutual

theorem decode_encode (v : PyVal) (bs rest : List Nat) (f : Nat)
    (hwf : wf v = true) (henc : encodePyVal v = .ok bs)
    (hf : fuelNeed v ≤ f) :
    decodeCbor f (bs ++ rest) = .ok (.val (collapse v), rest) := by
  cases v with
  | pynone =>
    injection henc with henc
    subst henc
    cases f with
    | zero => exact absurd hf (by decide)
    | succ f => rfl
  | pybool b =>
    cases b with
    | false =>
      injection henc with henc
      subst henc
      cases f with
      | zero => exact absurd hf (by decide)
      | succ f => rfl
    | true =>
      injection henc with henc
      subst henc
      cases f with
      | zero => exact absurd hf (by decide)
      | succ f => rfl
  | pyint n =>
    cases f with
    | zero =>
      rw [show fuelNeed (PyVal.pyint n) = 1 from rfl] at hf
      omega
    | succ f =>
      unfold encodePyVal at henc
      split at henc
      · rename_i hn
        obtain ⟨b0, tl, hhd, hmaj, haddl, hread⟩ :=
          encodeTypeAndLen_spec 0 n.toNat bs henc
        subst hhd
        simp only [List.cons_append, List.append_assoc]
        unfold decodeCbor
        simp only []
        rw [hmaj, if_neg (by decide), hread rest]
        simp only [Bind.bind, Except.bind]
        rw [if_pos (by decide), Int.toNat_of_nonneg hn]
        rfl
      · rename_i hn
        obtain ⟨b0, tl, hhd, hmaj, haddl, hread⟩ :=
          encodeTypeAndLen_spec 1 (-1 - n).toNat bs henc
        subst hhd
        simp only [List.cons_append, List.append_assoc]
        unfold decodeCbor
        simp only []
        rw [hmaj, if_neg (by decide), hread rest]
        simp only [Bind.bind, Except.bind]
        rw [if_neg (by decide), if_pos (by decide)]
        have hneg : ((-1 - n).toNat : Int) = -1 - n :=
          Int.toNat_of_nonneg (by omega)
        rw [hneg, show (-1 : Int) - (-1 - n) = n from by ring]
        rfl
  | pyfloat bits =>
    injection henc with henc
    subst henc
    cases f with
    | zero =>
      rw [show fuelNeed (PyVal.pyfloat bits) = 1 from rfl] at hf
      omega
    | succ f =>
      simp only [List.cons_append, List.append_assoc]
      unfold decodeCbor
      simp only []
      rw [if_pos (by decide), if_neg (by decide), if_neg (by decide),
        if_neg (by decide), if_neg (by decide), if_neg (by decide),
        if_neg (by decide), if_neg (by decide), if_pos (by decide)]
      rw [readN_exact 8 _ rest (beBytes_length 8 bits)]
      simp only [Bind.bind, Except.bind]
      have hb : bits < 2 ^ (8 * 8) := of_decide_eq_true hwf
      rw [beVal_beBytes 8 bits hb]
      rfl
  | pybytes b =>
    cases f with
    | zero =>
      rw [show fuelNeed (PyVal.pybytes b) = 1 from rfl] at hf
      omega
    | succ f =>
      obtain ⟨hd, hh, hrest⟩ := exceptBind_ok _ _ _ henc
      injection hrest with hrest
      subst hrest
      obtain ⟨b0, tl, hhd, hmaj, haddl, hread⟩ :=
        encodeTypeAndLen_spec 2 b.length hd hh
      subst hhd
      simp only [List.cons_append, List.append_assoc]
      unfold decodeCbor
      simp only []
      rw [hmaj, if_neg (by decide), hread (b ++ rest)]
      simp only [Bind.bind, Except.bind]
      rw [if_neg (by decide), if_neg (by decide), if_pos (by decide)]
      rw [readN_exact b.length b rest rfl]
      rfl
  | pybytearray b =>
    cases f with
    | zero =>
      rw [show fuelNeed (PyVal.pybytearray b) = 1 from rfl] at hf
      omega
    | succ f =>
      obtain ⟨hd, hh, hrest⟩ := exceptBind_ok _ _ _ henc
      injection hrest with hrest
      subst hrest
      obtain ⟨b0, tl, hhd, hmaj, haddl, hread⟩ :=
        encodeTypeAndLen_spec 2 b.length hd hh
      subst hhd
      simp only [List.cons_append, List.append_assoc]
      unfold decodeCbor
      simp only []
      rw [hmaj, if_neg (by decide), hread (b ++ rest)]
      simp only [Bind.bind, Except.bind]
      rw [if_neg (by decide), if_neg (by decide), if_pos (by decide)]
      rw [readN_exact b.length b rest rfl]
      rfl
  | pystr str =>
    cases f with
    | zero =>
      rw [show fuelNeed (PyVal.pystr str) = 1 from rfl] at hf
      omega
    | succ f =>
      obtain ⟨hd, hh, hrest⟩ := exceptBind_ok _ _ _ henc
      injection hrest with hrest
      subst hrest
      obtain ⟨b0, tl, hhd, hmaj, haddl, hread⟩ :=
        encodeTypeAndLen_spec 3 (utf8Encode str).length hd hh
      subst hhd
      simp only [List.cons_append, List.append_assoc]
      unfold decodeCbor
      simp only []
      rw [hmaj, if_neg (by decide), hread (utf8Encode str ++ rest)]
      simp only [Bind.bind, Except.bind]
      rw [if_neg (by decide), if_neg (by decide), if_neg (by decide),
        if_pos (by decide)]
      rw [readN_exact (utf8Encode str).length (utf8Encode str) rest rfl]
      simp only [Bind.bind, Except.bind]
      rw [utf8_roundtrip str]
      rfl
  | pylist xs =>
    cases f with
    | zero =>
      rw [show fuelNeed (PyVal.pylist xs) = 1 + fuelNeedList xs from rfl] at hf
      omega
    | succ f =>
      obtain ⟨hd, hh, hrest⟩ := exceptBind_ok _ _ _ henc
      obtain ⟨body, hb, hrest2⟩ := exceptBind_ok _ _ _ hrest
      injection hrest2 with hrest2
      subst hrest2
      obtain ⟨b0, tl, hhd, hmaj, haddl, hread⟩ :=
        encodeTypeAndLen_spec 4 xs.length hd hh
      subst hhd
      simp only [List.cons_append, List.append_assoc]
      unfold decodeCbor
      simp only []
      rw [hmaj, if_neg (by decide), hread (body ++ rest)]
      simp only [Bind.bind, Except.bind]
      rw [if_neg (by decide), if_neg (by decide), if_neg (by decide),
        if_neg (by decide), if_pos (by decide)]
      rw [decode_encode_items xs body rest f hwf hb
        (by rw [show fuelNeed (PyVal.pylist xs) = 1 + fuelNeedList xs from rfl]
              at hf
            omega)]
      rfl
  | pytuple xs =>
    cases f with
    | zero =>
      rw [show fuelNeed (PyVal.pytuple xs) = 1 + fuelNeedList xs from rfl] at hf
      omega
    | succ f =>
      obtain ⟨hd, hh, hrest⟩ := exceptBind_ok _ _ _ henc
      obtain ⟨body, hb, hrest2⟩ := exceptBind_ok _ _ _ hrest
      injection hrest2 with hrest2
      subst hrest2
      obtain ⟨b0, tl, hhd, hmaj, haddl, hread⟩ :=
        encodeTypeAndLen_spec 4 xs.length hd hh
      subst hhd
      simp only [List.cons_append, List.append_assoc]
      unfold decodeCbor
      simp only []
      rw [hmaj, if_neg (by decide), hread (body ++ rest)]
      simp only [Bind.bind, Except.bind]
      rw [if_neg (by decide), if_neg (by decide), if_neg (by decide),
        if_neg (by decide), if_pos (by decide)]
      rw [decode_encode_items xs body rest f hwf hb
        (by rw [show fuelNeed (PyVal.pytuple xs) = 1 + fuelNeedList xs from rfl]
              at hf
            omega)]
      rfl
  | pyset xs =>
    cases f with
    | zero =>
      rw [show fuelNeed (PyVal.pyset xs) = 1 + fuelNeedList xs from rfl] at hf
      omega
    | succ f =>
      obtain ⟨hd, hh, hrest⟩ := exceptBind_ok _ _ _ henc
      obtain ⟨body, hb, hrest2⟩ := exceptBind_ok _ _ _ hrest
      injection hrest2 with hrest2
      subst hrest2
      obtain ⟨b0, tl, hhd, hmaj, haddl, hread⟩ :=
        encodeTypeAndLen_spec 4 xs.length hd hh
      subst hhd
      simp only [List.cons_append, List.append_assoc]
      unfold decodeCbor
      simp only []
      rw [hmaj, if_neg (by decide), hread (body ++ rest)]
      simp only [Bind.bind, Except.bind]
      rw [if_neg (by decide), if_neg (by decide), if_neg (by decide),
        if_neg (by decide), if_pos (by decide)]
      rw [decode_encode_items xs body rest f hwf hb
        (by rw [show fuelNeed (PyVal.pyset xs) = 1 + fuelNeedList xs from rfl]
              at hf
            omega)]
      rfl
  | pyfrozenset xs =>
    cases f with
    | zero =>
      rw [show fuelNeed (PyVal.pyfrozenset xs) = 1 + fuelNeedList xs from rfl] at hf
      omega
    | succ f =>
      obtain ⟨hd, hh, hrest⟩ := exceptBind_ok _ _ _ henc
      obtain ⟨body, hb, hrest2⟩ := exceptBind_ok _ _ _ hrest
      injection hrest2 with hrest2
      subst hrest2
      obtain ⟨b0, tl, hhd, hmaj, haddl, hread⟩ :=
        encodeTypeAndLen_spec 4 xs.length hd hh
      subst hhd
      simp only [List.cons_append, List.append_assoc]
      unfold decodeCbor
      simp only []
      rw [hmaj, if_neg (by decide), hread (body ++ rest)]
      simp only [Bind.bind, Except.bind]
      rw [if_neg (by decide), if_neg (by decide), if_neg (by decide),
        if_neg (by decide), if_pos (by decide)]
      rw [decode_encode_items xs body rest f hwf hb
        (by rw [show fuelNeed (PyVal.pyfrozenset xs) = 1 + fuelNeedList xs from rfl]
              at hf
            omega)]
      rfl
  | pydict kvs =>
    cases f with
    | zero =>
      rw [show fuelNeed (PyVal.pydict kvs) = 1 + fuelNeedKVs kvs from rfl] at hf
      omega
    | succ f =>
      obtain ⟨hd, hh, hrest⟩ := exceptBind_ok _ _ _ henc
      obtain ⟨body, hb, hrest2⟩ := exceptBind_ok _ _ _ hrest
      injection hrest2 with hrest2
      subst hrest2
      obtain ⟨b0, tl, hhd, hmaj, haddl, hread⟩ :=
        encodeTypeAndLen_spec 5 kvs.length hd hh
      subst hhd
      rw [show wf (PyVal.pydict kvs) = (kvsKeysDistinct kvs &&
        kvs.all (fun p => primKey p.1) && wfKVs kvs) from rfl,
        Bool.and_eq_true, Bool.and_eq_true] at hwf
      obtain ⟨⟨hdist, hpk⟩, hwkvs⟩ := hwf
      simp only [List.cons_append, List.append_assoc]
      unfold decodeCbor
      simp only []
      rw [hmaj, if_neg (by decide), hread (body ++ rest)]
      simp only [Bind.bind, Except.bind]
      rw [if_neg (by decide), if_neg (by decide), if_neg (by decide),
        if_neg (by decide), if_neg (by decide), if_pos (by decide)]
      rw [decode_encode_kvs kvs [] body rest f hwkvs hpk hdist
        (by intro p hp; simp at hp) hb
        (by rw [show fuelNeed (PyVal.pydict kvs) = 1 + fuelNeedKVs kvs from rfl]
              at hf
            omega)]
      simp only [List.nil_append]
      rfl

theorem decode_encode_items (xs : List PyVal) (bs rest : List Nat) (f : Nat)
    (hwf : wfList xs = true) (henc : encodeItems xs = .ok bs)
    (hf : fuelNeedList xs ≤ f) :
    decodeArray f xs.length (bs ++ rest) = .ok (collapseList xs, rest) := by
  cases xs with
  | nil =>
    injection henc with henc
    subst henc
    cases f <;> rfl
  | cons x xr =>
    rw [show fuelNeedList (x :: xr) =
      1 + fuelNeed x + fuelNeedList xr from rfl] at hf
    cases f with
    | zero => omega
    | succ f =>
      rw [show wfList (x :: xr) = (wf x && wfList xr) from rfl,
        Bool.and_eq_true] at hwf
      obtain ⟨hwx, hwxr⟩ := hwf
      obtain ⟨bx, hx, h2⟩ := exceptBind_ok _ _ _ henc
      obtain ⟨br, hr, h3⟩ := exceptBind_ok _ _ _ h2
      injection h3 with h3
      subst h3
      simp only [List.append_assoc, List.length_cons]
      rw [decodeArray_succ]
      rw [decode_encode x bx (br ++ rest) f hwx hx (by omega)]
      simp only []
      rw [decode_encode_items xr br rest f hwxr hr (by omega)]
      rfl

theorem decode_encode_kvs (kvs acc : List (PyVal × PyVal))
    (bs rest : List Nat) (f : Nat)
    (hwf : wfKVs kvs = true) (hpk : kvs.all (fun p => primKey p.1) = true)
    (hdist : kvsKeysDistinct kvs = true)
    (hacc : ∀ p ∈ acc, ∀ q ∈ kvs, pyBeq p.1 q.1 = false)
    (henc : encodeKVs kvs = .ok bs) (hf : fuelNeedKVs kvs ≤ f) :
    decodeMap f kvs.length acc (bs ++ rest) =
      .ok (acc ++ collapseKVs kvs, rest) := by
  cases kvs with
  | nil =>
    injection henc with henc
    subst henc
    cases f with
    | zero =>
      show Except.ok (acc, rest) = Except.ok (acc ++ collapseKVs [], rest)
      rw [show collapseKVs ([] : List (PyVal × PyVal)) = [] from rfl,
        List.append_nil]
    | succ f =>
      show Except.ok (acc, rest) = Except.ok (acc ++ collapseKVs [], rest)
      rw [show collapseKVs ([] : List (PyVal × PyVal)) = [] from rfl,
        List.append_nil]
  | cons p kr =>
    obtain ⟨k, v⟩ := p
    rw [show fuelNeedKVs ((k, v) :: kr) =
      1 + fuelNeed k + fuelNeed v + fuelNeedKVs kr from rfl] at hf
    cases f with
    | zero => omega
    | succ f =>
      rw [show wfKVs ((k, v) :: kr) = (wf k && wf v && wfKVs kr) from rfl,
        Bool.and_eq_true, Bool.and_eq_true] at hwf
      obtain ⟨⟨hwk, hwv⟩, hwkr⟩ := hwf
      rw [List.all_cons, Bool.and_eq_true] at hpk
      obtain ⟨hpkk, hpkr⟩ := hpk
      rw [show kvsKeysDistinct ((k, v) :: kr) =
        (kr.all (fun p => !pyBeq p.1 k) && kvsKeysDistinct kr) from rfl,
        Bool.and_eq_true] at hdist
      obtain ⟨hdk, hdkr⟩ := hdist
      obtain ⟨bk, hk, h2⟩ := exceptBind_ok _ _ _ henc
      obtain ⟨bv, hv, h3⟩ := exceptBind_ok _ _ _ h2
      obtain ⟨br, hr, h4⟩ := exceptBind_ok _ _ _ h3
      injection h4 with h4
      subst h4
      simp only [List.append_assoc, List.length_cons]
      rw [decodeMap_succ]
      rw [decode_encode k bk (bv ++ (br ++ rest)) f hwk hk (by omega)]
      simp only []
      rw [decode_encode v bv (br ++ rest) f hwv hv (by omega)]
      simp only []
      rw [collapse_of_primKey k hpkk]
      rw [if_neg (by rw [unhashable_of_primKey k hpkk]; simp)]
      rw [pyInsert_of_not_mem acc k (collapse v)
        (fun p hp => hacc p hp (k, v) (List.mem_cons_self _ _))]
      rw [decode_encode_kvs kr (acc ++ [(k, collapse v)]) br rest f
        hwkr hpkr hdkr ?hacc2 hr (by omega)]
      · show Except.ok ((acc ++ [(k, collapse v)]) ++ collapseKVs kr, rest) = _
        rw [show collapseKVs ((k, v) :: kr) =
          (collapse k, collapse v) :: collapseKVs kr from rfl,
          collapse_of_primKey k hpkk]
        simp
      case hacc2 =>
        intro p hp q hq
        rw [List.mem_append] at hp
        cases hp with
        | inl hp =>
          exact hacc p hp q (List.mem_cons_of_mem _ hq)
        | inr hp =>
          rw [List.mem_singleton] at hp
          subst hp
          show pyBeq k q.1 = false
          have hq1 : pyBeq q.1 k = false := by
            rw [List.all_eq_true] at hdk
            have := hdk q hq
            simpa using this
          have hpq1 : primKey q.1 = true := by
            rw [List.all_eq_true] at hpkr
            exact hpkr q hq
          cases hbe : pyBeq k q.1 with
          | false => rfl
          | true =>
            have hkq : k = q.1 := (pyBeq_iff_of_primKey k q.1 hpkk).mp hbe
            have : pyBeq q.1 k = true := by
              rw [← hkq]
              exact (pyBeq_iff_of_primKey k k hpkk).mpr rfl
            rw [hq1] at this
            exact absurd this (by simp)

end

/-- C6 counterexample: the claim promises `loads (dumps V) == V` (up to
collapsing) for every dict over supported types; but a dict with a tuple
key — hashable in Python, so a legal input — encodes fine, while decoding
turns the key into a list, and the `m[k] = v` store raises
`TypeError: unhashable type: 'list'`. -/
theorem C6_tuple_key_counterexample :
    dumps (.pydict [(.pytuple [], .pyint 0)]) = .ok [161, 128, 0] ∧
      loads [161, 128, 0] = .error .typeError := ⟨rfl, rfl⟩

/-- C6 (amended): the round trip holds on values whose dict keys are
distinct non-aggregate values (`wf`): whenever `dumps V` succeeds,
`loads (dumps V)` returns exactly `V` with tuples/sets/frozensets collapsed
to lists and bytearrays to bytes, and any nonempty trailing bytes after the
top-level value make `loads` raise the trailing-data error. -/
theorem C6_wf_roundtrip (V : PyVal) (bs : List Nat) (hwf : wf V = true)
    (henc : dumps V = .ok bs) :
    loads bs = .ok (.val (collapse V)) ∧
      ∀ extra, extra ≠ [] → loads (bs ++ extra) = .error .trailingBytes := by
  constructor
  · unfold loads
    have hdec := decode_encode V bs [] (3 * bs.length + 8) hwf henc
      (by have := fuelNeed_le V bs henc; omega)
    rw [List.append_nil] at hdec
    rw [hdec]
    simp only [Bind.bind, Except.bind]
    rfl
  · intro extra hne
    unfold loads
    have hdec := decode_encode V bs extra (3 * (bs ++ extra).length + 8) hwf
      henc
      (by have := fuelNeed_le V bs henc
          simp only [List.length_append]
          omega)
    rw [hdec]
    simp only [Bind.bind, Except.bind]
    rw [if_neg hne]

/-- Witness for the amended C6 at a concrete two-key dict. -/
theorem C6_wf_roundtrip_witness :
    wf c6Val = true ∧ dumps c6Val = .ok c6Bytes ∧
      (loads c6Bytes = .ok (.val (collapse c6Val)) ∧
        ∀ extra, extra ≠ [] →
          loads (c6Bytes ++ extra) = .error .trailingBytes) :=
  ⟨rfl, rfl, C6_wf_roundtrip c6Val c6Bytes rfl rfl⟩

set_option maxHeartbeats 2000000 in
/-- C7 (amended): a major-type-7 item whose additional info is unassigned
(0–19 or 28–30) does not raise: the decoder returns the additional-info
value itself as an integer.  The other unsupported-input rejections do hold:
reserved additional info 28–30 under major types 0–6 raises the
invalid-additional-info error whatever bytes follow, a header announcing a
1/2/4/8-byte payload with no payload (and the empty input) raises the
unexpected-end error, and any bytes trailing one well-formed top-level item
raise the trailing-bytes error. -/
theorem C7_unsupported_inputs :
    (∀ a : Fin 32,
      ¬ a.val ∈ ([20, 21, 22, 23, 24, 25, 26, 27, 31] : List Nat) →
      loads [7 * 32 + a.val] = .ok (.val (.pyint a.val))) ∧
    (∀ m : Fin 7, ∀ a, a ∈ ([28, 29, 30] : List Nat) → ∀ rest,
      loads ((m.val * 32 + a) :: rest) = .error .invalidAddl) ∧
    (∀ m : Fin 8, ∀ a, a ∈ ([24, 25, 26, 27] : List Nat) →
      loads [m.val * 32 + a] = .error .unexpectedEnd) ∧
    loads [] = .error .unexpectedEnd ∧
    (∀ V bs extra, wf V = true → dumps V = .ok bs → extra ≠ [] →
      loads (bs ++ extra) = .error .trailingBytes) := by
  refine ⟨?_, ?_, ?_, rfl, ?_⟩
  · intro a h
    fin_cases a <;> first | rfl | (exact absurd (by decide) h)
  · intro m a ha rest
    have hf : ∀ b : Nat,
        3 * (b :: rest).length + 8 = 3 * rest.length + 10 + 1 := by
      intro b
      simp only [List.length_cons]
      ring
    fin_cases m <;> fin_cases ha <;>
      (unfold loads; simp only [bind, Except.bind]; rw [hf]; rfl)
  · intro m a ha
    fin_cases m <;> fin_cases ha <;> rfl
  · intro V bs extra hwf henc hne
    unfold loads
    have hdec := decode_encode V bs extra (3 * (bs ++ extra).length + 8) hwf
      henc
      (by have := fuelNeed_le V bs henc
          simp only [List.length_append]
          omega)
    rw [hdec]
    simp only [Bind.bind, Except.bind]
    rw [if_neg hne]

/-- The amended C7 at concrete inputs: unassigned simple value 0, reserved
additional info 28 under major type 0, a truncated uint8 header, and one
byte trailing an encoded zero. -/
theorem C7_unsupported_inputs_witness :
    loads [7 * 32 + (0 : Fin 32).val] = .ok (.val (.pyint (0 : Fin 32).val)) ∧
    loads (((0 : Fin 7).val * 32 + 28) :: [1, 2]) = .error .invalidAddl ∧
    loads [(0 : Fin 8).val * 32 + 24] = .error .unexpectedEnd ∧
    loads ([0] ++ [5]) = .error .trailingBytes :=
  ⟨C7_unsupported_inputs.1 0 (by decide),
   C7_unsupported_inputs.2.1 0 28 (by decide) [1, 2],
   C7_unsupported_inputs.2.2.1 0 24 (by decide),
   C7_unsupported_inputs.2.2.2.2 (.pyint 0) [0] [5] rfl rfl (by decide)⟩

/-! ## C8 toolkit -/

theorem char_le_iff (a c : Char) : (a ≤ c) ↔ a.toNat ≤ c.toNat := by
  rw [Char.le_def, UInt32.le_def, BitVec.le_def]
  rfl

theorem char_eq_iff (a c : Char) : a = c ↔ a.toNat = c.toNat := by
  constructor
  · intro h; rw [h]
  · intro h
    apply Char.ext
    apply UInt32.eq_of_toBitVec_eq
    apply BitVec.eq_of_toNat_eq
    exact h

theorem isUpperC_iff (c : Char) :
    isUpperC c = true ↔ 65 ≤ c.toNat ∧ c.toNat ≤ 90 := by
  unfold isUpperC
  rw [Bool.and_eq_true, decide_eq_true_iff, decide_eq_true_iff,
    char_le_iff, char_le_iff]
  exact Iff.rfl

theorem lowerChar_toNat (c : Char) :
    (lowerChar c).toNat =
      if 65 ≤ c.toNat ∧ c.toNat ≤ 90 then c.toNat + 32 else c.toNat := by
  unfold lowerChar
  by_cases h : isUpperC c = true
  · rw [if_pos h, if_pos ((isUpperC_iff c).mp h)]
    have hb := (isUpperC_iff c).mp h
    rw [Char.ofNat, dif_pos (by constructor; omega)]
    rfl
  · rw [if_neg h, if_neg]
    intro hb
    exact h ((isUpperC_iff c).mpr hb)

theorem lowerChar_idem (c : Char) : lowerChar (lowerChar c) = lowerChar c := by
  rw [char_eq_iff, lowerChar_toNat (lowerChar c), lowerChar_toNat c]
  by_cases h : 65 ≤ c.toNat ∧ c.toNat ≤ 90
  · have hval : (if 65 ≤ c.toNat ∧ c.toNat ≤ 90 then c.toNat + 32
        else c.toNat) = c.toNat + 32 := if_pos h
    rw [hval, if_neg (by omega)]
  · have hval : (if 65 ≤ c.toNat ∧ c.toNat ≤ 90 then c.toNat + 32
        else c.toNat) = c.toNat := if_neg h
    rw [hval, if_neg h]

theorem lowerStr_idem (s : Str) : lowerStr (lowerStr s) = lowerStr s := by
  unfold lowerStr
  rw [List.map_map]
  apply List.map_congr_left
  intro c _
  exact lowerChar_idem c

theorem lowerStr_append (a b : Str) :
    lowerStr (a ++ b) = lowerStr a ++ lowerStr b := List.map_append _ a b

/-- `lowerChar` produces `c` only from `c` itself, for every `c` that is not
a lowercase ASCII letter. -/
theorem lowerChar_eq_self_of_not_lower (c x : Char)
    (hc : c.toNat < 97 ∨ 122 < c.toNat) (h : lowerChar x = c) : x = c := by
  rw [char_eq_iff] at h ⊢
  rw [lowerChar_toNat] at h
  by_cases hx : 65 ≤ x.toNat ∧ x.toNat ≤ 90
  · rw [if_pos hx] at h
    omega
  · rwa [if_neg hx] at h

theorem hasChar_append (c : Char) (a b : Str) :
    hasChar c (a ++ b) = (hasChar c a || hasChar c b) := by
  unfold hasChar
  exact List.any_append

theorem hasChar_cons (c d : Char) (s : Str) :
    hasChar c (d :: s) = (decide (d = c) || hasChar c s) := by
  unfold hasChar
  rfl

theorem hasChar_nil (c : Char) : hasChar c [] = false := rfl

theorem hasChar_eq_false_iff (c : Char) (s : Str) :
    hasChar c s = false ↔ ∀ x ∈ s, x ≠ c := by
  unfold hasChar
  simp

theorem hasChar_lowerStr_eq_false (c : Char) (s : Str)
    (hc : c.toNat < 97 ∨ 122 < c.toNat) (h : hasChar c s = false) :
    hasChar c (lowerStr s) = false := by
  rw [hasChar_eq_false_iff] at h ⊢
  intro x hx
  unfold lowerStr at hx
  rw [List.mem_map] at hx
  obtain ⟨y, hy, hxy⟩ := hx
  intro hcx
  exact h y hy (lowerChar_eq_self_of_not_lower c y hc (hxy.trans hcx))

theorem splitOnFirst_eq_none (c : Char) (s : Str) :
    splitOnFirst c s = none ↔ hasChar c s = false := by
  induction s with
  | nil => simp [splitOnFirst, hasChar]
  | cons d rest ih =>
    unfold splitOnFirst
    rw [hasChar_cons]
    by_cases hd : d = c
    · rw [if_pos hd]
      simp [hd]
    · rw [if_neg hd]
      rw [Bool.or_eq_false_iff]
      cases hsp : splitOnFirst c rest with
      | none =>
        rw [hsp] at ih
        simp only []
        constructor
        · intro _
          exact ⟨by simp [hd], ih.mp rfl⟩
        · intro _
          trivial
      | some p =>
        rw [hsp] at ih
        simp only []
        constructor
        · intro h
          exact Option.noConfusion h
        · intro ⟨h1, h2⟩
          rw [← ih] at h2
          exact Option.noConfusion h2

theorem splitOnFirst_eq_some (c : Char) (s a b : Str)
    (h : splitOnFirst c s = some (a, b)) :
    s = a ++ c :: b ∧ hasChar c a = false := by
  induction s generalizing a b with
  | nil => exact Option.noConfusion h
  | cons d rest ih =>
    unfold splitOnFirst at h
    by_cases hd : d = c
    · rw [if_pos hd] at h
      injection h with h
      injection h with h1 h2
      subst hd
      rw [← h1, ← h2]
      exact ⟨rfl, rfl⟩
    · rw [if_neg hd] at h
      cases hsp : splitOnFirst c rest with
      | none =>
        rw [hsp] at h
        exact Option.noConfusion h
      | some p =>
        obtain ⟨a1, b1⟩ := p
        rw [hsp] at h
        simp only [] at h
        injection h with h
        injection h with h1 h2
        obtain ⟨ih1, ih2⟩ := ih a1 b1 hsp
        subst h2
        subst h1
        constructor
        · rw [List.cons_append, ← ih1]
        · rw [hasChar_cons, ih2]
          simp [hd]

theorem splitOnFirst_append_self (c : Char) (a b : Str)
    (ha : hasChar c a = false) : splitOnFirst c (a ++ c :: b) = some (a, b) := by
  induction a with
  | nil => simp [splitOnFirst]
  | cons d rest ih =>
    rw [hasChar_cons, Bool.or_eq_false_iff] at ha
    obtain ⟨hd, hrest⟩ := ha
    show splitOnFirst c (d :: (rest ++ c :: b)) = _
    unfold splitOnFirst
    rw [if_neg (of_decide_eq_false hd), ih hrest]

theorem hasChar_reverse (c : Char) (s : Str) :
    hasChar c s.reverse = hasChar c s := by
  unfold hasChar
  exact List.any_reverse

theorem splitOnLast_eq_none (c : Char) (s : Str) :
    splitOnLast c s = none ↔ hasChar c s = false := by
  unfold splitOnLast
  cases hsp : splitOnFirst c s.reverse with
  | none =>
    rw [splitOnFirst_eq_none, hasChar_reverse] at hsp
    simp [hsp]
  | some p =>
    simp only []
    constructor
    · intro h
      exact Option.noConfusion h
    · intro h
      rw [← hasChar_reverse, ← splitOnFirst_eq_none] at h
      rw [h] at hsp
      exact Option.noConfusion hsp

theorem splitOnLast_eq_some (c : Char) (s a b : Str)
    (h : splitOnLast c s = some (a, b)) :
    s = a ++ c :: b ∧ hasChar c b = false := by
  unfold splitOnLast at h
  cases hsp : splitOnFirst c s.reverse with
  | none =>
    rw [hsp] at h
    exact Option.noConfusion h
  | some p =>
    obtain ⟨x, y⟩ := p
    rw [hsp] at h
    simp only [] at h
    injection h with h
    injection h with h1 h2
    obtain ⟨hx1, hx2⟩ := splitOnFirst_eq_some c s.reverse x y hsp
    have hs : s = y.reverse ++ c :: x.reverse := by
      have := congrArg List.reverse hx1
      rw [List.reverse_reverse, List.reverse_append, List.reverse_cons] at this
      rw [this]
      simp
    constructor
    · rw [← h1, ← h2]
      exact hs
    · rw [← h2, hasChar_reverse]
      exact hx2

theorem splitOnLast_append_self (c : Char) (a b : Str)
    (hb : hasChar c b = false) : splitOnLast c (a ++ c :: b) = some (a, b) := by
  unfold splitOnLast
  have hrev : (a ++ c :: b).reverse = b.reverse ++ c :: a.reverse := by
    rw [List.reverse_append, List.reverse_cons]
    simp
  rw [hrev, splitOnFirst_append_self c b.reverse a.reverse
    (by rw [hasChar_reverse]; exact hb)]
  simp

theorem takeWhile_append_all (p : Char → Bool) (a b : Str)
    (ha : ∀ x ∈ a, p x = true) (hb : ∀ x, b.head? = some x → p x = false) :
    (a ++ b).takeWhile p = a ∧ (a ++ b).dropWhile p = b := by
  induction a with
  | nil =>
    simp only [List.nil_append]
    cases b with
    | nil => exact ⟨rfl, rfl⟩
    | cons x t =>
      rw [List.takeWhile_cons, List.dropWhile_cons, hb x rfl]
      exact ⟨rfl, rfl⟩
  | cons d rest ih =>
    obtain ⟨ih1, ih2⟩ := ih (fun x hx => ha x (List.mem_cons_of_mem d hx))
    rw [List.cons_append, List.takeWhile_cons, List.dropWhile_cons,
      ha d (List.mem_cons_self d rest)]
    simp only [if_true]
    exact ⟨by rw [ih1], by rw [ih2]⟩

theorem pushNum_zero_eq (n : Nat) : pushNum 0 n = n := by
  induction n using Nat.strong_induction_on with
  | _ n ih =>
    cases n with
    | zero => simp only [pushNum]
    | succ m =>
      rw [pushNum, ih ((m + 1) / 10) (Nat.div_lt_self (Nat.succ_pos m)
        (by norm_num))]
      omega

theorem natDigitsGo_spec (fuel : Nat) :
    ∀ n acc A, n ≤ fuel →
      List.foldl (fun a c => a * 10 + (c.toNat - 48)) A
          (natDigitsGo fuel n acc) =
        List.foldl (fun a c => a * 10 + (c.toNat - 48)) (pushNum A n) acc := by
  induction fuel with
  | zero =>
    intro n acc A hn
    have h0 : n = 0 := by omega
    subst h0
    simp only [pushNum]
    rfl
  | succ f ih =>
    intro n acc A hn
    cases hn0 : n with
    | zero =>
      simp only [pushNum]
      rfl
    | succ m =>
      rw [show natDigitsGo (f + 1) (m + 1) acc =
        natDigitsGo f ((m + 1) / 10)
          (Char.ofNat (48 + (m + 1) % 10) :: acc) from rfl]
      rw [ih ((m + 1) / 10) _ A (by omega)]
      show List.foldl _ (pushNum A ((m + 1) / 10) * 10 +
        ((Char.ofNat (48 + (m + 1) % 10)).toNat - 48)) acc = _
      have hch : (Char.ofNat (48 + (m + 1) % 10)).toNat = 48 + (m + 1) % 10 := by
        rw [Char.ofNat, dif_pos (by constructor; omega)]
        rfl
      rw [hch, pushNum]
      have : 48 + (m + 1) % 10 - 48 = (m + 1) % 10 := by omega
      rw [this]

theorem digitsVal_natDigits (n : Nat) : digitsVal (natDigits n) = n := by
  unfold natDigits digitsVal
  by_cases h : n = 0
  · subst h
    rfl
  · rw [if_neg h]
    have := natDigitsGo_spec n n [] 0 le_rfl
    rw [this]
    show pushNum 0 n = n
    exact pushNum_zero_eq n

theorem natDigitsGo_digits (fuel : Nat) :
    ∀ n acc, (∀ x ∈ acc, isDigitC x = true) →
      ∀ x ∈ natDigitsGo fuel n acc, isDigitC x = true := by
  induction fuel with
  | zero => intro n acc hacc; exact hacc
  | succ f ih =>
    intro n acc hacc
    unfold natDigitsGo
    by_cases h : n = 0
    · rw [if_pos h]
      exact hacc
    · rw [if_neg h]
      apply ih
      intro x hx
      rw [List.mem_cons] at hx
      cases hx with
      | inl hx =>
        subst hx
        unfold isDigitC
        have hch : (Char.ofNat (48 + n % 10)).toNat = 48 + n % 10 := by
          rw [Char.ofNat, dif_pos (by constructor; omega)]
          rfl
        rw [Bool.and_eq_true, decide_eq_true_iff, decide_eq_true_iff,
          char_le_iff, char_le_iff, hch]
        constructor
        · rw [show ('0' : Char).toNat = 48 from rfl]
          omega
        · rw [show ('9' : Char).toNat = 57 from rfl]
          omega
      | inr hx => exact hacc x hx

theorem natDigits_digits (n : Nat) :
    ∀ x ∈ natDigits n, isDigitC x = true := by
  unfold natDigits
  by_cases h : n = 0
  · rw [if_pos h]
    intro x hx
    rw [List.mem_singleton] at hx
    subst hx
    rfl
  · rw [if_neg h]
    apply natDigitsGo_digits
    intro x hx
    exact absurd hx (List.not_mem_nil x)

theorem natDigitsGo_suffix (fuel : Nat) :
    ∀ n acc, ∃ ds, natDigitsGo fuel n acc = ds ++ acc := by
  induction fuel with
  | zero => intro n acc; exact ⟨[], rfl⟩
  | succ f ih =>
    intro n acc
    unfold natDigitsGo
    by_cases h : n = 0
    · rw [if_pos h]
      exact ⟨[], rfl⟩
    · rw [if_neg h]
      obtain ⟨ds, hds⟩ := ih (n / 10) (Char.ofNat (48 + n % 10) :: acc)
      exact ⟨ds ++ [Char.ofNat (48 + n % 10)], by rw [hds]; simp⟩

theorem natDigits_ne_nil (n : Nat) : natDigits n ≠ [] := by
  unfold natDigits
  by_cases h : n = 0
  · rw [if_pos h]
    simp
  · rw [if_neg h]
    cases hn : n with
    | zero => exact absurd hn h
    | succ m =>
      show natDigitsGo (m + 1) (m + 1) [] ≠ []
      rw [show natDigitsGo (m + 1) (m + 1) [] =
        natDigitsGo m ((m + 1) / 10) [Char.ofNat (48 + (m + 1) % 10)] from rfl]
      obtain ⟨ds, hds⟩ := natDigitsGo_suffix m ((m + 1) / 10)
        [Char.ofNat (48 + (m + 1) % 10)]
      rw [hds]
      simp

theorem hasChar_natDigits (c : Char) (n : Nat) (hc : isDigitC c = false) :
    hasChar c (natDigits n) = false := by
  rw [hasChar_eq_false_iff]
  intro x hx hxc
  rw [hxc] at hx
  rw [natDigits_digits n c hx] at hc
  exact Bool.noConfusion hc

theorem natDigits_all_digits (n : Nat) :
    (natDigits n).all isDigitC = true := by
  rw [List.all_eq_true]
  exact natDigits_digits n

theorem isAsciiAlpha_iff (c : Char) :
    isAsciiAlpha c = true ↔
      (65 ≤ c.toNat ∧ c.toNat ≤ 90) ∨ (97 ≤ c.toNat ∧ c.toNat ≤ 122) := by
  unfold isAsciiAlpha
  rw [Bool.or_eq_true, Bool.and_eq_true, Bool.and_eq_true]
  rw [decide_eq_true_iff, decide_eq_true_iff, decide_eq_true_iff,
    decide_eq_true_iff, char_le_iff, char_le_iff, char_le_iff, char_le_iff]
  exact Iff.rfl

theorem isDigitC_iff (c : Char) :
    isDigitC c = true ↔ 48 ≤ c.toNat ∧ c.toNat ≤ 57 := by
  unfold isDigitC
  rw [Bool.and_eq_true, decide_eq_true_iff, decide_eq_true_iff,
    char_le_iff, char_le_iff]
  exact Iff.rfl

theorem lowerChar_alpha (c : Char) (h : isAsciiAlpha c = true) :
    isAsciiAlpha (lowerChar c) = true := by
  rw [isAsciiAlpha_iff] at h ⊢
  rw [lowerChar_toNat]
  rcases h with h | h
  · rw [if_pos (by omega)]
    omega
  · rw [if_neg (by omega)]
    omega

theorem charEqIffToNat (x : Char) (c : Char) : (x = c) ↔ x.toNat = c.toNat :=
  char_eq_iff x c

theorem lowerChar_schemeChar (c : Char) (h : schemeChar c = true) :
    schemeChar (lowerChar c) = true := by
  by_cases hu : isUpperC c = true
  · have halpha : isAsciiAlpha (lowerChar c) = true := by
      apply lowerChar_alpha
      rw [isAsciiAlpha_iff]
      exact Or.inl ((isUpperC_iff c).mp hu)
    unfold schemeChar
    rw [halpha]
    rfl
  · rw [show lowerChar c = c from by unfold lowerChar; rw [if_neg hu]]
    exact h

theorem schemeChar_ne_colon (c : Char) (h : schemeChar c = true) : c ≠ ':' := by
  intro hc
  subst hc
  exact Bool.noConfusion h

theorem alpha_ne_colon (c : Char) (h : isAsciiAlpha c = true) : c ≠ ':' := by
  intro hc
  subst hc
  exact Bool.noConfusion h

theorem extractScheme_build (c : Char) (cs r : Str)
    (hc : isAsciiAlpha c = true) (hcs : cs.all schemeChar = true) :
    extractScheme ((c :: cs) ++ ':' :: r) = (lowerStr (c :: cs), r) := by
  unfold extractScheme
  have hnc : hasChar ':' (c :: cs) = false := by
    rw [hasChar_cons, Bool.or_eq_false_iff]
    constructor
    · rw [decide_eq_false_iff_not]
      exact alpha_ne_colon c hc
    · rw [hasChar_eq_false_iff]
      intro x hx
      exact schemeChar_ne_colon x (by rw [List.all_eq_true] at hcs; exact hcs x hx)
  rw [splitOnFirst_append_self ':' (c :: cs) r hnc]
  simp only []
  rw [if_pos (by rw [hc, hcs]; rfl)]

theorem extractScheme_slash (u : Str) (hu : u.head? = some '/') :
    extractScheme u = ([], u) := by
  unfold extractScheme
  cases hsp : splitOnFirst ':' u with
  | none => rfl
  | some p =>
    obtain ⟨pre, post⟩ := p
    obtain ⟨h1, h2⟩ := splitOnFirst_eq_some ':' u pre post hsp
    cases hpre : pre with
    | nil =>
      subst hpre
      rfl
    | cons d ds =>
      subst hpre
      rw [h1] at hu
      simp at hu
      simp only []
      rw [if_neg]
      intro hcond
      rw [Bool.and_eq_true] at hcond
      rw [hu] at hcond
      exact Bool.noConfusion hcond.1

theorem extractScheme_cases (u s r : Str) (h : extractScheme u = (s, r)) :
    (s = [] ∧ r = u) ∨
      (∃ c cs, s = lowerStr (c :: cs) ∧ u = (c :: cs) ++ ':' :: r ∧
        isAsciiAlpha c = true ∧ cs.all schemeChar = true) := by
  unfold extractScheme at h
  cases hsp : splitOnFirst ':' u with
  | none =>
    rw [hsp] at h
    injection h with h1 h2
    exact Or.inl ⟨h1.symm, h2.symm⟩
  | some p =>
    obtain ⟨pre, post⟩ := p
    rw [hsp] at h
    simp only [] at h
    obtain ⟨hu, hpre⟩ := splitOnFirst_eq_some ':' u pre post hsp
    cases hprec : pre with
    | nil =>
      subst hprec
      injection h with h1 h2
      exact Or.inl ⟨h1.symm, h2.symm⟩
    | cons c cs =>
      subst hprec
      simp only [] at h
      by_cases hcond : (isAsciiAlpha c && cs.all schemeChar) = true
      · rw [if_pos hcond] at h
        injection h with h1 h2
        rw [Bool.and_eq_true] at hcond
        exact Or.inr ⟨c, cs, h1.symm, by rw [hu, h2], hcond.1, hcond.2⟩
      · rw [if_neg hcond] at h
        injection h with h1 h2
        exact Or.inl ⟨h1.symm, h2.symm⟩

theorem cleanUrl_eq_self (s : Str)
    (hhead : ∀ x, s.head? = some x → c0OrSpace x = false)
    (hsafe : ∀ x ∈ s, unsafeByte x = false) :
    cleanUrl s = s := by
  unfold cleanUrl
  have hdrop : s.dropWhile c0OrSpace = s := by
    cases s with
    | nil => rfl
    | cons d rest =>
      rw [List.dropWhile_cons, hhead d rfl]
      simp
  rw [hdrop]
  rw [List.filter_eq_self]
  intro x hx
  rw [hsafe x hx]
  rfl

theorem mem_of_append_left {x : Char} (a b : Str) (hx : x ∈ a) :
    x ∈ a ++ b := List.mem_append_left b hx

theorem hasChar_false_left (c : Char) (a b : Str)
    (h : hasChar c (a ++ b) = false) : hasChar c a = false := by
  rw [hasChar_append, Bool.or_eq_false_iff] at h
  exact h.1

theorem hasChar_false_right (c : Char) (a b : Str)
    (h : hasChar c (a ++ b) = false) : hasChar c b = false := by
  rw [hasChar_append, Bool.or_eq_false_iff] at h
  exact h.2

theorem hasChar_false_cons (c d : Char) (s : Str)
    (h : hasChar c (d :: s) = false) : hasChar c s = false := by
  rw [hasChar_cons, Bool.or_eq_false_iff] at h
  exact h.2

theorem hasChar_cleanUrl_false (c : Char) (s : Str)
    (h : hasChar c s = false) : hasChar c (cleanUrl s) = false := by
  rw [hasChar_eq_false_iff] at h ⊢
  intro x hx
  unfold cleanUrl at hx
  rw [List.mem_filter] at hx
  exact h x (List.Sublist.mem hx.1 (List.dropWhile_sublist _))

theorem hasChar_takeWhile_false (c : Char) (p : Char → Bool) (s : Str)
    (h : hasChar c s = false) : hasChar c (s.takeWhile p) = false := by
  rw [hasChar_eq_false_iff] at h ⊢
  intro x hx
  exact h x (List.Sublist.mem hx (List.takeWhile_sublist _))

theorem hasChar_dropWhile_false (c : Char) (p : Char → Bool) (s : Str)
    (h : hasChar c s = false) : hasChar c (s.dropWhile p) = false := by
  rw [hasChar_eq_false_iff] at h ⊢
  intro x hx
  exact h x (List.Sublist.mem hx (List.dropWhile_sublist _))

theorem schemeChar_safe (c : Char) (h : schemeChar c = true) :
    unsafeByte c = false ∧ c0OrSpace c = false := by
  have h5 : (((isAsciiAlpha c = true ∨ isDigitC c = true) ∨ c = '+') ∨
      c = '-') ∨ c = '.' := by
    unfold schemeChar at h
    simpa using h
  have h9 : ('\t' : Char).toNat = 9 := rfl
  have h13 : ('\r' : Char).toNat = 13 := rfl
  have h10 : ('\n' : Char).toNat = 10 := rfl
  have hp : ('+' : Char).toNat = 43 := rfl
  have hm : ('-' : Char).toNat = 45 := rfl
  have hdot : ('.' : Char).toNat = 46 := rfl
  have hn : 33 ≤ c.toNat ∧ c.toNat ≤ 122 := by
    rcases h5 with (((ha | hd) | hc) | hc) | hc
    · rw [isAsciiAlpha_iff] at ha
      omega
    · rw [isDigitC_iff] at hd
      omega
    · rw [char_eq_iff] at hc
      omega
    · rw [char_eq_iff] at hc
      omega
    · rw [char_eq_iff] at hc
      omega
  constructor
  · unfold unsafeByte
    have h1 : decide (c = '\t') = false := by
      rw [decide_eq_false_iff_not, char_eq_iff]
      omega
    have h2 : decide (c = '\r') = false := by
      rw [decide_eq_false_iff_not, char_eq_iff]
      omega
    have h3 : decide (c = '\n') = false := by
      rw [decide_eq_false_iff_not, char_eq_iff]
      omega
    rw [h1, h2, h3]
    rfl
  · unfold c0OrSpace
    rw [decide_eq_false_iff_not]
    omega

theorem alpha_lower_bound (c : Char) (h : isAsciiAlpha c = true) :
    33 ≤ c.toNat := by
  rw [isAsciiAlpha_iff] at h
  omega

/-- The reassembled URL is untouched by `urlsplit`'s sanitisation. -/
theorem reassembled_clean (scheme netloc path query : Str)
    (hs : scheme = [] ∨ ∃ c cs, scheme = lowerStr (c :: cs) ∧
      isAsciiAlpha c = true ∧ cs.all schemeChar = true)
    (hsafeN : ∀ x ∈ netloc, unsafeByte x = false)
    (hsafeP : ∀ x ∈ path, unsafeByte x = false)
    (hsafeQ : ∀ x ∈ query, unsafeByte x = false) :
    cleanUrl ((if scheme ≠ [] then scheme ++ [':'] else []) ++
        '/' :: '/' :: (netloc ++ (path ++
          (if query ≠ [] then '?' :: query else [])))) =
      (if scheme ≠ [] then scheme ++ [':'] else []) ++
        '/' :: '/' :: (netloc ++ (path ++
          (if query ≠ [] then '?' :: query else []))) := by
  have hschemeSafe : ∀ x ∈ scheme, unsafeByte x = false ∧ 33 ≤ x.toNat := by
    rcases hs with hs | ⟨c, cs, hsv, hca, hcsv⟩
    · subst hs
      intro x hx
      exact absurd hx (List.not_mem_nil x)
    · subst hsv
      intro x hx
      unfold lowerStr at hx
      rw [List.mem_map] at hx
      obtain ⟨y, hy, hxy⟩ := hx
      have hysc : schemeChar y = true := by
        rw [List.mem_cons] at hy
        cases hy with
        | inl hy =>
          subst hy
          unfold schemeChar
          rw [hca]
          rfl
        | inr hy =>
          rw [List.all_eq_true] at hcsv
          exact hcsv y hy
      have hxsc : schemeChar x = true := by
        rw [← hxy]
        exact lowerChar_schemeChar y hysc
      refine ⟨(schemeChar_safe x hxsc).1, ?_⟩
      have := (schemeChar_safe x hxsc).2
      unfold c0OrSpace at this
      rw [decide_eq_false_iff_not] at this
      omega
  apply cleanUrl_eq_self
  · intro x hx
    by_cases hsc : scheme = []
    · subst hsc
      rw [if_neg (by simp)] at hx
      rw [List.nil_append] at hx
      rw [List.head?_cons] at hx
      injection hx with hx
      rw [← hx]
      rfl
    · rcases hs with hs | ⟨c, cs, hsv, hca, hcsv⟩
      · exact absurd hs hsc
      · rw [if_pos hsc] at hx
        rw [hsv] at hx
        rw [show lowerStr (c :: cs) = lowerChar c :: lowerStr cs from rfl] at hx
        rw [List.cons_append, List.cons_append, List.head?_cons] at hx
        injection hx with hx
        rw [← hx]
        have halpha : isAsciiAlpha (lowerChar c) = true := lowerChar_alpha c hca
        unfold c0OrSpace
        rw [decide_eq_false_iff_not]
        have h2 := alpha_lower_bound _ halpha
        omega
  · intro x hx
    rw [List.mem_append] at hx
    cases hx with
    | inl hx =>
      by_cases hsc : scheme = []
      · rw [if_neg (not_not_intro hsc)] at hx
        exact absurd hx (List.not_mem_nil x)
      · rw [if_pos hsc] at hx
        rw [List.mem_append] at hx
        cases hx with
        | inl hx => exact (hschemeSafe x hx).1
        | inr hx =>
          rw [List.mem_singleton] at hx
          subst hx
          rfl
    | inr hx =>
      rw [List.mem_cons] at hx
      rcases hx with hx | hx
      · subst hx
        rfl
      rw [List.mem_cons] at hx
      rcases hx with hx | hx
      · subst hx
        rfl
      rw [List.mem_append] at hx
      rcases hx with hx | hx
      · exact hsafeN x hx
      rw [List.mem_append] at hx
      rcases hx with hx | hx
      · exact hsafeP x hx
      · by_cases hq : query = []
        · rw [if_neg (not_not_intro hq)] at hx
          exact absurd hx (List.not_mem_nil x)
        · rw [if_pos hq] at hx
          rw [List.mem_cons] at hx
          rcases hx with hx | hx
          · subst hx
            rfl
          · exact hsafeQ x hx

theorem extractScheme_build2 (c : Char) (cs r : Str)
    (hc : isAsciiAlpha c = true) (hcs : cs.all schemeChar = true) :
    extractScheme (c :: (cs ++ ':' :: r)) = (lowerStr (c :: cs), r) := by
  rw [← List.cons_append]
  exact extractScheme_build c cs r hc hcs

/-- Re-parsing a reassembled absolute URL with a delimiter-free,
bracket-free authority recovers exactly its components.  `sp` is the
scheme prefix (`scheme:` or empty), `tq` the query suffix (`?query` or
empty). -/
theorem urlsplit_reassembled (sp scheme netloc path tq query : Str)
    (hsp : (sp = [] ∧ scheme = []) ∨
      (sp = scheme ++ [':'] ∧ ∃ c cs, scheme = lowerStr (c :: cs) ∧
        isAsciiAlpha c = true ∧ cs.all schemeChar = true))
    (htq : (tq = [] ∧ query = []) ∨ tq = '?' :: query)
    (hnd : ∀ x ∈ netloc, netlocDelim x = false)
    (hlb : hasChar '[' netloc = false) (hrb : hasChar ']' netloc = false)
    (hph : path = [] ∨ path.head? = some '/')
    (hpq : hasChar '?' path = false) (hphash : hasChar '#' path = false)
    (hqh : hasChar '#' query = false)
    (hsafeN : ∀ x ∈ netloc, unsafeByte x = false)
    (hsafeP : ∀ x ∈ path, unsafeByte x = false)
    (hsafeQ : ∀ x ∈ query, unsafeByte x = false) :
    urlsplit (sp ++ '/' :: '/' :: (netloc ++ (path ++ tq))) =
      .ok ⟨scheme, netloc, path, query, []⟩ := by
  have hndB : ∀ x ∈ netloc, (!netlocDelim x) = true := by
    intro x hx
    rw [hnd x hx]
    rfl
  have hhead : ∀ x, (path ++ tq).head? = some x → (!netlocDelim x) = false := by
    intro x hx
    cases hph with
    | inl hpe =>
      subst hpe
      rw [List.nil_append] at hx
      rcases htq with ⟨htq1, _⟩ | htq1
      · rw [htq1] at hx
        exact Option.noConfusion hx
      · rw [htq1, List.head?_cons] at hx
        injection hx with hx
        rw [← hx]
        rfl
    | inr hph =>
      cases path with
      | nil => exact Option.noConfusion hph
      | cons d rest =>
        rw [List.head?_cons] at hph
        injection hph with hph
        rw [List.cons_append, List.head?_cons] at hx
        injection hx with hx
        rw [← hx, hph]
        rfl
  obtain ⟨htw, hdw⟩ :=
    takeWhile_append_all (fun c => !netlocDelim c) netloc (path ++ tq)
      hndB hhead
  have hfrag : hasChar '#' (path ++ tq) = false := by
    rw [hasChar_append, hphash]
    rcases htq with ⟨htq1, _⟩ | htq1
    · rw [htq1]
      rfl
    · rw [htq1, hasChar_cons, hqh]
      rfl
  have hsafeTq : ∀ x ∈ tq, unsafeByte x = false := by
    intro x hx
    rcases htq with ⟨htq1, _⟩ | htq1
    · rw [htq1] at hx
      exact absurd hx (List.not_mem_nil x)
    · rw [htq1, List.mem_cons] at hx
      rcases hx with hx | hx
      · subst hx
        rfl
      · exact hsafeQ x hx
  have hclean : cleanUrl (sp ++ '/' :: '/' :: (netloc ++ (path ++ tq))) =
      sp ++ '/' :: '/' :: (netloc ++ (path ++ tq)) := by
    have hspSafe : ∀ x ∈ sp, unsafeByte x = false := by
      rcases hsp with ⟨hsp1, _⟩ | ⟨hsp1, c, cs, hsv, hca, hcsv⟩
      · rw [hsp1]
        intro x hx
        exact absurd hx (List.not_mem_nil x)
      · rw [hsp1]
        intro x hx
        rw [List.mem_append] at hx
        rcases hx with hx | hx
        · rw [hsv] at hx
          unfold lowerStr at hx
          rw [List.mem_map] at hx
          obtain ⟨y, hy, hxy⟩ := hx
          have hysc : schemeChar y = true := by
            rw [List.mem_cons] at hy
            rcases hy with hy | hy
            · subst hy
              unfold schemeChar
              rw [hca]
              rfl
            · rw [List.all_eq_true] at hcsv
              exact hcsv y hy
          rw [← hxy]
          exact (schemeChar_safe (lowerChar y) (lowerChar_schemeChar y hysc)).1
        · rw [List.mem_singleton] at hx
          subst hx
          rfl
    apply cleanUrl_eq_self
    · intro x hx
      rcases hsp with ⟨hsp1, _⟩ | ⟨hsp1, c, cs, hsv, hca, hcsv⟩
      · rw [hsp1, List.nil_append, List.head?_cons] at hx
        injection hx with hx
        rw [← hx]
        rfl
      · rw [hsp1, hsv] at hx
        rw [show lowerStr (c :: cs) = lowerChar c :: lowerStr cs from rfl] at hx
        rw [List.cons_append, List.cons_append, List.head?_cons] at hx
        injection hx with hx
        rw [← hx]
        have halpha := lowerChar_alpha c hca
        unfold c0OrSpace
        rw [decide_eq_false_iff_not]
        have h2 := alpha_lower_bound _ halpha
        omega
    · intro x hx
      rw [List.mem_append] at hx
      rcases hx with hx | hx
      · exact hspSafe x hx
      rw [List.mem_cons] at hx
      rcases hx with hx | hx
      · subst hx
        rfl
      rw [List.mem_cons] at hx
      rcases hx with hx | hx
      · subst hx
        rfl
      rw [List.mem_append] at hx
      rcases hx with hx | hx
      · exact hsafeN x hx
      rw [List.mem_append] at hx
      rcases hx with hx | hx
      · exact hsafeP x hx
      · exact hsafeTq x hx
  have hg1 : (hasChar '[' netloc && !hasChar ']' netloc ||
      hasChar ']' netloc && !hasChar '[' netloc) = false := by
    rw [hlb, hrb]
    rfl
  have hg2 : (hasChar '[' netloc && hasChar ']' netloc) = false := by
    rw [hlb]
    rfl
  have hsch : extractScheme (sp ++ '/' :: '/' :: (netloc ++ (path ++ tq))) =
      (scheme, '/' :: '/' :: (netloc ++ (path ++ tq))) := by
    rcases hsp with ⟨hsp1, hsp2⟩ | ⟨hsp1, c, cs, hsv, hca, hcsv⟩
    · rw [hsp1, hsp2, List.nil_append]
      exact extractScheme_slash _ rfl
    · rw [hsp1, hsv]
      rw [show lowerStr (c :: cs) = lowerChar c :: lowerStr cs from rfl]
      simp only [List.cons_append, List.append_assoc, List.singleton_append]
      rw [extractScheme_build2 (lowerChar c) (lowerStr cs) _
        (lowerChar_alpha c hca)
        (by rw [List.all_eq_true]
            intro x hx
            unfold lowerStr at hx
            rw [List.mem_map] at hx
            obtain ⟨y, hy, hxy⟩ := hx
            rw [List.all_eq_true] at hcsv
            rw [← hxy]
            exact lowerChar_schemeChar y (hcsv y hy))]
      rw [show lowerStr (lowerChar c :: lowerStr cs) =
        lowerStr (lowerStr (c :: cs)) from rfl]
      rw [lowerStr_idem, List.nil_append]
      rfl
  unfold urlsplit
  simp only []
  rw [hclean, hsch]
  simp only []
  rw [htw, hdw]
  rw [hg1, hg2]
  simp only [Bool.false_eq_true, if_false, bind, Except.bind, pure,
    Except.pure]
  rw [(splitOnFirst_eq_none '#' _).mpr hfrag]
  simp only []
  rcases htq with ⟨htq1, htq2⟩ | htq1
  · subst htq1
    subst htq2
    rw [List.append_nil]
    rw [(splitOnFirst_eq_none '?' path).mpr hpq]
  · subst htq1
    rw [splitOnFirst_append_self '?' path query hpq]

theorem mem_cleanUrl (s : Str) (x : Char) (hx : x ∈ cleanUrl s) : x ∈ s := by
  unfold cleanUrl at hx
  rw [List.mem_filter] at hx
  exact List.Sublist.mem hx.1 (List.dropWhile_sublist _)

theorem isUpperC_lowerChar (c : Char) : isUpperC (lowerChar c) = false := by
  rw [Bool.eq_false_iff]
  intro h
  rw [isUpperC_iff, lowerChar_toNat] at h
  by_cases hx : 65 ≤ c.toNat ∧ c.toNat ≤ 90
  · rw [if_pos hx] at h
    omega
  · rw [if_neg hx] at h
    exact hx h

theorem noUpper_lowerStr (s : Str) : ∀ x ∈ lowerStr s, isUpperC x = false := by
  intro x hx
  unfold lowerStr at hx
  rw [List.mem_map] at hx
  obtain ⟨y, _, hxy⟩ := hx
  rw [← hxy]
  exact isUpperC_lowerChar y

theorem lowerStr_eq_self (s : Str) (h : ∀ x ∈ s, isUpperC x = false) :
    lowerStr s = s := by
  unfold lowerStr
  induction s with
  | nil => rfl
  | cons d rest ih =>
    rw [List.map_cons]
    rw [ih (fun x hx => h x (List.mem_cons_of_mem d hx))]
    have hd : lowerChar d = d := by
      unfold lowerChar
      rw [h d (List.mem_cons_self d rest)]
      rfl
    rw [hd]

theorem head?_dropWhile_false (p : Char → Bool) (l : Str) (x : Char)
    (h : (l.dropWhile p).head? = some x) : p x = false := by
  induction l with
  | nil => exact Option.noConfusion h
  | cons d rest ih =>
    rw [List.dropWhile_cons] at h
    by_cases hd : p d = true
    · rw [if_pos hd] at h
      exact ih h
    · rw [Bool.not_eq_true] at hd
      rw [hd] at h
      simp only [Bool.false_eq_true, if_false, List.head?_cons] at h
      injection h with h
      rw [← h]
      exact hd

theorem splitParams_spec (u p q : Str) (h : splitParams u = (p, q)) :
    (∀ x ∈ p, x ∈ u) ∧ (∀ x ∈ q, x ∈ u) ∧
      (u.head? = some '/' → p.head? = some '/') ∧
      (u = [] → p = [] ∧ q = []) := by
  unfold splitParams at h
  cases hsl : splitOnLast '/' u with
  | none =>
    rw [hsl] at h
    have hufree := (splitOnLast_eq_none '/' u).mp hsl
    cases hsf : splitOnFirst ';' u with
    | none =>
      rw [hsf] at h
      injection h with h1 h2
      rw [← h1, ← h2]
      exact ⟨fun x hx => hx, fun x hx => absurd hx (List.not_mem_nil x),
        fun hh => hh, fun hu => ⟨hu, rfl⟩⟩
    | some pr =>
      obtain ⟨a, b⟩ := pr
      rw [hsf] at h
      simp only [] at h
      injection h with h1 h2
      rw [← h1, ← h2]
      obtain ⟨hu, hafree⟩ := splitOnFirst_eq_some ';' u a b hsf
      refine ⟨?_, ?_, ?_, ?_⟩
      · intro x hx
        rw [hu]
        exact List.mem_append_left _ hx
      · intro x hx
        rw [hu]
        exact List.mem_append_right _ (List.mem_cons_of_mem _ hx)
      · intro hh
        exfalso
        rw [hasChar_eq_false_iff] at hufree
        exact hufree '/' (List.mem_of_mem_head? hh) rfl
      · intro hue
        rw [hue] at hsf
        exact Option.noConfusion hsf
  | some pr =>
    obtain ⟨pre, post⟩ := pr
    rw [hsl] at h
    simp only [] at h
    obtain ⟨hu, hpostfree⟩ := splitOnLast_eq_some '/' u pre post hsl
    cases hsf : splitOnFirst ';' post with
    | none =>
      rw [hsf] at h
      injection h with h1 h2
      rw [← h1, ← h2]
      exact ⟨fun x hx => hx, fun x hx => absurd hx (List.not_mem_nil x),
        fun hh => hh, fun hue => ⟨hue, rfl⟩⟩
    | some pr2 =>
      obtain ⟨a, b⟩ := pr2
      rw [hsf] at h
      simp only [] at h
      injection h with h1 h2
      rw [← h1, ← h2]
      obtain ⟨hpost, hafree⟩ := splitOnFirst_eq_some ';' post a b hsf
      refine ⟨?_, ?_, ?_, ?_⟩
      · intro x hx
        rw [hu, hpost]
        simp only [List.mem_append, List.mem_cons] at hx ⊢
        tauto
      · intro x hx
        rw [hu, hpost]
        simp only [List.mem_append, List.mem_cons] at hx ⊢
        tauto
      · intro hh
        cases hpre : pre with
        | nil =>
          rw [List.nil_append, List.head?_cons]
        | cons d rest =>
          rw [hu, hpre, List.cons_append, List.head?_cons] at hh
          rw [List.cons_append, List.head?_cons]
          exact hh
      · intro hue
        rw [hue] at hsl
        rw [(splitOnLast_eq_none '/' []).mpr rfl] at hsl
        exact Option.noConfusion hsl

theorem splitParams_recombine (u p q : Str) (h : splitParams u = (p, q)) :
    (q ≠ [] → splitParams (p ++ ';' :: q) = (p, q)) ∧
      (q = [] → hasChar ';' p = true → splitParams p = (p, [])) := by
  unfold splitParams at h
  cases hsl : splitOnLast '/' u with
  | none =>
    rw [hsl] at h
    have hufree := (splitOnLast_eq_none '/' u).mp hsl
    cases hsf : splitOnFirst ';' u with
    | none =>
      rw [hsf] at h
      injection h with h1 h2
      rw [← h1, ← h2]
      refine ⟨fun hq => absurd rfl hq, fun _ hp => ?_⟩
      rw [(splitOnFirst_eq_none ';' u).mp hsf] at hp
      exact Bool.noConfusion hp
    | some pr =>
      obtain ⟨a, b⟩ := pr
      rw [hsf] at h
      simp only [] at h
      injection h with h1 h2
      rw [← h1, ← h2]
      obtain ⟨hu, hafree⟩ := splitOnFirst_eq_some ';' u a b hsf
      constructor
      · intro _
        have hr : hasChar '/' (a ++ ';' :: b) = false := by
          rw [← hu]
          exact hufree
        unfold splitParams
        rw [(splitOnLast_eq_none '/' _).mpr hr]
        rw [splitOnFirst_append_self ';' a b hafree]
      · intro hq hp
        rw [hafree] at hp
        exact Bool.noConfusion hp
  | some pr =>
    obtain ⟨pre, post⟩ := pr
    rw [hsl] at h
    simp only [] at h
    obtain ⟨hu, hpostfree⟩ := splitOnLast_eq_some '/' u pre post hsl
    cases hsf : splitOnFirst ';' post with
    | none =>
      rw [hsf] at h
      injection h with h1 h2
      rw [← h1, ← h2]
      refine ⟨fun hq => absurd rfl hq, fun _ _ => ?_⟩
      unfold splitParams
      rw [hsl]
      simp only []
      rw [hsf]
    | some pr2 =>
      obtain ⟨a, b⟩ := pr2
      rw [hsf] at h
      simp only [] at h
      injection h with h1 h2
      rw [← h1, ← h2]
      obtain ⟨hpost, hafree⟩ := splitOnFirst_eq_some ';' post a b hsf
      have hansl : hasChar '/' a = false := by
        have hx := hpostfree
        rw [hpost] at hx
        exact hasChar_false_left _ _ _ hx
      have hbnsl : hasChar '/' b = false := by
        have hx := hpostfree
        rw [hpost] at hx
        exact hasChar_false_cons _ _ _ (hasChar_false_right _ _ _ hx)
      constructor
      · intro _
        unfold splitParams
        have hx : hasChar '/' (a ++ ';' :: b) = false := by
          rw [hasChar_append, hansl, hasChar_cons, hbnsl]
          rfl
        rw [show pre ++ '/' :: a ++ ';' :: b = pre ++ '/' :: (a ++ ';' :: b) by
          simp]
        rw [splitOnLast_append_self '/' pre _ hx]
        simp only []
        rw [splitOnFirst_append_self ';' a b hafree]
      · intro hq _
        unfold splitParams
        rw [splitOnLast_append_self '/' pre a hansl]
        simp only []
        rw [(splitOnFirst_eq_none ';' a).mpr hafree]

theorem mem_cleanUrl_safe (s : Str) (x : Char) (hx : x ∈ cleanUrl s) :
    x ∈ s ∧ unsafeByte x = false := by
  unfold cleanUrl at hx
  rw [List.mem_filter] at hx
  refine ⟨List.Sublist.mem hx.1 (List.dropWhile_sublist _), ?_⟩
  have h2 := hx.2
  rwa [Bool.not_eq_true'] at h2

theorem mem_takeWhile_pred (p : Char → Bool) (l : Str) (x : Char)
    (hx : x ∈ l.takeWhile p) : p x = true := by
  induction l with
  | nil => exact absurd hx (List.not_mem_nil x)
  | cons d rest ih =>
    rw [List.takeWhile_cons] at hx
    by_cases hd : p d = true
    · rw [if_pos hd] at hx
      rw [List.mem_cons] at hx
      rcases hx with hx | hx
      · rw [hx]
        exact hd
      · exact ih hx
    · rw [Bool.not_eq_true] at hd
      rw [hd] at hx
      simp only [Bool.false_eq_true, if_false] at hx
      exact absurd hx (List.not_mem_nil x)

/-- The `(a, b) := splitOnFirst c l` destructuring with the identity default:
the first piece is `c`-free, both pieces sit inside `l`, and a non-empty first
piece starts where `l` starts. -/
theorem splitFirst_default_facts (c : Char) (l a b : Str)
    (h : (match splitOnFirst c l with
      | none => (l, ([] : Str))
      | some (x, y) => (x, y)) = (a, b)) :
    hasChar c a = false ∧ (∀ x ∈ a, x ∈ l) ∧ (∀ x ∈ b, x ∈ l) ∧
      (a ≠ [] → a.head? = l.head?) := by
  cases hsp : splitOnFirst c l with
  | none =>
    rw [hsp] at h
    injection h with h1 h2
    rw [← h1, ← h2]
    exact ⟨(splitOnFirst_eq_none c l).mp hsp, fun x hx => hx,
      fun x hx => absurd hx (List.not_mem_nil x), fun _ => rfl⟩
  | some pr =>
    obtain ⟨x, y⟩ := pr
    rw [hsp] at h
    simp only [] at h
    injection h with h1 h2
    rw [← h1, ← h2]
    obtain ⟨hl, hxfree⟩ := splitOnFirst_eq_some c l x y hsp
    refine ⟨hxfree, ?_, ?_, ?_⟩
    · intro z hz
      rw [hl]
      exact List.mem_append_left _ hz
    · intro z hz
      rw [hl]
      exact List.mem_append_right _ (List.mem_cons_of_mem _ hz)
    · intro hxne
      cases hxc : x with
      | nil => exact absurd hxc hxne
      | cons d t =>
        rw [hl, hxc, List.cons_append, List.head?_cons, List.head?_cons]

/-- Case analysis for the `_splitnetloc` step of `urlsplit`. -/
theorem splitnetloc_cases (rest0 netloc rest1 : Str)
    (h : (match rest0 with
      | '/' :: '/' :: r2 => (List.takeWhile (fun c => !netlocDelim c) r2,
          List.dropWhile (fun c => !netlocDelim c) r2)
      | x => (([] : Str), rest0)) = (netloc, rest1)) :
    (∃ r2, rest0 = '/' :: '/' :: r2 ∧
      netloc = List.takeWhile (fun c => !netlocDelim c) r2 ∧
      rest1 = List.dropWhile (fun c => !netlocDelim c) r2) ∨
    (netloc = [] ∧ rest1 = rest0) := by
  split at h
  · rename_i r2
    injection h with h1 h2
    exact Or.inl ⟨r2, rfl, h1.symm, h2.symm⟩
  · injection h with h1 h2
    exact Or.inr ⟨h1.symm, h2.symm⟩

set_option maxHeartbeats 1000000 in
/-- What a successful `urlsplit` guarantees about its result: the scheme is
empty or a lowercased well-formed scheme, the authority is free of `/?#`
delimiters, a non-empty authority forces an absolute or empty path, the path
holds no `?` or `#` and the query no `#`, every component character comes from
the input and is not an unsafe byte, and a bracket-free authority has no
closing bracket either. -/
theorem urlsplit_ok_inv (u : Str) (s : SplitResult) (h : urlsplit u = .ok s) :
    (s.scheme = [] ∨ ∃ c cs, s.scheme = lowerStr (c :: cs) ∧
      isAsciiAlpha c = true ∧ cs.all schemeChar = true) ∧
    (∀ x ∈ s.netloc, netlocDelim x = false) ∧
    (∀ x ∈ s.netloc, x ∈ u ∧ unsafeByte x = false) ∧
    (s.netloc ≠ [] → (s.path = [] ∨ s.path.head? = some '/')) ∧
    hasChar '#' s.path = false ∧ hasChar '?' s.path = false ∧
    hasChar '#' s.query = false ∧
    (∀ x ∈ s.path, x ∈ u ∧ unsafeByte x = false) ∧
    (∀ x ∈ s.query, x ∈ u ∧ unsafeByte x = false) ∧
    (hasChar '[' s.netloc = false → hasChar ']' s.netloc = false) := by
  unfold urlsplit at h
  simp only [bind, Except.bind, pure, Except.pure, throw, throwThe,
    MonadExceptOf.throw] at h
  cases hes : extractScheme (cleanUrl u) with
  | mk sch rest0 =>
  rw [hes] at h
  simp only [] at h
  cases hnl : (match rest0 with
    | '/' :: '/' :: r2 => (List.takeWhile (fun c => !netlocDelim c) r2,
        List.dropWhile (fun c => !netlocDelim c) r2)
    | x => (([] : Str), rest0)) with
  | mk netloc rest1 =>
  rw [hnl] at h
  simp only [] at h
  cases hpr2 : (match splitOnFirst '#' rest1 with
    | none => (rest1, ([] : Str))
    | some (a, b) => (a, b)) with
  | mk rest2 fragment =>
  rw [hpr2] at h
  simp only [] at h
  cases hpr3 : (match splitOnFirst '?' rest2 with
    | none => (rest2, ([] : Str))
    | some (a, b) => (a, b)) with
  | mk path query =>
  rw [hpr3] at h
  simp only [] at h
  obtain ⟨h2free, hmem2, hmemfr, hhead2⟩ :=
    splitFirst_default_facts '#' rest1 rest2 fragment hpr2
  obtain ⟨hqfree, hmemp, hmemq, hheadp⟩ :=
    splitFirst_default_facts '?' rest2 path query hpr3
  have hrest0 : ∀ x ∈ rest0, x ∈ u ∧ unsafeByte x = false := by
    rcases extractScheme_cases _ _ _ hes with ⟨_, hs2⟩ | ⟨c, cs, _, hs2, _, _⟩
    · intro x hx
      rw [hs2] at hx
      exact mem_cleanUrl_safe u x hx
    · intro x hx
      refine mem_cleanUrl_safe u x ?_
      rw [hs2]
      exact List.mem_append_right _ (List.mem_cons_of_mem _ hx)
  have hschemeC : sch = [] ∨ ∃ c cs, sch = lowerStr (c :: cs) ∧
      isAsciiAlpha c = true ∧ cs.all schemeChar = true := by
    rcases extractScheme_cases _ _ _ hes with ⟨hs1, _⟩ | ⟨c, cs, hs1, _, hs3, hs4⟩
    · exact Or.inl hs1
    · exact Or.inr ⟨c, cs, hs1, hs3, hs4⟩
  have hnetdelim : ∀ x ∈ netloc, netlocDelim x = false := by
    rcases splitnetloc_cases rest0 netloc rest1 hnl with
      ⟨r2, hr0, hnet, hr1⟩ | ⟨hnet, hr1⟩
    · intro x hx
      rw [hnet] at hx
      have hp := mem_takeWhile_pred _ _ _ hx
      rwa [Bool.not_eq_true'] at hp
    · intro x hx
      rw [hnet] at hx
      exact absurd hx (List.not_mem_nil x)
  have hnetsafe : ∀ x ∈ netloc, x ∈ u ∧ unsafeByte x = false := by
    rcases splitnetloc_cases rest0 netloc rest1 hnl with
      ⟨r2, hr0, hnet, hr1⟩ | ⟨hnet, hr1⟩
    · intro x hx
      rw [hnet] at hx
      refine hrest0 x ?_
      rw [hr0]
      exact List.mem_cons_of_mem _ (List.mem_cons_of_mem _
        (List.Sublist.mem hx (List.takeWhile_sublist _)))
    · intro x hx
      rw [hnet] at hx
      exact absurd hx (List.not_mem_nil x)
  have hr1safe : ∀ x ∈ rest1, x ∈ u ∧ unsafeByte x = false := by
    rcases splitnetloc_cases rest0 netloc rest1 hnl with
      ⟨r2, hr0, hnet, hr1⟩ | ⟨hnet, hr1⟩
    · intro x hx
      rw [hr1] at hx
      refine hrest0 x ?_
      rw [hr0]
      exact List.mem_cons_of_mem _ (List.mem_cons_of_mem _
        (List.Sublist.mem hx (List.dropWhile_sublist _)))
    · intro x hx
      rw [hr1] at hx
      exact hrest0 x hx
  have hr1head : netloc ≠ [] → ∀ y, rest1.head? = some y →
      netlocDelim y = true := by
    rcases splitnetloc_cases rest0 netloc rest1 hnl with
      ⟨r2, hr0, hnet, hr1⟩ | ⟨hnet, hr1⟩
    · intro _ y hy
      rw [hr1] at hy
      have hp := head?_dropWhile_false _ _ _ hy
      rwa [Bool.not_eq_false'] at hp
    · intro hne
      exact absurd hnet hne
  have hpmem1 : ∀ x ∈ path, x ∈ rest1 := fun x hx => hmem2 x (hmemp x hx)
  have hqmem1 : ∀ x ∈ query, x ∈ rest1 := fun x hx => hmem2 x (hmemq x hx)
  have hpathhash : hasChar '#' path = false := by
    rw [hasChar_eq_false_iff] at h2free ⊢
    exact fun x hx => h2free x (hmemp x hx)
  have hqueryhash : hasChar '#' query = false := by
    rw [hasChar_eq_false_iff] at h2free ⊢
    exact fun x hx => h2free x (hmemq x hx)
  have hpathhead : netloc ≠ [] → (path = [] ∨ path.head? = some '/') := by
    intro hnN
    by_cases hpN : path = []
    · exact Or.inl hpN
    · refine Or.inr ?_
      have hr2N : rest2 ≠ [] := by
        intro hr2e
        cases path with
        | nil => exact hpN rfl
        | cons d t =>
          have hd := hmemp d (List.mem_cons_self d t)
          rw [hr2e] at hd
          exact absurd hd (List.not_mem_nil d)
      have hchain : path.head? = rest1.head? :=
        (hheadp hpN).trans (hhead2 hr2N)
      cases path with
      | nil => exact absurd rfl hpN
      | cons d t =>
        rw [List.head?_cons] at hchain ⊢
        have hdel := hr1head hnN d hchain.symm
        have hdp : d ∈ d :: t := List.mem_cons_self d t
        have hdq : d ≠ '?' := by
          intro hde
          rw [hasChar_eq_false_iff] at hqfree
          exact hqfree d hdp hde
        have hdh : d ≠ '#' := by
          intro hde
          rw [hasChar_eq_false_iff] at hpathhash
          exact hpathhash d hdp hde
        unfold netlocDelim at hdel
        simp only [Bool.or_eq_true, decide_eq_true_iff] at hdel
        rcases hdel with (hd | hd) | hd
        · rw [hd]
        · exact absurd hd hdq
        · exact absurd hd hdh
  have hpathsafe : ∀ x ∈ path, x ∈ u ∧ unsafeByte x = false :=
    fun x hx => hr1safe x (hpmem1 x hx)
  have hquerysafe : ∀ x ∈ query, x ∈ u ∧ unsafeByte x = false :=
    fun x hx => hr1safe x (hqmem1 x hx)
  split at h
  · exact Except.noConfusion h
  · rename_i hg1
    have hbr : hasChar '[' netloc = false → hasChar ']' netloc = false := by
      intro hlb
      rw [hlb] at hg1
      simp only [Bool.false_and, Bool.false_or, Bool.not_false,
        Bool.and_true] at hg1
      exact Bool.not_eq_true _ ▸ (Bool.of_not_eq_true hg1)
    split at h
    · rename_i hg2
      cases hcb : checkBracketedHost (bracketedHostOf netloc) with
      | error e =>
        rw [hcb] at h
        exact Except.noConfusion h
      | ok unitv =>
        rw [hcb] at h
        simp only [] at h
        injection h with hs
        rw [← hs]
        exact ⟨hschemeC, hnetdelim, hnetsafe, hpathhead, hpathhash, hqfree,
          hqueryhash, hpathsafe, hquerysafe, hbr⟩
    · injection h with hs
      rw [← hs]
      exact ⟨hschemeC, hnetdelim, hnetsafe, hpathhead, hpathhash, hqfree,
        hqueryhash, hpathsafe, hquerysafe, hbr⟩

/-- What a successful `urlparse` adds on top of `urlsplit`: the params are
split off the path exactly when the scheme uses params and the path holds a
semicolon. -/
theorem urlparse_ok_inv (u : Str) (p : ParseResult) (h : urlparse u = .ok p) :
    ∃ s, urlsplit u = .ok s ∧ p.scheme = s.scheme ∧ p.netloc = s.netloc ∧
      p.query = s.query ∧ p.fragment = s.fragment ∧
      (((usesParams s.scheme && hasChar ';' s.path) = true ∧
        splitParams s.path = (p.path, p.params)) ∨
       ((usesParams s.scheme && hasChar ';' s.path) = false ∧
        p.path = s.path ∧ p.params = [])) := by
  unfold urlparse at h
  simp only [bind, Except.bind, pure, Except.pure] at h
  cases hs : urlsplit u with
  | error e =>
    rw [hs] at h
    exact Except.noConfusion h
  | ok sv =>
    rw [hs] at h
    simp only [] at h
    by_cases hc : (usesParams sv.scheme && hasChar ';' sv.path) = true
    · rw [if_pos hc] at h
      injection h with h1
      rw [← h1]
      exact ⟨sv, rfl, rfl, rfl, rfl, rfl, Or.inl ⟨hc, Prod.mk.eta.symm⟩⟩
    · rw [if_neg hc] at h
      injection h with h1
      rw [← h1]
      exact ⟨sv, rfl, rfl, rfl, rfl, rfl,
        Or.inr ⟨Bool.of_not_eq_true hc, rfl, rfl⟩⟩

theorem scheme_chars (sch : Str)
    (hs : sch = [] ∨ ∃ c cs, sch = lowerStr (c :: cs) ∧ isAsciiAlpha c = true ∧
      cs.all schemeChar = true) :
    ∀ x ∈ sch, schemeChar x = true := by
  rcases hs with hs | ⟨c, cs, hs, hca, hcs⟩
  · rw [hs]
    intro x hx
    exact absurd hx (List.not_mem_nil x)
  · rw [hs]
    intro x hx
    unfold lowerStr at hx
    rw [List.mem_map] at hx
    obtain ⟨y, hy, hxy⟩ := hx
    have hysc : schemeChar y = true := by
      rw [List.mem_cons] at hy
      rcases hy with hy | hy
      · subst hy
        unfold schemeChar
        rw [hca]
        rfl
      · rw [List.all_eq_true] at hcs
        exact hcs y hy
    rw [← hxy]
    exact lowerChar_schemeChar y hysc

theorem hasChar_of_all_schemeChar (sch : Str) (c : Char)
    (hall : ∀ x ∈ sch, schemeChar x = true) (hc : schemeChar c = false) :
    hasChar c sch = false := by
  rw [hasChar_eq_false_iff]
  intro x hx he
  rw [he] at hx
  rw [hall c hx] at hc
  exact Bool.noConfusion hc

theorem afterLastAt_noAt (n : Str) (h : hasChar '@' n = false) :
    afterLastAt n = n := by
  unfold afterLastAt
  rw [(splitOnLast_eq_none '@' n).mpr h]

theorem afterLastAt_append (A B : Str) (hB : hasChar '@' B = false) :
    afterLastAt (A ++ '@' :: B) = B := by
  unfold afterLastAt
  rw [splitOnLast_append_self '@' A B hB]

theorem userinfoOf_noAt (n : Str) (h : hasChar '@' n = false) :
    userinfoOf n = (none, none) := by
  unfold userinfoOf
  rw [(splitOnLast_eq_none '@' n).mpr h]

theorem userinfoOf_append_nocolon (A B : Str) (hB : hasChar '@' B = false)
    (hA : hasChar ':' A = false) :
    userinfoOf (A ++ '@' :: B) = (some A, none) := by
  unfold userinfoOf
  rw [splitOnLast_append_self '@' A B hB]
  simp only []
  rw [(splitOnFirst_eq_none ':' A).mpr hA]

theorem userinfoOf_append_colon (u1 pw B : Str) (hB : hasChar '@' B = false)
    (hu1 : hasChar ':' u1 = false) :
    userinfoOf ((u1 ++ ':' :: pw) ++ '@' :: B) = (some u1, some pw) := by
  unfold userinfoOf
  rw [splitOnLast_append_self '@' _ B hB]
  simp only []
  rw [splitOnFirst_append_self ':' u1 pw hu1]

theorem hostinfo_dropUserinfo (A B : Str) (hB : hasChar '@' B = false) :
    hostinfo (A ++ '@' :: B) = hostinfo B := by
  unfold hostinfo
  rw [afterLastAt_append A B hB, afterLastAt_noAt B hB]

theorem hostinfo_plain (n : Str) (hAt : hasChar '@' n = false)
    (hLb : hasChar '[' n = false) (hCol : hasChar ':' n = false) :
    hostinfo n = (n, none) := by
  unfold hostinfo
  rw [afterLastAt_noAt n hAt]
  simp only []
  rw [(splitOnFirst_eq_none '[' n).mpr hLb]
  simp only []
  rw [(splitOnFirst_eq_none ':' n).mpr hCol]

theorem hostinfo_port (host ds : Str)
    (hAt : hasChar '@' (host ++ ':' :: ds) = false)
    (hLb : hasChar '[' (host ++ ':' :: ds) = false)
    (hCol : hasChar ':' host = false) :
    hostinfo (host ++ ':' :: ds) = (host, if ds = [] then none else some ds) := by
  unfold hostinfo
  rw [afterLastAt_noAt _ hAt]
  simp only []
  rw [(splitOnFirst_eq_none '[' _).mpr hLb]
  simp only []
  rw [splitOnFirst_append_self ':' host ds hCol]

theorem hostnameOf_of_hostinfo (n host0 : Str)
    (hfst : (hostinfo n).1 = host0)
    (hnoUp : ∀ x ∈ host0, isUpperC x = false) :
    hostnameOf n = host0 := by
  unfold hostnameOf
  rw [hfst]
  simp only []
  cases hpc : splitOnFirst '%' host0 with
  | none =>
    exact lowerStr_eq_self host0 hnoUp
  | some pr =>
    obtain ⟨addr, zone⟩ := pr
    simp only []
    obtain ⟨hh, _⟩ := splitOnFirst_eq_some '%' host0 addr zone hpc
    rw [lowerStr_eq_self addr (by
      intro x hx
      refine hnoUp x ?_
      rw [hh]
      exact List.mem_append_left _ hx)]
    exact hh.symm

theorem portOf_of_none (n : Str) (hsnd : (hostinfo n).2 = none) :
    portOf n = .ok none := by
  unfold portOf
  rw [hsnd]
  rfl

theorem portOf_of_digits (n : Str) (pt : Nat)
    (hsnd : (hostinfo n).2 = some (natDigits pt)) (hle : pt ≤ 65535) :
    portOf n = .ok (some pt) := by
  unfold portOf
  rw [hsnd]
  simp only []
  rw [if_pos (natDigits_all_digits pt)]
  rw [digitsVal_natDigits]
  rw [if_pos hle]
  rfl

theorem mem_afterLastAt (n : Str) (x : Char) (hx : x ∈ afterLastAt n) :
    x ∈ n := by
  unfold afterLastAt at hx
  cases hsp : splitOnLast '@' n with
  | none =>
    rw [hsp] at hx
    exact hx
  | some pr =>
    obtain ⟨a, b⟩ := pr
    rw [hsp] at hx
    simp only [] at hx
    obtain ⟨hn, _⟩ := splitOnLast_eq_some '@' n a b hsp
    rw [hn]
    exact List.mem_append_right _ (List.mem_cons_of_mem _ hx)

theorem afterLastAt_noAt_out (n : Str) : hasChar '@' (afterLastAt n) = false := by
  unfold afterLastAt
  cases hsp : splitOnLast '@' n with
  | none => exact (splitOnLast_eq_none '@' n).mp hsp
  | some pr =>
    obtain ⟨a, b⟩ := pr
    simp only []
    exact (splitOnLast_eq_some '@' n a b hsp).2

theorem hostinfo_fst_mem (n : Str) (x : Char) (hx : x ∈ (hostinfo n).1) :
    x ∈ afterLastAt n := by
  unfold hostinfo at hx
  simp only [] at hx
  cases h1 : splitOnFirst '[' (afterLastAt n) with
  | some pr =>
    obtain ⟨w, bracketed⟩ := pr
    rw [h1] at hx
    simp only [] at hx
    obtain ⟨hhi, _⟩ := splitOnFirst_eq_some '[' (afterLastAt n) w bracketed h1
    have hbr : ∀ z ∈ bracketed, z ∈ afterLastAt n := by
      intro z hz
      rw [hhi]
      exact List.mem_append_right _ (List.mem_cons_of_mem _ hz)
    cases h2 : splitOnFirst ']' bracketed with
    | none =>
      rw [h2] at hx
      exact hbr x hx
    | some pr2 =>
      obtain ⟨hh, after⟩ := pr2
      rw [h2] at hx
      simp only [] at hx
      obtain ⟨hbrk, _⟩ := splitOnFirst_eq_some ']' bracketed hh after h2
      cases h3 : splitOnFirst ':' after with
      | none =>
        rw [h3] at hx
        refine hbr x ?_
        rw [hbrk]
        exact List.mem_append_left _ hx
      | some pr3 =>
        obtain ⟨q, r⟩ := pr3
        rw [h3] at hx
        simp only [] at hx
        refine hbr x ?_
        rw [hbrk]
        exact List.mem_append_left _ hx
  | none =>
    rw [h1] at hx
    simp only [] at hx
    cases h2 : splitOnFirst ':' (afterLastAt n) with
    | none =>
      rw [h2] at hx
      exact hx
    | some pr2 =>
      obtain ⟨hh, pp⟩ := pr2
      rw [h2] at hx
      simp only [] at hx
      obtain ⟨hhi, _⟩ := splitOnFirst_eq_some ':' (afterLastAt n) hh pp h2
      rw [hhi]
      exact List.mem_append_left _ hx

theorem hostinfo_fst_noAt (n : Str) : hasChar '@' (hostinfo n).1 = false := by
  rw [hasChar_eq_false_iff]
  intro x hx he
  have h1 := afterLastAt_noAt_out n
  rw [hasChar_eq_false_iff] at h1
  exact h1 x (hostinfo_fst_mem n x hx) he

theorem hostinfo_fst_nocolon (n : Str) (hLb : hasChar '[' n = false) :
    hasChar ':' (hostinfo n).1 = false := by
  have hhib : hasChar '[' (afterLastAt n) = false := by
    rw [hasChar_eq_false_iff] at hLb ⊢
    exact fun x hx => hLb x (mem_afterLastAt n x hx)
  unfold hostinfo
  simp only []
  rw [(splitOnFirst_eq_none '[' _).mpr hhib]
  simp only []
  cases h2 : splitOnFirst ':' (afterLastAt n) with
  | none => exact (splitOnFirst_eq_none ':' _).mp h2
  | some pr2 =>
    obtain ⟨hh, pp⟩ := pr2
    simp only []
    exact (splitOnFirst_eq_some ':' (afterLastAt n) hh pp h2).2

theorem hostnameOf_mem (n : Str) (x : Char) (hx : x ∈ hostnameOf n) :
    ∃ y ∈ (hostinfo n).1, x = y ∨ x = lowerChar y := by
  unfold hostnameOf at hx
  simp only [] at hx
  cases hpc : splitOnFirst '%' (hostinfo n).1 with
  | none =>
    rw [hpc] at hx
    unfold lowerStr at hx
    rw [List.mem_map] at hx
    obtain ⟨y, hy, hxy⟩ := hx
    exact ⟨y, hy, Or.inr hxy.symm⟩
  | some pr =>
    obtain ⟨addr, zone⟩ := pr
    rw [hpc] at hx
    simp only [] at hx
    obtain ⟨hh, _⟩ := splitOnFirst_eq_some '%' _ addr zone hpc
    rw [List.mem_append] at hx
    rcases hx with hx | hx
    · unfold lowerStr at hx
      rw [List.mem_map] at hx
      obtain ⟨y, hy, hxy⟩ := hx
      refine ⟨y, ?_, Or.inr hxy.symm⟩
      rw [hh]
      exact List.mem_append_left _ hy
    · rw [List.mem_cons] at hx
      rcases hx with hx | hx
      · refine ⟨'%', ?_, Or.inl hx⟩
        rw [hh]
        exact List.mem_append_right _ (List.mem_cons_self _ _)
      · refine ⟨x, ?_, Or.inl rfl⟩
        rw [hh]
        exact List.mem_append_right _ (List.mem_cons_of_mem _ hx)

theorem userinfoOf_mem (n u1 : Str) (pwopt : Option Str)
    (h : userinfoOf n = (some u1, pwopt)) :
    (∀ x ∈ u1, x ∈ n) ∧ (∀ pw1, pwopt = some pw1 → ∀ x ∈ pw1, x ∈ n) := by
  unfold userinfoOf at h
  cases hsl : splitOnLast '@' n with
  | none =>
    rw [hsl] at h
    injection h with h1 _
    exact Option.noConfusion h1
  | some pr =>
    obtain ⟨ui, rest⟩ := pr
    rw [hsl] at h
    simp only [] at h
    obtain ⟨hn, _⟩ := splitOnLast_eq_some '@' n ui rest hsl
    have hui : ∀ x ∈ ui, x ∈ n := by
      intro x hx
      rw [hn]
      exact List.mem_append_left _ hx
    cases hsf : splitOnFirst ':' ui with
    | none =>
      rw [hsf] at h
      injection h with h1 h2
      injection h1 with h1
      rw [← h1, ← h2]
      exact ⟨hui, fun pw1 hpw => Option.noConfusion hpw⟩
    | some pr2 =>
      obtain ⟨a, b⟩ := pr2
      rw [hsf] at h
      simp only [] at h
      injection h with h1 h2
      injection h1 with h1
      rw [← h1, ← h2]
      obtain ⟨huieq, _⟩ := splitOnFirst_eq_some ':' ui a b hsf
      refine ⟨fun x hx => hui x (by rw [huieq]; exact List.mem_append_left _ hx),
        ?_⟩
      intro pw1 hpw x hx
      injection hpw with hpw
      rw [← hpw] at hx
      refine hui x ?_
      rw [huieq]
      exact List.mem_append_right _ (List.mem_cons_of_mem _ hx)

theorem userinfoOf_fst_nocolon (n u1 : Str) (pwopt : Option Str)
    (h : userinfoOf n = (some u1, pwopt)) : hasChar ':' u1 = false := by
  unfold userinfoOf at h
  cases hsl : splitOnLast '@' n with
  | none =>
    rw [hsl] at h
    injection h with h1 _
    exact Option.noConfusion h1
  | some pr =>
    obtain ⟨ui, rest⟩ := pr
    rw [hsl] at h
    simp only [] at h
    cases hsf : splitOnFirst ':' ui with
    | none =>
      rw [hsf] at h
      injection h with h1 _
      injection h1 with h1
      rw [← h1]
      exact (splitOnFirst_eq_none ':' ui).mp hsf
    | some pr2 =>
      obtain ⟨a, b⟩ := pr2
      rw [hsf] at h
      simp only [] at h
      injection h with h1 _
      injection h1 with h1
      rw [← h1]
      exact (splitOnFirst_eq_some ':' ui a b hsf).2

theorem buildUserinfo_cases (n : Str) :
    buildUserinfo n = [] ∨
    (∃ u1, buildUserinfo n = u1 ++ ['@'] ∧ u1 ≠ [] ∧
      hasChar ':' u1 = false ∧ (∀ x ∈ u1, x ∈ n)) ∨
    (∃ u1 pw1, buildUserinfo n = (u1 ++ ':' :: pw1) ++ ['@'] ∧ u1 ≠ [] ∧
      pw1 ≠ [] ∧ hasChar ':' u1 = false ∧
      (∀ x ∈ u1 ++ ':' :: pw1, x ∈ n ∨ x = ':')) := by
  unfold buildUserinfo
  cases huio : userinfoOf n with
  | mk fst snd =>
  cases fst with
  | none => exact Or.inl rfl
  | some u1 =>
    simp only []
    by_cases hu1 : u1 = []
    · rw [if_neg (not_not_intro hu1)]
      exact Or.inl rfl
    · rw [if_pos hu1]
      have hcol := userinfoOf_fst_nocolon n u1 snd huio
      have hmem := (userinfoOf_mem n u1 snd huio).1
      cases snd with
      | none => exact Or.inr (Or.inl ⟨u1, rfl, hu1, hcol, hmem⟩)
      | some pw1 =>
        simp only []
        by_cases hpw : pw1 = []
        · rw [if_neg (not_not_intro hpw)]
          exact Or.inr (Or.inl ⟨u1, rfl, hu1, hcol, hmem⟩)
        · rw [if_pos hpw]
          refine Or.inr (Or.inr ⟨u1, pw1, by simp, hu1, hpw, hcol, ?_⟩)
          intro x hx
          rw [List.mem_append] at hx
          rcases hx with hx | hx
          · exact Or.inl (hmem x hx)
          · rw [List.mem_cons] at hx
            rcases hx with hx | hx
            · exact Or.inr hx
            · exact Or.inl ((userinfoOf_mem n u1 _ huio).2 pw1 rfl x hx)

theorem buildUserinfo_mem (n : Str) (x : Char) (hx : x ∈ buildUserinfo n) :
    x ∈ n ∨ x = ':' ∨ x = '@' := by
  rcases buildUserinfo_cases n with h | ⟨u1, h, _, _, hmem⟩ |
    ⟨u1, pw1, h, _, _, _, hmem⟩
  · rw [h] at hx
    exact absurd hx (List.not_mem_nil x)
  · rw [h, List.mem_append] at hx
    rcases hx with hx | hx
    · exact Or.inl (hmem x hx)
    · rw [List.mem_singleton] at hx
      exact Or.inr (Or.inr hx)
  · rw [h, List.mem_append] at hx
    rcases hx with hx | hx
    · rcases hmem x hx with hy | hy
      · exact Or.inl hy
      · exact Or.inr (Or.inl hy)
    · rw [List.mem_singleton] at hx
      exact Or.inr (Or.inr hx)

theorem buildUserinfo_rebuild (n B : Str) (hB : hasChar '@' B = false) :
    buildUserinfo (buildUserinfo n ++ B) = buildUserinfo n := by
  rcases buildUserinfo_cases n with h | ⟨u1, h, hu1, hcol, _⟩ |
    ⟨u1, pw1, h, hu1, hpw, hcol, _⟩
  · rw [h, List.nil_append]
    unfold buildUserinfo
    rw [userinfoOf_noAt B hB]
  · rw [h]
    rw [show (u1 ++ ['@']) ++ B = u1 ++ '@' :: B by simp]
    unfold buildUserinfo
    rw [userinfoOf_append_nocolon u1 B hB hcol]
    simp only []
    rw [if_pos hu1]
  · rw [h]
    rw [show ((u1 ++ ':' :: pw1) ++ ['@']) ++ B = (u1 ++ ':' :: pw1) ++ '@' :: B
      by simp]
    unfold buildUserinfo
    rw [userinfoOf_append_colon u1 pw1 B hB hcol]
    simp only []
    rw [if_pos hu1]
    rw [if_pos hpw]

theorem netlocDelim_false_iff (x : Char) :
    netlocDelim x = false ↔ x.toNat ≠ 47 ∧ x.toNat ≠ 63 ∧ x.toNat ≠ 35 := by
  unfold netlocDelim
  rw [Bool.or_eq_false_iff, Bool.or_eq_false_iff]
  rw [decide_eq_false_iff_not, decide_eq_false_iff_not,
    decide_eq_false_iff_not]
  rw [char_eq_iff, char_eq_iff, char_eq_iff]
  have c1 : ('/' : Char).toNat = 47 := rfl
  have c2 : ('?' : Char).toNat = 63 := rfl
  have c3 : ('#' : Char).toNat = 35 := rfl
  rw [c1, c2, c3]
  tauto

theorem unsafeByte_false_iff (x : Char) :
    unsafeByte x = false ↔ x.toNat ≠ 9 ∧ x.toNat ≠ 13 ∧ x.toNat ≠ 10 := by
  unfold unsafeByte
  rw [Bool.or_eq_false_iff, Bool.or_eq_false_iff]
  rw [decide_eq_false_iff_not, decide_eq_false_iff_not,
    decide_eq_false_iff_not]
  rw [char_eq_iff, char_eq_iff, char_eq_iff]
  have c1 : ('\t' : Char).toNat = 9 := rfl
  have c2 : ('\r' : Char).toNat = 13 := rfl
  have c3 : ('\n' : Char).toNat = 10 := rfl
  rw [c1, c2, c3]
  tauto

theorem netlocDelim_lowerChar (y : Char) (h : netlocDelim y = false) :
    netlocDelim (lowerChar y) = false := by
  rw [netlocDelim_false_iff] at h ⊢
  rw [lowerChar_toNat]
  by_cases hy : 65 ≤ y.toNat ∧ y.toNat ≤ 90
  · rw [if_pos hy]
    omega
  · rw [if_neg hy]
    exact h

theorem unsafeByte_lowerChar (y : Char) (h : unsafeByte y = false) :
    unsafeByte (lowerChar y) = false := by
  rw [unsafeByte_false_iff] at h ⊢
  rw [lowerChar_toNat]
  by_cases hy : 65 ≤ y.toNat ∧ y.toNat ≤ 90
  · rw [if_pos hy]
    omega
  · rw [if_neg hy]
    exact h

theorem buildNetloc_decomp (scheme n : Str) (port : Option Nat)
    (hcol0 : hasChar ':' (lowerStr (hostnameOf n)) = false) :
    buildNetloc scheme n port =
      buildUserinfo n ++ (lowerStr (hostnameOf n) ++
        (match portKeep scheme port with
         | some pt => ':' :: natDigits pt
         | none => ([] : Str))) := by
  unfold buildNetloc
  simp only []
  rw [if_neg (by rw [hcol0]; simp)]
  cases hk : portKeep scheme port with
  | some pt =>
    simp only []
    rw [List.append_assoc]
  | none =>
    simp only []
    rw [List.append_nil]

theorem portKeep_some_inv (scheme : Str) (port : Option Nat) (v : Nat)
    (h : portKeep scheme port = some v) : port = some v := by
  unfold portKeep at h
  simp only [] at h
  cases port with
  | none => exact Option.noConfusion h
  | some pt =>
    rcases ite_eq_iff.mp h with ⟨-, h2⟩ | ⟨-, h2⟩
    · exact h2
    · exact Option.noConfusion h2

theorem portKeep_idem (scheme : Str) (port : Option Nat) :
    portKeep scheme (portKeep scheme port) = portKeep scheme port := by
  cases hk : portKeep scheme port with
  | none => rfl
  | some v =>
    have hpv : port = some v := portKeep_some_inv scheme port v hk
    rw [hpv] at hk
    exact hk

theorem portTail_noAt (port : Option Nat) (scheme : Str) :
    hasChar '@' (match portKeep scheme port with
      | some pt => ':' :: natDigits pt
      | none => ([] : Str)) = false := by
  cases hk : portKeep scheme port with
  | none => rfl
  | some pt =>
    simp only []
    rw [hasChar_cons, hasChar_natDigits '@' pt rfl]
    rfl

theorem portTail_noLb (port : Option Nat) (scheme : Str) :
    hasChar '[' (match portKeep scheme port with
      | some pt => ':' :: natDigits pt
      | none => ([] : Str)) = false := by
  cases hk : portKeep scheme port with
  | none => rfl
  | some pt =>
    simp only []
    rw [hasChar_cons, hasChar_natDigits '[' pt rfl]
    rfl

theorem buildNetloc_hostinfo (scheme n : Str) (port : Option Nat)
    (hcol0 : hasChar ':' (lowerStr (hostnameOf n)) = false)
    (hat0 : hasChar '@' (lowerStr (hostnameOf n)) = false)
    (hlb0 : hasChar '[' (lowerStr (hostnameOf n)) = false) :
    hostinfo (buildNetloc scheme n port) =
      (lowerStr (hostnameOf n),
        match portKeep scheme port with
        | some pt => some (natDigits pt)
        | none => none) := by
  rw [buildNetloc_decomp scheme n port hcol0]
  have hBat : hasChar '@' (lowerStr (hostnameOf n) ++
      (match portKeep scheme port with
       | some pt => ':' :: natDigits pt
       | none => ([] : Str))) = false := by
    rw [hasChar_append, hat0, portTail_noAt]
    rfl
  have hcore : hostinfo (lowerStr (hostnameOf n) ++
      (match portKeep scheme port with
       | some pt => ':' :: natDigits pt
       | none => ([] : Str))) =
      (lowerStr (hostnameOf n),
        match portKeep scheme port with
        | some pt => some (natDigits pt)
        | none => none) := by
    cases hk : portKeep scheme port with
    | none =>
      simp only []
      rw [List.append_nil]
      exact hostinfo_plain _ (by rw [hk] at hBat; rwa [List.append_nil] at hBat)
        hlb0 hcol0
    | some pt =>
      simp only []
      rw [hostinfo_port _ _ (by rw [hk] at hBat; exact hBat)
        (by rw [hasChar_append, hlb0, hasChar_cons,
              hasChar_natDigits '[' pt rfl]
            rfl)
        hcol0]
      rw [if_neg (natDigits_ne_nil pt)]
  rcases buildUserinfo_cases n with h | ⟨u1, h, _, _, _⟩ |
    ⟨u1, pw1, h, _, _, _, _⟩
  · rw [h, List.nil_append]
    exact hcore
  · rw [h]
    rw [show (u1 ++ ['@']) ++ (lowerStr (hostnameOf n) ++
        (match portKeep scheme port with
         | some pt => ':' :: natDigits pt
         | none => ([] : Str))) =
      u1 ++ '@' :: (lowerStr (hostnameOf n) ++
        (match portKeep scheme port with
         | some pt => ':' :: natDigits pt
         | none => ([] : Str))) by simp]
    rw [hostinfo_dropUserinfo _ _ hBat]
    exact hcore
  · rw [h]
    rw [show ((u1 ++ ':' :: pw1) ++ ['@']) ++ (lowerStr (hostnameOf n) ++
        (match portKeep scheme port with
         | some pt => ':' :: natDigits pt
         | none => ([] : Str))) =
      (u1 ++ ':' :: pw1) ++ '@' :: (lowerStr (hostnameOf n) ++
        (match portKeep scheme port with
         | some pt => ':' :: natDigits pt
         | none => ([] : Str))) by simp]
    rw [hostinfo_dropUserinfo _ _ hBat]
    exact hcore

theorem buildNetloc_stable (scheme n : Str) (port : Option Nat)
    (hcol0 : hasChar ':' (lowerStr (hostnameOf n)) = false)
    (hat0 : hasChar '@' (lowerStr (hostnameOf n)) = false)
    (hlb0 : hasChar '[' (lowerStr (hostnameOf n)) = false)
    (hle : ∀ v, portKeep scheme port = some v → v ≤ 65535) :
    hostnameOf (buildNetloc scheme n port) = lowerStr (hostnameOf n) ∧
    portOf (buildNetloc scheme n port) = .ok (portKeep scheme port) ∧
    buildNetloc scheme (buildNetloc scheme n port) (portKeep scheme port) =
      buildNetloc scheme n port := by
  have hfst : (hostinfo (buildNetloc scheme n port)).1 =
      lowerStr (hostnameOf n) := by
    rw [buildNetloc_hostinfo scheme n port hcol0 hat0 hlb0]
  have h1 : hostnameOf (buildNetloc scheme n port) =
      lowerStr (hostnameOf n) :=
    hostnameOf_of_hostinfo _ _ hfst (noUpper_lowerStr _)
  refine ⟨h1, ?_, ?_⟩
  · cases hk : portKeep scheme port with
    | none =>
      refine portOf_of_none _ ?_
      rw [buildNetloc_hostinfo scheme n port hcol0 hat0 hlb0, hk]
    | some v =>
      refine portOf_of_digits _ v ?_ (hle v hk)
      rw [buildNetloc_hostinfo scheme n port hcol0 hat0 hlb0, hk]
  · have h0i : lowerStr (hostnameOf (buildNetloc scheme n port)) =
        lowerStr (hostnameOf n) := by
      rw [h1, lowerStr_idem]
    have hcol0i : hasChar ':'
        (lowerStr (hostnameOf (buildNetloc scheme n port))) = false := by
      rw [h0i]
      exact hcol0
    rw [buildNetloc_decomp scheme _ (portKeep scheme port) hcol0i]
    rw [h0i, portKeep_idem]
    rw [buildNetloc_decomp scheme n port hcol0]
    rw [buildUserinfo_rebuild n _ (by
      rw [hasChar_append, hat0, portTail_noAt]
      rfl)]

theorem buildNetloc_ne_nil (scheme n : Str) (port : Option Nat)
    (hcol0 : hasChar ':' (lowerStr (hostnameOf n)) = false)
    (hne : lowerStr (hostnameOf n) ≠ []) :
    buildNetloc scheme n port ≠ [] := by
  intro he
  rw [buildNetloc_decomp scheme n port hcol0] at he
  obtain ⟨-, h2⟩ := List.append_eq_nil.mp he
  obtain ⟨h3, -⟩ := List.append_eq_nil.mp h2
  exact hne h3

theorem buildNetloc_mem (scheme n : Str) (port : Option Nat)
    (hcol0 : hasChar ':' (lowerStr (hostnameOf n)) = false)
    (x : Char) (hx : x ∈ buildNetloc scheme n port) :
    x ∈ buildUserinfo n ∨ x ∈ lowerStr (hostnameOf n) ∨ x = ':' ∨
      isDigitC x = true := by
  rw [buildNetloc_decomp scheme n port hcol0] at hx
  rw [List.mem_append] at hx
  rcases hx with hx | hx
  · exact Or.inl hx
  rw [List.mem_append] at hx
  rcases hx with hx | hx
  · exact Or.inr (Or.inl hx)
  · cases hk : portKeep scheme port with
    | none =>
      rw [hk] at hx
      exact absurd hx (List.not_mem_nil x)
    | some pt =>
      rw [hk] at hx
      rw [List.mem_cons] at hx
      rcases hx with hx | hx
      · exact Or.inr (Or.inr (Or.inl hx))
      · refine Or.inr (Or.inr (Or.inr ?_))
        have hall := natDigits_all_digits pt
        rw [List.all_eq_true] at hall
        exact hall x hx

theorem host0_mem (n : Str) (x : Char) (hx : x ∈ lowerStr (hostnameOf n)) :
    ∃ y ∈ (hostinfo n).1, x = lowerChar y := by
  unfold lowerStr at hx
  rw [List.mem_map] at hx
  obtain ⟨z, hz, hxz⟩ := hx
  obtain ⟨y, hy, hzy⟩ := hostnameOf_mem n z hz
  rcases hzy with hzy | hzy
  · exact ⟨y, hy, by rw [← hxz, hzy]⟩
  · refine ⟨y, hy, ?_⟩
    rw [← hxz, hzy, lowerChar_idem]

theorem host0_hasChar_false (n : Str) (c : Char) (hc : c.toNat < 97)
    (hfree : ∀ y ∈ (hostinfo n).1, y ≠ c) :
    hasChar c (lowerStr (hostnameOf n)) = false := by
  rw [hasChar_eq_false_iff]
  intro x hx he
  obtain ⟨y, hy, hxy⟩ := host0_mem n x hx
  exact hfree y hy (lowerChar_eq_self_of_not_lower c y (Or.inl hc)
    (by rw [← hxy, he]))

theorem portOf_ok_le (n : Str) (v : Nat) (h : portOf n = .ok (some v)) :
    v ≤ 65535 := by
  unfold portOf at h
  cases hsnd : (hostinfo n).2 with
  | none =>
    rw [hsnd] at h
    injection h with h1
    exact Option.noConfusion h1
  | some p =>
    rw [hsnd] at h
    simp only [] at h
    rcases ite_eq_iff.mp h with ⟨-, h2⟩ | ⟨-, h2⟩
    · rcases ite_eq_iff.mp h2 with ⟨hle, h3⟩ | ⟨-, h3⟩
      · injection h3 with h3
        injection h3 with h3
        rw [← h3]
        exact hle
      · exact Except.noConfusion h3
    · exact Except.noConfusion h2

set_option maxHeartbeats 1000000 in
/-- `urlunsplit` with a non-empty authority, an absolute-or-empty path and no
fragment lays the URL out as `scheme: // netloc path ?query`. -/
theorem urlunsplit_netloc_form (sch netloc2 pathWP query : Str)
    (hn2 : netloc2 ≠ [])
    (hph : pathWP = [] ∨ pathWP.head? = some '/') :
    urlunsplit sch netloc2 pathWP query [] =
      (if sch ≠ [] then sch ++ [':'] else []) ++
        '/' :: '/' :: (netloc2 ++ (pathWP ++
          (if query ≠ [] then '?' :: query else []))) := by
  unfold urlunsplit
  simp only []
  rw [if_pos (show (decide (netloc2 ≠ []) ||
      (decide (sch ≠ []) && usesNetloc sch && !startsSlashSlash pathWP)) = true
    by rw [decide_eq_true hn2]; rfl)]
  have hpadj : (decide (pathWP ≠ []) &&
      decide (pathWP.head? ≠ some '/')) = false := by
    rcases hph with h | h
    · rw [decide_eq_false (not_not_intro h), Bool.false_and]
    · rw [decide_eq_false (not_not_intro h), Bool.and_false]
  rw [hpadj]
  simp only [Bool.false_eq_true, if_false]
  rw [if_neg (not_not_intro rfl)]
  by_cases hs : sch ≠ []
  · rw [if_pos hs, if_pos hs]
    by_cases hq : query ≠ []
    · rw [if_pos hq, if_pos hq]
      simp
    · rw [if_neg hq, if_neg hq]
      simp
  · rw [if_neg hs, if_neg hs]
    by_cases hq : query ≠ []
    · rw [if_pos hq, if_pos hq]
      simp
    · rw [if_neg hq, if_neg hq]
      simp

set_option maxHeartbeats 4000000 in
/-- On any input whose defragmented form is bracket-free and parses with a
non-empty hostname, a successful `normalize` is a fixed point of `normalize`. -/
theorem normalize_fixed (U d V : Str) (p : ParseResult)
    (hdf : urldefrag U = .ok d)
    (hdlb : hasChar '[' d = false)
    (hp : urlparse d = .ok p)
    (hhost : hostnameOf p.netloc ≠ [])
    (hV : normalize U = .ok V) :
    normalize V = .ok V := by
  by_cases hU : U = []
  · exfalso
    subst hU
    rw [show urldefrag ([] : Str) = .ok [] from rfl] at hdf
    injection hdf with hd0
    rw [← hd0] at hp
    rw [show urlparse ([] : Str) =
      .ok ⟨[], [], [], [], [], []⟩ from rfl] at hp
    injection hp with hp0
    rw [← hp0] at hhost
    exact hhost rfl
  unfold normalize at hV
  rw [if_neg hU] at hV
  simp only [bind, Except.bind, pure, Except.pure] at hV
  rw [hdf] at hV
  simp only [] at hV
  rw [hp] at hV
  simp only [] at hV
  cases hport : portOf p.netloc with
  | error e =>
    rw [hport] at hV
    exact Except.noConfusion hV
  | ok port =>
  rw [hport] at hV
  simp only [] at hV
  injection hV with hVeq
  obtain ⟨sv, hsv, hpsch, hpnet, hpquery, hpfrag, hrel⟩ :=
    urlparse_ok_inv d p hp
  obtain ⟨hsch_shape, hnetdelim, hnetsafe, hpathhead, hpathhash, hpathq,
    hqueryhash, hpathsafe, hquerysafe, hbrackets⟩ := urlsplit_ok_inv d sv hsv
  rw [← hpsch] at hsch_shape
  rw [← hpnet] at hnetdelim hnetsafe hbrackets
  rw [← hpquery] at hqueryhash hquerysafe
  have hlow : lowerStr p.scheme = p.scheme := by
    rcases hsch_shape with h | ⟨c, cs, h, _, _⟩
    · rw [h]
      rfl
    · rw [h, lowerStr_idem]
  rw [hlow] at hVeq
  have hschChars := scheme_chars p.scheme hsch_shape
  have hpnN : p.netloc ≠ [] := by
    intro he
    rw [he] at hhost
    exact hhost rfl
  have hplb : hasChar '[' p.netloc = false := by
    rw [hasChar_eq_false_iff]
    intro x hx he
    rw [hasChar_eq_false_iff] at hdlb
    exact hdlb x (hnetsafe x hx).1 he
  have hprb : hasChar ']' p.netloc = false := hbrackets hplb
  have hfstmem : ∀ y ∈ (hostinfo p.netloc).1, y ∈ p.netloc :=
    fun y hy => mem_afterLastAt _ y (hostinfo_fst_mem _ y hy)
  have hh0col : hasChar ':' (lowerStr (hostnameOf p.netloc)) = false := by
    refine host0_hasChar_false _ ':' (by decide) ?_
    intro y hy he
    have h2 := hostinfo_fst_nocolon p.netloc hplb
    rw [hasChar_eq_false_iff] at h2
    exact h2 y hy he
  have hh0at : hasChar '@' (lowerStr (hostnameOf p.netloc)) = false := by
    refine host0_hasChar_false _ '@' (by decide) ?_
    intro y hy he
    have h2 := hostinfo_fst_noAt p.netloc
    rw [hasChar_eq_false_iff] at h2
    exact h2 y hy he
  have hh0lb : hasChar '[' (lowerStr (hostnameOf p.netloc)) = false := by
    refine host0_hasChar_false _ '[' (by decide) ?_
    intro y hy he
    rw [hasChar_eq_false_iff] at hplb
    exact hplb y (hfstmem y hy) he
  have hh0ne : lowerStr (hostnameOf p.netloc) ≠ [] := by
    intro he
    unfold lowerStr at he
    exact hhost (List.map_eq_nil_iff.mp he)
  have hple : ∀ v, portKeep p.scheme port = some v → v ≤ 65535 := by
    intro v hk
    have hpv := portKeep_some_inv _ _ _ hk
    refine portOf_ok_le p.netloc v ?_
    rw [← hpv]
    exact hport
  obtain ⟨hbn_host, hbn_port, hbn_rebuild⟩ :=
    buildNetloc_stable p.scheme p.netloc port hh0col hh0at hh0lb hple
  have hn2ne : buildNetloc p.scheme p.netloc port ≠ [] :=
    buildNetloc_ne_nil p.scheme p.netloc port hh0col hh0ne
  have hn2delim : ∀ x ∈ buildNetloc p.scheme p.netloc port,
      netlocDelim x = false := by
    intro x hx
    rcases buildNetloc_mem p.scheme p.netloc port hh0col x hx with
      hx | hx | hx | hx
    · rcases buildUserinfo_mem p.netloc x hx with hy | hy | hy
      · exact hnetdelim x hy
      · rw [hy]
        rfl
      · rw [hy]
        rfl
    · obtain ⟨y, hy, hxy⟩ := host0_mem p.netloc x hx
      rw [hxy]
      exact netlocDelim_lowerChar y (hnetdelim y (hfstmem y hy))
    · rw [hx]
      rfl
    · rw [netlocDelim_false_iff]
      rw [isDigitC_iff] at hx
      omega
  have hn2safe : ∀ x ∈ buildNetloc p.scheme p.netloc port,
      unsafeByte x = false := by
    intro x hx
    rcases buildNetloc_mem p.scheme p.netloc port hh0col x hx with
      hx | hx | hx | hx
    · rcases buildUserinfo_mem p.netloc x hx with hy | hy | hy
      · exact (hnetsafe x hy).2
      · rw [hy]
        rfl
      · rw [hy]
        rfl
    · obtain ⟨y, hy, hxy⟩ := host0_mem p.netloc x hx
      rw [hxy]
      exact unsafeByte_lowerChar y (hnetsafe y (hfstmem y hy)).2
    · rw [hx]
      rfl
    · rw [unsafeByte_false_iff]
      rw [isDigitC_iff] at hx
      omega
  have hn2lb : hasChar '[' (buildNetloc p.scheme p.netloc port) = false := by
    rw [hasChar_eq_false_iff]
    intro x hx he
    rcases buildNetloc_mem p.scheme p.netloc port hh0col x hx with
      hx | hx | hx | hx
    · rcases buildUserinfo_mem p.netloc x hx with hy | hy | hy
      · rw [hasChar_eq_false_iff] at hplb
        exact hplb x hy he
      · rw [he] at hy
        exact absurd hy (by decide)
      · rw [he] at hy
        exact absurd hy (by decide)
    · rw [hasChar_eq_false_iff] at hh0lb
      exact hh0lb x hx he
    · rw [he] at hx
      exact absurd hx (by decide)
    · rw [he] at hx
      exact absurd hx (by decide)
  have hn2rb : hasChar ']' (buildNetloc p.scheme p.netloc port) = false := by
    have hh0rb : hasChar ']' (lowerStr (hostnameOf p.netloc)) = false := by
      refine host0_hasChar_false _ ']' (by decide) ?_
      intro y hy he
      rw [hasChar_eq_false_iff] at hprb
      exact hprb y (hfstmem y hy) he
    rw [hasChar_eq_false_iff]
    intro x hx he
    rcases buildNetloc_mem p.scheme p.netloc port hh0col x hx with
      hx | hx | hx | hx
    · rcases buildUserinfo_mem p.netloc x hx with hy | hy | hy
      · rw [hasChar_eq_false_iff] at hprb
        exact hprb x hy he
      · rw [he] at hy
        exact absurd hy (by decide)
      · rw [he] at hy
        exact absurd hy (by decide)
    · rw [hasChar_eq_false_iff] at hh0rb
      exact hh0rb x hx he
    · rw [he] at hx
      exact absurd hx (by decide)
    · rw [he] at hx
      exact absurd hx (by decide)
  have hsvnetN : sv.netloc ≠ [] := by
    rw [← hpnet]
    exact hpnN
  have hsvpathhead := hpathhead hsvnetN
  have hWPmem : ∀ x ∈ (if p.params ≠ [] then p.path ++ ';' :: p.params
      else p.path), x ∈ sv.path ∨ x = ';' := by
    intro x hx
    rcases hrel with ⟨hc1, hsp⟩ | ⟨hc1, hpp, hpr⟩
    · obtain ⟨hm1, hm2, -, -⟩ := splitParams_spec sv.path p.path p.params hsp
      by_cases hpar : p.params = []
      · rw [if_neg (not_not_intro hpar)] at hx
        exact Or.inl (hm1 x hx)
      · rw [if_pos hpar] at hx
        rw [List.mem_append] at hx
        rcases hx with hx | hx
        · exact Or.inl (hm1 x hx)
        · rw [List.mem_cons] at hx
          rcases hx with hx | hx
          · exact Or.inr hx
          · exact Or.inl (hm2 x hx)
    · rw [hpr, if_neg (not_not_intro rfl), hpp] at hx
      exact Or.inl hx
  have hWPq : hasChar '?' (if p.params ≠ [] then p.path ++ ';' :: p.params
      else p.path) = false := by
    rw [hasChar_eq_false_iff]
    intro x hx he
    rcases hWPmem x hx with hy | hy
    · rw [hasChar_eq_false_iff] at hpathq
      exact hpathq x hy he
    · rw [he] at hy
      exact absurd hy (by decide)
  have hWPhash : hasChar '#' (if p.params ≠ [] then p.path ++ ';' :: p.params
      else p.path) = false := by
    rw [hasChar_eq_false_iff]
    intro x hx he
    rcases hWPmem x hx with hy | hy
    · rw [hasChar_eq_false_iff] at hpathhash
      exact hpathhash x hy he
    · rw [he] at hy
      exact absurd hy (by decide)
  have hWPsafe : ∀ x ∈ (if p.params ≠ [] then p.path ++ ';' :: p.params
      else p.path), unsafeByte x = false := by
    intro x hx
    rcases hWPmem x hx with hy | hy
    · exact (hpathsafe x hy).2
    · rw [hy]
      rfl
  have hWPhead : (if p.params ≠ [] then p.path ++ ';' :: p.params
      else p.path) = [] ∨
      (if p.params ≠ [] then p.path ++ ';' :: p.params
        else p.path).head? = some '/' := by
    rcases hrel with ⟨hc1, hsp⟩ | ⟨hc1, hpp, hpr⟩
    · obtain ⟨-, -, hhd, hnil⟩ := splitParams_spec sv.path p.path p.params hsp
      by_cases hpar : p.params = []
      · rw [if_neg (not_not_intro hpar)]
        rcases hsvpathhead with h | h
        · exact Or.inl (hnil h).1
        · exact Or.inr (hhd h)
      · rw [if_pos hpar]
        rcases hsvpathhead with h | h
        · exact absurd (hnil h).2 hpar
        · have hph2 := hhd h
          refine Or.inr ?_
          cases hppc : p.path with
          | nil =>
            rw [hppc] at hph2
            exact Option.noConfusion hph2
          | cons dd tt =>
            rw [List.cons_append, List.head?_cons]
            rw [hppc, List.head?_cons] at hph2
            exact hph2
    · rw [hpr, if_neg (not_not_intro rfl), hpp]
      exact hsvpathhead
  have hVform : V = (if p.scheme ≠ [] then p.scheme ++ [':'] else []) ++
      '/' :: '/' :: (buildNetloc p.scheme p.netloc port ++
        ((if p.params ≠ [] then p.path ++ ';' :: p.params else p.path) ++
          (if p.query ≠ [] then '?' :: p.query else []))) := by
    rw [← hVeq]
    unfold urlunparse
    exact urlunsplit_netloc_form p.scheme _ _ p.query hn2ne hWPhead
  have hsplitV : urlsplit V =
      .ok ⟨p.scheme, buildNetloc p.scheme p.netloc port,
        (if p.params ≠ [] then p.path ++ ';' :: p.params else p.path),
        p.query, []⟩ := by
    rw [hVform]
    refine urlsplit_reassembled _ p.scheme _ _ _ p.query ?_ ?_ hn2delim hn2lb
      hn2rb hWPhead hWPq hWPhash hqueryhash hn2safe hWPsafe
      (fun x hx => (hquerysafe x hx).2)
    · rcases hsch_shape with h | ⟨c, cs, h, hca, hcs⟩
      · exact Or.inl ⟨by rw [if_neg (not_not_intro h)], h⟩
      · have hne : p.scheme ≠ [] := by
          rw [h]
          exact fun hee => List.noConfusion hee
        exact Or.inr ⟨by rw [if_pos hne], c, cs, h, hca, hcs⟩
    · by_cases hq : p.query = []
      · exact Or.inl ⟨by rw [if_neg (not_not_intro hq)], hq⟩
      · exact Or.inr (by rw [if_pos hq])
  have hSP : (usesParams p.scheme &&
      hasChar ';' (if p.params ≠ [] then p.path ++ ';' :: p.params
        else p.path)) = true →
      splitParams (if p.params ≠ [] then p.path ++ ';' :: p.params
        else p.path) = (p.path, p.params) := by
    intro hC
    rcases hrel with ⟨hc1, hsp⟩ | ⟨hc1, hpp, hpr⟩
    · obtain ⟨hrec1, hrec2⟩ := splitParams_recombine sv.path p.path p.params hsp
      by_cases hpar : p.params = []
      · rw [if_neg (not_not_intro hpar)] at hC ⊢
        rw [hpar]
        refine hrec2 hpar ?_
        rw [Bool.and_eq_true] at hC
        exact hC.2
      · rw [if_pos hpar]
        exact hrec1 hpar
    · exfalso
      rw [hpr, if_neg (not_not_intro rfl), hpp] at hC
      rw [hpsch] at hC
      rw [hc1] at hC
      exact Bool.noConfusion hC
  have hparseV : urlparse V =
      .ok ⟨p.scheme, buildNetloc p.scheme p.netloc port, p.path, p.params,
        p.query, []⟩ := by
    unfold urlparse
    rw [hsplitV]
    simp only [bind, Except.bind, pure, Except.pure]
    by_cases hC : (usesParams p.scheme &&
        hasChar ';' (if p.params ≠ [] then p.path ++ ';' :: p.params
          else p.path)) = true
    · rw [if_pos hC]
      rw [hSP hC]
    · rw [if_neg hC]
      have hpar : p.params = [] := by
        by_contra hpar
        rcases hrel with ⟨hc1, hsp⟩ | ⟨hc1, hpp, hpr⟩
        · refine hC ?_
          rw [Bool.and_eq_true]
          constructor
          · rw [hpsch]
            rw [Bool.and_eq_true] at hc1
            exact hc1.1
          · rw [if_pos hpar]
            rw [hasChar_append, hasChar_cons]
            simp
        · exact hpar hpr
      rw [hpar]
      rw [if_neg (not_not_intro rfl)]
  have hVhash : hasChar '#' V = false := by
    rw [hVform]
    rw [hasChar_eq_false_iff]
    intro x hx he
    rw [List.mem_append] at hx
    rcases hx with hx | hx
    · by_cases hs : p.scheme ≠ []
      · rw [if_pos hs] at hx
        rw [List.mem_append] at hx
        rcases hx with hx | hx
        · rw [he] at hx
          have h2 := hschChars '#' hx
          exact absurd h2 (by decide)
        · rw [List.mem_singleton] at hx
          rw [he] at hx
          exact absurd hx (by decide)
      · rw [if_neg hs] at hx
        exact absurd hx (List.not_mem_nil x)
    rw [List.mem_cons] at hx
    rcases hx with hx | hx
    · rw [he] at hx
      exact absurd hx (by decide)
    rw [List.mem_cons] at hx
    rcases hx with hx | hx
    · rw [he] at hx
      exact absurd hx (by decide)
    rw [List.mem_append] at hx
    rcases hx with hx | hx
    · have hd := hn2delim x hx
      rw [he] at hd
      exact absurd hd (by decide)
    rw [List.mem_append] at hx
    rcases hx with hx | hx
    · rw [hasChar_eq_false_iff] at hWPhash
      exact hWPhash x hx he
    · by_cases hq : p.query ≠ []
      · rw [if_pos hq] at hx
        rw [List.mem_cons] at hx
        rcases hx with hx | hx
        · rw [he] at hx
          exact absurd hx (by decide)
        · rw [hasChar_eq_false_iff] at hqueryhash
          exact hqueryhash x hx he
      · rw [if_neg hq] at hx
        exact absurd hx (List.not_mem_nil x)
  have hVne : V ≠ [] := by
    intro he
    rw [hVform] at he
    obtain ⟨-, h2⟩ := List.append_eq_nil.mp he
    exact List.noConfusion h2
  have hdefragV : urldefrag V = .ok V := by
    unfold urldefrag
    rw [hVhash]
    rfl
  unfold normalize
  rw [if_neg hVne]
  simp only [bind, Except.bind, pure, Except.pure]
  rw [hdefragV]
  simp only []
  rw [hparseV]
  simp only []
  rw [hlow]
  rw [hbn_port]
  simp only []
  rw [hbn_rebuild]
  rw [hVeq]

/-- C8: canonicalization is not idempotent in general — `normalize` collapses
one leading slash pair per pass on authority-less paths, so
`normalize("/////x") = "///x"` while `normalize("///x") = "/x"`. -/
theorem C8_normalize_counterexample :
    normalize (lit "/////x") = .ok (lit "///x") ∧
    normalize (lit "///x") = .ok (lit "/x") ∧
    (lit "///x" : Str) ≠ lit "/x" :=
  ⟨rfl, rfl, by decide⟩

/-- C8 (amended): on every URL whose defragmented form is bracket-free and
parses with a non-empty hostname — in particular every `http(s)://host...`
URL the crawler admits — canonicalization is idempotent: whenever
`normalize U` succeeds with value `V`, `normalize V` returns `V` itself. -/
theorem C8_normalize_idempotent (U d V : Str) (p : ParseResult)
    (hdf : urldefrag U = .ok d)
    (hdlb : hasChar '[' d = false)
    (hp : urlparse d = .ok p)
    (hhost : hostnameOf p.netloc ≠ [])
    (hV : normalize U = .ok V) :
    normalize V = .ok V :=
  normalize_fixed U d V p hdf hdlb hp hhost hV

/-- The amended C8 at a concrete URL with uppercase scheme and host, userinfo,
a non-default port, params, query and fragment: the normalized form is a fixed
point of `normalize`. -/
theorem C8_normalize_idempotent_witness :
    urldefrag (lit "HTTP://User:Pw@Ex.com:8080/p;q?r#s") =
      .ok (lit "http://User:Pw@Ex.com:8080/p;q?r") ∧
    normalize (lit "HTTP://User:Pw@Ex.com:8080/p;q?r#s") =
      .ok (lit "http://User:Pw@ex.com:8080/p;q?r") ∧
    normalize (lit "http://User:Pw@ex.com:8080/p;q?r") =
      .ok (lit "http://User:Pw@ex.com:8080/p;q?r") :=
  ⟨rfl, rfl,
    C8_normalize_idempotent (lit "HTTP://User:Pw@Ex.com:8080/p;q?r#s")
      (lit "http://User:Pw@Ex.com:8080/p;q?r")
      (lit "http://User:Pw@ex.com:8080/p;q?r")
      ⟨lit "http", lit "User:Pw@Ex.com:8080", lit "/p", lit "q", lit "r", []⟩
      rfl rfl rfl (by decide) rfl⟩

end Crawler
